import Mathlib

/-!
# Self-adjusting containers (`nwacc::array_list`, `nwacc::linked_list`)

A shallow embedding of `self_adjusting_array.h` and `self_adjusting_list.h`.

* C++ `int` is 32 bits wide: its values are the `Int`s of `[int_min, int_max]`, and `/`
  on `int` is truncating division (`Int.tdiv`). The sums and products the array computes
  (`initial_capacity + k_spare_capacity`, `capacity() * 3`, `new_size * 3`, `my_size++`)
  go through `wrap_int`, the reduction modulo `2^32` into that interval. Signed overflow
  is undefined behaviour in C++; wrap-around is what the usual two's-complement targets
  do, and it leaves every in-range result as it is. The decrement in `pop_back` and the
  node counter of the list are not wrapped: the first cannot overflow while
  `0 ≤ my_size`, the second would take `2^31 - 1` live nodes.
* `operator==` of the element type is Lean equality in `find`. `find_with` is the same
  code with `operator==` passed as a parameter, for element types whose `operator==`
  does not tell all values apart.
* The backing buffer `T* data` of an `array_list` is a `List T` with one entry per
  allocated slot; `nullptr` and a zero-length allocation are both the empty buffer.
  A store through an index outside the buffer (undefined behaviour in C++) leaves the
  buffer as it is, while the integer fields are updated exactly as the code updates them.
* The nodes of a `linked_list` live in an explicit heap; a `node*` is an `Option Nat`
  (`none` is `nullptr`), and dereferencing a null or dangling pointer makes the
  operation return `none`.
-/

namespace nwacc

/-- The exceptions thrown by the containers: `std::out_of_range`, thrown by the code
itself, and `std::bad_array_new_length`, thrown by `new T[n]` for a negative `n`. -/
inductive exception where
  | out_of_range
  | bad_array_new_length
  deriving DecidableEq, Repr

/-- The least value of a C++ `int`, `INT_MIN`. -/
def int_min : Int := -2147483648

/-- The greatest value of a C++ `int`, `INT_MAX`. -/
def int_max : Int := 2147483647

/-- The `int` that results from an `int` addition or multiplication whose mathematical
value is `x`: `x` itself when `int_min ≤ x ≤ int_max`, and otherwise `x` reduced modulo
`2^32` into that interval (two's-complement wrap-around). -/
def wrap_int (x : Int) : Int := (x + 2147483648) % 4294967296 - 2147483648

/-- The private fields of `array_list<T>`: `my_size`, `my_capacity`, `data`. -/
structure array_list (T : Type) where
  my_size : Int
  my_capacity : Int
  data : List T
  deriving DecidableEq, Repr

namespace array_list

variable {T : Type}

/-- The constant `static const int k_spare_capacity = 2;`. -/
def k_spare_capacity : Int := 2

/-- The allocation `new T[n]`: `n` value-initialised slots. -/
def new_array [Inhabited T] (n : Int) : List T :=
  List.replicate n.toNat default

/-- The constructor `explicit array_list(int initial_capacity = 0)`:
`my_size{ 0 }, my_capacity{ initial_capacity + k_spare_capacity }` followed by
`data = new T[my_capacity];`, which throws when `my_capacity` is negative. -/
def construct [Inhabited T] (initial_capacity : Int) : Except exception (array_list T) :=
  let my_capacity := wrap_int (initial_capacity + k_spare_capacity)
  if my_capacity < 0 then Except.error exception.bad_array_new_length
  else Except.ok { my_size := 0, my_capacity := my_capacity, data := new_array my_capacity }

/-- The member `int size() const`. -/
def size (a : array_list T) : Int := a.my_size

/-- The member `int capacity() const`. -/
def capacity (a : array_list T) : Int := a.my_capacity

/-- The member `bool empty() const`. -/
def empty (a : array_list T) : Bool := decide (a.size = 0)

/-- The member `operator[](int index)`: throws when the index is outside `[0, size)`. -/
def operator_index [Inhabited T] (a : array_list T) (index : Int) : Except exception T :=
  if index < 0 ∨ index ≥ a.size then Except.error exception.out_of_range
  else Except.ok (a.data.getD index.toNat default)

/-- The copy loop of `reserve`:
`for (index = 0; index < my_size; index++) new_data[index] = std::move(data[index]);`
with `remaining = my_size - index` iterations left. -/
def reserve_loop [Inhabited T] (data : List T) : Nat → Nat → List T → List T
  | 0, _, new_data => new_data
  | remaining + 1, index, new_data =>
    reserve_loop data remaining (index + 1) (new_data.set index (data.getD index default))

/-- The member `void reserve(int new_capacity)`. -/
def reserve [Inhabited T] (a : array_list T) (new_capacity : Int) : array_list T :=
  if new_capacity < a.my_size then a
  else
    let new_data : List T := new_array new_capacity
    let new_data := reserve_loop a.data a.my_size.toNat 0 new_data
    { my_size := a.my_size, my_capacity := new_capacity, data := new_data }

/-- The member `void resize(int new_size)`. -/
def resize [Inhabited T] (a : array_list T) (new_size : Int) : array_list T :=
  let a :=
    if new_size > a.my_capacity then a.reserve ((wrap_int (new_size * 3)).tdiv 2) else a
  { a with my_size := new_size }

/-- The member `void push_back(const T& value)`. -/
def push_back [Inhabited T] (a : array_list T) (value : T) : array_list T :=
  let a :=
    if a.my_size = a.my_capacity then a.reserve ((wrap_int (a.capacity * 3)).tdiv 2) else a
  { a with data := a.data.set a.my_size.toNat value, my_size := wrap_int (a.my_size + 1) }

/-- The member `void emplace_back(T&& value)`. -/
def emplace_back [Inhabited T] (a : array_list T) (value : T) : array_list T :=
  let a :=
    if a.my_size = a.my_capacity then a.reserve ((wrap_int (a.capacity * 3)).tdiv 2) else a
  { a with data := a.data.set a.my_size.toNat value, my_size := wrap_int (a.my_size + 1) }

/-- The member `void pop_back()`. -/
def pop_back (a : array_list T) : Except exception (array_list T) :=
  if a.empty then Except.error exception.out_of_range
  else Except.ok { a with my_size := a.my_size - 1 }

/-- The member `const T& back() const`. -/
def back [Inhabited T] (a : array_list T) : Except exception T :=
  if a.empty then Except.error exception.out_of_range
  else Except.ok (a.data.getD (a.my_size - 1).toNat default)

/-- The elements visited by iterating from `begin()` to `end()`: the slots `[0, size)`. -/
def to_list (a : array_list T) : List T := a.data.take a.my_size.toNat

/-- The inner loop of `find`:
`for (counter = 0; counter <= index; counter++) { next_value_temp = data[counter];
data[counter] = new_start; new_start = next_value_temp; }`
with `remaining = index + 1 - counter` iterations left. -/
def find_shift [Inhabited T] : Nat → Nat → T → List T → List T
  | 0, _, _, data => data
  | remaining + 1, counter, new_start, data =>
    let next_value_temp := data.getD counter default
    find_shift remaining (counter + 1) next_value_temp (data.set counter new_start)

/-- The outer loop of `find`: `for (index = 0; index < my_size; index++)`,
with `remaining = my_size - index` iterations left. -/
def find_loop [Inhabited T] [DecidableEq T] (key : T) (a : array_list T) :
    Nat → Nat → Bool × array_list T
  | 0, _ => (false, a)
  | remaining + 1, index =>
    if key = a.data.getD index default then
      let new_start := key
      (true, { a with data := find_shift (index + 1) 0 new_start a.data })
    else find_loop key a remaining (index + 1)

/-- The member `const bool find(const T& key)`: the returned flag and the array afterwards. -/
def find [Inhabited T] [DecidableEq T] (a : array_list T) (key : T) : Bool × array_list T :=
  find_loop key a a.my_size.toNat 0

/-- The data model of the array: a buffer of `my_capacity` slots of which the first
`my_size` are live, `0 ≤ my_size ≤ my_capacity`. -/
def valid (a : array_list T) : Prop :=
  0 ≤ a.my_size ∧ a.my_size ≤ a.my_capacity ∧ (a.data.length : Int) = a.my_capacity

instance (a : array_list T) : Decidable a.valid :=
  inferInstanceAs (Decidable
    (0 ≤ a.my_size ∧ a.my_size ≤ a.my_capacity ∧ (a.data.length : Int) = a.my_capacity))

end array_list

/-- The private `struct node` of `linked_list<T>`: `data`, `previous`, `next`.
A `node*` is an `Option Nat`: an address in the heap, or `none` for `nullptr`. -/
structure node (T : Type) where
  data : T
  previous : Option Nat
  next : Option Nat
  deriving DecidableEq, Repr

/-- The free store holding the nodes: address `p` holds `some n` while the node
allocated there is live and `none` once it has been deleted. -/
abbrev heap (T : Type) := List (Option (node T))

namespace heap

variable {T : Type}

/-- Read the node at address `p`; `none` when `p` was never allocated or was deleted. -/
def read (h : heap T) (p : Nat) : Option (node T) := h.getD p none

/-- Dereference a `node*`; `none` for `nullptr` and for dangling pointers. -/
def deref (h : heap T) (p : Option Nat) : Option (node T) := p.bind h.read

/-- Overwrite the node stored at address `p`. -/
def write (h : heap T) (p : Nat) (n : node T) : heap T := h.set p (some n)

/-- The expression `new node{...}`: the node is placed at a fresh address, which is returned. -/
def alloc (h : heap T) (n : node T) : heap T × Nat := (h ++ [some n], h.length)

/-- The statement `delete p;`. -/
def free (h : heap T) (p : Nat) : heap T := h.set p none

/-- The assignment `p->next = q;`. -/
def set_next (h : heap T) (p : Option Nat) (q : Option Nat) : Option (heap T) := do
  let a ← p
  let n ← h.read a
  pure (h.write a { n with next := q })

/-- The assignment `p->previous = q;`. -/
def set_previous (h : heap T) (p : Option Nat) (q : Option Nat) : Option (heap T) := do
  let a ← p
  let n ← h.read a
  pure (h.write a { n with previous := q })

end heap

/-- The private fields of `linked_list<T>`: `my_size`, `head`, `tail`. -/
structure linked_list (T : Type) where
  my_size : Int
  head : Option Nat
  tail : Option Nat
  deriving DecidableEq, Repr

namespace linked_list

variable {T : Type}

/-- The private member `void init()`, run by the constructor `linked_list()`. -/
def init [Inhabited T] (h : heap T) : Option (heap T × linked_list T) := do
  let my_size : Int := 0
  let (h, head) := h.alloc { data := default, previous := none, next := none }
  let (h, tail) := h.alloc { data := default, previous := none, next := none }
  let h ← h.set_next (some head) (some tail)
  let h ← h.set_previous (some tail) (some head)
  pure (h, { my_size := my_size, head := some head, tail := some tail })

/-- The member `iterator begin()`: `iterator(this->head->next)`. -/
def begin (h : heap T) (l : linked_list T) : Option (Option Nat) := do
  let n ← h.deref l.head
  pure n.next

/-- The member `iterator end()`: `iterator(this->tail)`. -/
def end_ (l : linked_list T) : Option Nat := l.tail

/-- The member `int size() const`. -/
def size (l : linked_list T) : Int := l.my_size

/-- The member `bool empty() const`. -/
def empty (l : linked_list T) : Bool := decide (l.size = 0)

/-- The member `iterator insert(iterator position, const T& value)`: returns the heap and
the list afterwards and the returned iterator. -/
def insert (h : heap T) (l : linked_list T) (position : Option Nat) (value : T) :
    Option (heap T × linked_list T × Option Nat) := do
  let current_node := position
  let l := { l with my_size := l.my_size + 1 }
  let cur ← h.deref current_node
  let (h, fresh) := h.alloc { data := value, previous := cur.previous, next := current_node }
  let h ← h.set_next cur.previous (some fresh)
  let h ← h.set_previous current_node (some fresh)
  pure (h, l, some fresh)

/-- The member `iterator erase(iterator position)`. -/
def erase (h : heap T) (l : linked_list T) (position : Option Nat) :
    Option (heap T × linked_list T × Option Nat) := do
  let current_position := position
  let cur ← h.deref current_position
  let value := cur.next
  let h ← h.set_next cur.previous cur.next
  let cur ← h.deref current_position
  let h ← h.set_previous cur.next cur.previous
  let p ← current_position
  let _ ← h.read p
  let h := h.free p
  pure (h, { l with my_size := l.my_size - 1 }, value)

/-- The member `T& front()`: `*this->begin()`. -/
def front (h : heap T) (l : linked_list T) : Option T := do
  let position ← begin h l
  let n ← h.deref position
  pure n.data

/-- The member `T& back()`: `*--this->end()`. -/
def back (h : heap T) (l : linked_list T) : Option T := do
  let e ← h.deref l.end_
  let n ← h.deref e.previous
  pure n.data

/-- The member `void push_front(const T& value)`. -/
def push_front (h : heap T) (l : linked_list T) (value : T) :
    Option (heap T × linked_list T) := do
  let position ← begin h l
  let (h, l, _) ← insert h l position value
  pure (h, l)

/-- The member `void push_back(const T& value)`. -/
def push_back (h : heap T) (l : linked_list T) (value : T) :
    Option (heap T × linked_list T) := do
  let (h, l, _) ← insert h l l.end_ value
  pure (h, l)

/-- The member `void pop_front()`. -/
def pop_front (h : heap T) (l : linked_list T) : Option (heap T × linked_list T) := do
  let position ← begin h l
  let (h, l, _) ← erase h l position
  pure (h, l)

/-- The member `void pop_back()`. -/
def pop_back (h : heap T) (l : linked_list T) : Option (heap T × linked_list T) := do
  let e ← h.deref l.end_
  let (h, l, _) ← erase h l e.previous
  pure (h, l)

/-- The loop of `find`, started at `position`:
`for (; position != end(); position++) if (*position == key) { push_front(*position);
erase(position); return true; }` and `return false;` after it. The first argument bounds
the number of iterations; `none` is returned when it is exhausted. -/
def find_loop [DecidableEq T] (key : T) (h : heap T) (l : linked_list T) :
    Nat → Option Nat → Option (heap T × linked_list T × Bool)
  | 0, _ => none
  | fuel + 1, position =>
    if position = l.end_ then some (h, l, false)
    else do
      let n ← h.deref position
      if n.data = key then do
        let (h, l) ← push_front h l n.data
        let (h, l, _) ← erase h l position
        pure (h, l, true)
      else find_loop key h l fuel n.next

/-- The member `bool find(T key)`. -/
def find [DecidableEq T] (fuel : Nat) (h : heap T) (l : linked_list T) (key : T) :
    Option (heap T × linked_list T × Bool) := do
  let position ← begin h l
  find_loop key h l fuel position

/-- Forward iteration `for (; position != stop; ++position)`, collecting `*position`. -/
def forward (h : heap T) (stop : Option Nat) : Nat → Option Nat → Option (List T)
  | 0, _ => none
  | fuel + 1, position =>
    if position = stop then some []
    else do
      let n ← h.deref position
      let rest ← forward h stop fuel n.next
      pure (n.data :: rest)

/-- Forward traversal from `begin()` to `end()`. -/
def to_list (fuel : Nat) (h : heap T) (l : linked_list T) : Option (List T) := do
  let position ← begin h l
  forward h l.end_ fuel position

/-- Backward iteration `while (position != stop) { --position; visit(*position); }`. -/
def backward (h : heap T) (stop : Option Nat) : Nat → Option Nat → Option (List T)
  | 0, _ => none
  | fuel + 1, position =>
    if position = stop then some []
    else do
      let n ← h.deref position
      let m ← h.deref n.previous
      let rest ← backward h stop fuel n.previous
      pure (m.data :: rest)

/-- Backward traversal: from `--end()` down to `begin()`. -/
def to_list_reverse (fuel : Nat) (h : heap T) (l : linked_list T) : Option (List T) := do
  let first ← begin h l
  backward h first fuel l.end_

/-- The `next` pointer of the live node at address `p`. -/
def next_of (h : heap T) (p : Nat) : Option Nat := (h.read p).bind node.next

/-- The `previous` pointer of the live node at address `p`. -/
def previous_of (h : heap T) (p : Nat) : Option Nat := (h.read p).bind node.previous

/-- The value stored in the live node at address `p`. -/
def data_of (h : heap T) (p : Nat) : Option T := (h.read p).map node.data

/-- Two live nodes are neighbours: `a->next == b` and `b->previous == a`. -/
def linked (h : heap T) (a b : Nat) : Prop :=
  next_of h a = some b ∧ previous_of h b = some a

instance (h : heap T) (a b : Nat) : Decidable (linked h a b) :=
  inferInstanceAs (Decidable (next_of h a = some b ∧ previous_of h b = some a))

/-- The data model of the list: the head sentinel, the nodes at the addresses `nodes` (in
order) and the tail sentinel are pairwise distinct live nodes, each linked to the next in
both directions; the nodes hold the values `s` and `my_size` is their number. -/
def well_formed (h : heap T) (l : linked_list T) (nodes : List Nat) (s : List T) : Prop :=
  ∃ hd tl, l.head = some hd ∧ l.tail = some tl ∧
    (hd :: (nodes ++ [tl])).Nodup ∧
    List.Chain' (linked h) (hd :: (nodes ++ [tl])) ∧
    nodes.map (data_of h) = s.map some ∧
    l.my_size = nodes.length

/-- The iterator obtained from `position` by `k` increments `++position`. -/
def advance (h : heap T) : Nat → Option Nat → Option (Option Nat)
  | 0, position => some position
  | k + 1, position => do
    let n ← h.deref position
    advance h k n.next

/-- The iterator `begin()` advanced `k` times. -/
def iterator_at (h : heap T) (l : linked_list T) (k : Nat) : Option (Option Nat) := do
  let position ← begin h l
  advance h k position

/-- A call made by a client of the list; positions are given as the number of increments
applied to `begin()`. -/
inductive operation (T : Type) where
  | push_front (value : T)
  | push_back (value : T)
  | insert (k : Nat) (value : T)
  | erase (k : Nat)

/-- Perform one client call. -/
def step (h : heap T) (l : linked_list T) : operation T → Option (heap T × linked_list T)
  | operation.push_front value => push_front h l value
  | operation.push_back value => push_back h l value
  | operation.insert k value => do
    let position ← iterator_at h l k
    let (h, l, _) ← insert h l position value
    pure (h, l)
  | operation.erase k => do
    let position ← iterator_at h l k
    let (h, l, _) ← erase h l position
    pure (h, l)

/-- Perform a sequence of client calls, in order. -/
def run : List (operation T) → heap T × linked_list T → Option (heap T × linked_list T)
  | [], state => some state
  | op :: ops, state => do
    let state ← step state.1 state.2 op
    run ops state

/-- The positions used by a sequence of calls on a list of `n` elements are valid:
`insert` gets a node or `end()` (`k ≤ n`), `erase` gets a non-sentinel node (`k < n`). -/
def valid_positions : Nat → List (operation T) → Prop
  | _, [] => True
  | n, operation.push_front _ :: ops => valid_positions (n + 1) ops
  | n, operation.push_back _ :: ops => valid_positions (n + 1) ops
  | n, operation.insert k _ :: ops => k ≤ n ∧ valid_positions (n + 1) ops
  | n, operation.erase k :: ops => k < n ∧ valid_positions (n - 1) ops

/-- The heap of the driver after `push_front` of "Shane", "Daniel", "Lela", "Tamara" on a
new list allocated in an empty heap. -/
def driver_heap : heap String :=
  [some ⟨"", none, some 5⟩, some ⟨"", some 2, none⟩, some ⟨"Shane", some 3, some 1⟩,
    some ⟨"Daniel", some 4, some 2⟩, some ⟨"Lela", some 5, some 3⟩,
    some ⟨"Tamara", some 0, some 4⟩]

/-- The fields of the driver's list `names` after its four `push_front` calls. -/
def driver_names : linked_list String := ⟨4, some 0, some 1⟩

end linked_list

end nwacc

namespace nwacc

namespace array_list

variable {T : Type}

/-- The move constructor `array_list(array_list&& rhs)`: the constructed array and `rhs`
afterwards (`rhs.data = nullptr; rhs.my_capacity = 0; rhs.my_size = 0;`). -/
def move_construct (rhs : array_list T) : array_list T × array_list T :=
  ({ my_size := rhs.my_size, my_capacity := rhs.my_capacity, data := rhs.data },
    { my_size := 0, my_capacity := 0, data := [] })

/-- The move assignment `operator=(array_list&& rhs)`, three `std::swap` calls on the
fields: `*this` and `rhs` afterwards. -/
def move_assign (self rhs : array_list T) : array_list T × array_list T :=
  ({ my_size := rhs.my_size, my_capacity := rhs.my_capacity, data := rhs.data },
    { my_size := self.my_size, my_capacity := self.my_capacity, data := self.data })

/-- The loop of the copy constructor:
`for (index = 0; index < my_size; index++) this->data[index] = rhs.data[index];`
with `remaining = my_size - index` iterations left. -/
def copy_loop [Inhabited T] (rhs_data : List T) : Nat → Nat → List T → List T
  | 0, _, data => data
  | remaining + 1, index, data =>
    copy_loop rhs_data remaining (index + 1) (data.set index (rhs_data.getD index default))

/-- The copy constructor `array_list(const array_list& rhs)`. -/
def copy_construct [Inhabited T] (rhs : array_list T) : array_list T :=
  let data : List T := new_array rhs.my_capacity
  { my_size := rhs.my_size, my_capacity := rhs.my_capacity,
    data := copy_loop rhs.data rhs.my_size.toNat 0 data }

/-- The call `std::swap(a, b)` on two arrays: `tmp(std::move(a)); a = std::move(b);
b = std::move(tmp);`, after which `tmp` is destroyed. -/
def swap (a b : array_list T) : array_list T × array_list T :=
  let (tmp, a) := move_construct a
  let (a, b) := move_assign a b
  let (b, _) := move_assign b tmp
  (a, b)

/-- The copy assignment `operator=(const array_list& rhs)`: `auto copy = rhs;
std::swap(*this, copy);`. Returns `*this` and `rhs` afterwards; `copy` is destroyed. -/
def copy_assign [Inhabited T] (self rhs : array_list T) : array_list T × array_list T :=
  let copy := copy_construct rhs
  let (self, _) := swap self copy
  (self, rhs)

/-- The outer loop of `find` with the element type's `operator==` passed as `eq`:
the test is `key == data[index]`, and on a match the shift starts from `new_start = key`.
`remaining = my_size - index` iterations are left. -/
def find_with_loop [Inhabited T] (eq : T → T → Bool) (key : T) (a : array_list T) :
    Nat → Nat → Bool × array_list T
  | 0, _ => (false, a)
  | remaining + 1, index =>
    if eq key (a.data.getD index default) then
      let new_start := key
      (true, { a with data := find_shift (index + 1) 0 new_start a.data })
    else find_with_loop eq key a remaining (index + 1)

/-- The member `const bool find(const T& key)` with the element type's `operator==`
passed as `eq`: the returned flag and the array afterwards. -/
def find_with [Inhabited T] (eq : T → T → Bool) (a : array_list T) (key : T) :
    Bool × array_list T :=
  find_with_loop eq key a a.my_size.toNat 0

end array_list

end nwacc

namespace nwacc

namespace heap

variable {T : Type}

/-- The statement `delete p;` on a `node*` that may be null: deleting `nullptr` does
nothing, deleting a dangling pointer is undefined. -/
def delete (h : heap T) (p : Option Nat) : Option (heap T) :=
  match p with
  | none => some h
  | some a => do
    let _ ← h.read a
    pure (h.free a)

end heap

namespace linked_list

variable {T : Type}

/-- The loop of `erase(iterator from, iterator to)`:
`for (auto position = from; position != to;) position = erase(position);` followed by
`return to;`. The argument `to_` is `to`; the first numeric argument bounds the number of
iterations. -/
def erase_range_loop (to_ : Option Nat) :
    Nat → heap T → linked_list T → Option Nat → Option (heap T × linked_list T × Option Nat)
  | 0, _, _, _ => none
  | fuel + 1, h, l, position =>
    if position = to_ then some (h, l, to_)
    else do
      let (h, l, position) ← erase h l position
      erase_range_loop to_ fuel h l position

/-- The member `iterator erase(iterator from, iterator to)`. -/
def erase_range (fuel : Nat) (h : heap T) (l : linked_list T) (from_ to_ : Option Nat) :
    Option (heap T × linked_list T × Option Nat) :=
  erase_range_loop to_ fuel h l from_

/-- The member `void clear()`: `while (!this->empty()) this->pop_front();`. -/
def clear : Nat → heap T → linked_list T → Option (heap T × linked_list T)
  | 0, _, _ => none
  | fuel + 1, h, l =>
    if l.empty then some (h, l)
    else do
      let (h, l) ← pop_front h l
      clear fuel h l

/-- The destructor `~linked_list()`: `clear(); delete head; delete tail;`. -/
def destroy (fuel : Nat) (h : heap T) (l : linked_list T) : Option (heap T) := do
  let (h, l) ← clear fuel h l
  let h ← h.delete l.head
  h.delete l.tail

/-- The move constructor `linked_list(linked_list&& rhs)`: the constructed list and `rhs`
afterwards (`rhs.my_size = 0; rhs.head = nullptr; rhs.tail = nullptr;`). -/
def move_construct (rhs : linked_list T) : linked_list T × linked_list T :=
  ({ my_size := rhs.my_size, head := rhs.head, tail := rhs.tail },
    { my_size := 0, head := none, tail := none })

/-- The move assignment `operator=(linked_list&& rhs)`, three `std::swap` calls on the
fields: `*this` and `rhs` afterwards. -/
def move_assign (self rhs : linked_list T) : linked_list T × linked_list T :=
  ({ my_size := rhs.my_size, head := rhs.head, tail := rhs.tail },
    { my_size := self.my_size, head := self.head, tail := self.tail })

/-- The call `std::swap(a, b)` on two lists: `tmp(std::move(a)); a = std::move(b);
b = std::move(tmp);`, after which `tmp` is destroyed. -/
def swap (fuel : Nat) (h : heap T) (a b : linked_list T) :
    Option (heap T × linked_list T × linked_list T) := do
  let (tmp, a) := move_construct a
  let (a, b) := move_assign a b
  let (b, tmp) := move_assign b tmp
  let h ← destroy fuel h tmp
  pure (h, a, b)

/-- The loop of the copy constructor, `for (auto& value : rhs) this->push_back(value);`,
started at `position` and stopping at `stop = rhs.end()`. -/
def copy_loop (stop : Option Nat) :
    Nat → heap T → linked_list T → Option Nat → Option (heap T × linked_list T)
  | 0, _, _, _ => none
  | fuel + 1, h, self, position =>
    if position = stop then some (h, self)
    else do
      let n ← h.deref position
      let (h, self) ← push_back h self n.data
      let n ← h.deref position
      copy_loop stop fuel h self n.next

/-- The copy constructor `linked_list(const linked_list& rhs)`. -/
def copy_construct [Inhabited T] (fuel : Nat) (h : heap T) (rhs : linked_list T) :
    Option (heap T × linked_list T) := do
  let (h, self) ← init h
  let position ← begin h rhs
  copy_loop rhs.end_ fuel h self position

/-- The copy assignment `operator=(const linked_list& rhs)`: `auto copy = rhs;
std::swap(*this, copy);`, after which `copy` is destroyed. Returns the heap, the fields of
`*this` afterwards and the fields of `rhs`, which the code does not write. When `rhs` is
`*this` itself the object afterwards is the second component. -/
def copy_assign [Inhabited T] (fuel : Nat) (h : heap T) (self rhs : linked_list T) :
    Option (heap T × linked_list T × linked_list T) := do
  let (h, copy) ← copy_construct fuel h rhs
  let (h, self, copy) ← swap fuel h self copy
  let h ← destroy fuel h copy
  pure (h, self, rhs)

/-- The loop of `find` with the element type's `operator==` passed as `eq`: the test is
`*position == key`, and on a match the stored element `*position` is pushed to the front
before its node is erased. -/
def find_with_loop (eq : T → T → Bool) (key : T) (h : heap T) (l : linked_list T) :
    Nat → Option Nat → Option (heap T × linked_list T × Bool)
  | 0, _ => none
  | fuel + 1, position =>
    if position = l.end_ then some (h, l, false)
    else do
      let n ← h.deref position
      if eq n.data key then do
        let (h, l) ← push_front h l n.data
        let (h, l, _) ← erase h l position
        pure (h, l, true)
      else find_with_loop eq key h l fuel n.next

/-- The member `bool find(T key)` with the element type's `operator==` passed as `eq`. -/
def find_with (eq : T → T → Bool) (fuel : Nat) (h : heap T) (l : linked_list T) (key : T) :
    Option (heap T × linked_list T × Bool) := do
  let position ← begin h l
  find_with_loop eq key h l fuel position

/-- A sequence of `push_back` calls, in order. -/
def push_back_all : List T → heap T × linked_list T → Option (heap T × linked_list T)
  | [], state => some state
  | value :: values, state => do
    let state ← push_back state.1 state.2 value
    push_back_all values state

/-- The pointers owned by a list with node addresses `nodes`: both sentinels and the
nodes. -/
def cells (l : linked_list T) (nodes : List Nat) : List (Option Nat) :=
  l.head :: (nodes.map some ++ [l.tail])

/-- The list `l` is well-formed in the heap `h` and iterating from `begin()` to `end()`
yields the sequence `s`. -/
def has_traversal (h : heap T) (l : linked_list T) (s : List T) : Prop :=
  (∃ nodes, well_formed h l nodes s) ∧ ∀ fuel, s.length < fuel → to_list fuel h l = some s

end linked_list

/-- The move-to-front rule on a sequence, as the specification words it: when `key`
occurs, the result is true and the first matching element is moved to the front while the
other elements keep their order; otherwise the result is false and the sequence is
unchanged. -/
def move_to_front_spec {T : Type} [DecidableEq T] (key : T) (s : List T) : Bool × List T :=
  if key ∈ s then (true, key :: s.erase key) else (false, s)

end nwacc

namespace nwacc

namespace array_list

variable {T : Type}

theorem set_take_succ (d : List T) (c : Nat) (x : T) (hc : c < d.length) :
    (d.set c x).take (c + 1) = d.take c ++ [x] := by
  rw [List.set_eq_take_append_cons_drop, if_pos hc]
  have hl : (d.take c).length = c := by simp; omega
  rw [List.take_append_eq_append_take, hl]
  simp

theorem find_shift_eq [Inhabited T] (n : Nat) : ∀ (c : Nat) (x : T) (d : List T),
    c + n ≤ d.length →
    find_shift n c x d = d.take c ++ (x :: d.drop c).take n ++ d.drop (c + n) := by
  induction n with
  | zero => intro c x d _; simp [find_shift]
  | succ n ih =>
    intro c x d h
    have hc : c < d.length := by omega
    rw [find_shift]
    rw [ih (c + 1) _ (d.set c x) (by simp; omega)]
    rw [List.getD_eq_getElem _ _ hc]
    have h2 : (d.set c x).drop (c + 1) = d.drop (c + 1) :=
      List.drop_set_of_lt _ _ (by omega)
    have h3 : (d.set c x).drop (c + 1 + n) = d.drop (c + 1 + n) :=
      List.drop_set_of_lt _ _ (by omega)
    rw [set_take_succ d c x hc, h2, h3, ← List.drop_eq_getElem_cons hc]
    simp [List.take_succ_cons, Nat.add_assoc, Nat.add_comm 1 n]

theorem find_shift_front [Inhabited T] (i : Nat) (key : T) (d : List T) (h : i < d.length) :
    find_shift (i + 1) 0 key d = key :: d.eraseIdx i := by
  rw [find_shift_eq _ _ _ _ (by omega)]
  simp [List.eraseIdx_eq_take_drop_succ]

theorem find_loop_absent [Inhabited T] [DecidableEq T] (key : T) (a : array_list T)
    (n : Nat) : ∀ index : Nat,
    (∀ j, index ≤ j → j < index + n → a.data.getD j default ≠ key) →
    find_loop key a n index = (false, a) := by
  induction n with
  | zero => intro index _; rfl
  | succ n ih =>
    intro index h
    rw [find_loop, if_neg (fun e => h index (Nat.le_refl _) (by omega) e.symm)]
    exact ih (index + 1) (fun j h1 h2 => h j (by omega) (by omega))

theorem find_loop_present [Inhabited T] [DecidableEq T] (key : T) (a : array_list T)
    (i : Nat) (n : Nat) : ∀ index : Nat, index ≤ i → i < index + n →
    a.data.getD i default = key →
    (∀ j, index ≤ j → j < i → a.data.getD j default ≠ key) →
    find_loop key a n index = (true, { a with data := find_shift (i + 1) 0 key a.data }) := by
  induction n with
  | zero => intro index h1 h2; omega
  | succ n ih =>
    intro index h1 h2 hkey hmin
    rw [find_loop]
    by_cases e : index = i
    · subst e
      rw [if_pos hkey.symm]
    · rw [if_neg (fun e2 => hmin index (Nat.le_refl _) (by omega) e2.symm)]
      exact ih (index + 1) (by omega) (by omega) hkey (fun j h3 h4 => hmin j (by omega) h4)

theorem operator_index_ok_iff [Inhabited T] (a : array_list T) (index : Int) (x : T) :
    a.operator_index index = Except.ok x ↔
      0 ≤ index ∧ index < a.my_size ∧ a.data.getD index.toNat default = x := by
  unfold operator_index size
  split_ifs with h
  · constructor
    · intro e; cases e
    · rintro ⟨h1, h2, _⟩; omega
  · constructor
    · intro e
      injection e with e
      exact ⟨by omega, by omega, e⟩
    · rintro ⟨_, _, e⟩; rw [e]

theorem eraseIdx_take (l : List T) (k n : Nat) (h : k < n) :
    (l.take n).eraseIdx k = (l.eraseIdx k).take (n - 1) := by
  apply List.ext_getElem?
  intro j
  simp only [List.getElem?_eraseIdx, List.getElem?_take]
  split_ifs <;> first | rfl | omega

theorem find_eq_of_first [Inhabited T] [DecidableEq T] (a : array_list T) (key : T) (i : Nat)
    (hi : (i : Int) < a.my_size) (hkey : a.data.getD i default = key)
    (hmin : ∀ j, j < i → a.data.getD j default ≠ key) :
    a.find key = (true, { a with data := find_shift (i + 1) 0 key a.data }) := by
  unfold find
  exact find_loop_present key a i _ 0 (Nat.zero_le _) (by omega) hkey (fun j _ h => hmin j h)

/-- C1. Array `find`, key present: when `i` is the smallest index of `[0, size)` whose
element equals `key`, `find(key)` returns true; afterwards element 0 is `key`, element
`j + 1` is the old element `j` for `0 ≤ j < i`, the elements at indices in `(i, size)` are
unchanged, `size()` and `capacity()` are unchanged, and the traversal is the old one with
position `i` moved to the front. -/
theorem find_moves_first_match_to_front [Inhabited T] [DecidableEq T]
    (a : array_list T) (key : T) (i : Int) (hv : a.valid)
    (hi : a.operator_index i = Except.ok key)
    (hmin : ∀ j : Int, j < i → a.operator_index j ≠ Except.ok key) :
    (a.find key).1 = true ∧
    (a.find key).2.operator_index 0 = Except.ok key ∧
    (∀ j : Int, 0 ≤ j → j < i →
      (a.find key).2.operator_index (j + 1) = a.operator_index j) ∧
    (∀ j : Int, i < j → j < a.size →
      (a.find key).2.operator_index j = a.operator_index j) ∧
    (a.find key).2.size = a.size ∧
    (a.find key).2.capacity = a.capacity ∧
    (a.find key).2.to_list = key :: a.to_list.eraseIdx i.toNat := by
  obtain ⟨hv0, hv1, hv2⟩ := hv
  obtain ⟨hi0, hi1, hi2⟩ := (operator_index_ok_iff a i key).1 hi
  have hlen : i.toNat < a.data.length := by omega
  have hfind : a.find key = (true, { a with data := key :: a.data.eraseIdx i.toNat }) := by
    rw [← find_shift_front i.toNat key a.data hlen]
    apply find_eq_of_first a key i.toNat (by omega) hi2
    intro j hj e
    exact hmin (j : Int) (by omega)
      ((operator_index_ok_iff a j key).2 ⟨by omega, by omega, by simpa using e⟩)
  rw [hfind]
  refine ⟨rfl, ?_, ?_, ?_, rfl, rfl, ?_⟩
  · exact (operator_index_ok_iff _ 0 key).2 ⟨le_refl _, by simp only []; omega, rfl⟩
  · intro j hj0 hji
    have e : (j + 1).toNat = j.toNat + 1 := by omega
    have hlt : j.toNat < i.toNat := by omega
    unfold operator_index size
    simp only []
    rw [if_neg (by omega), if_neg (by omega), e, List.getD_cons_succ,
      List.getD_eq_getElem?_getD, List.getD_eq_getElem?_getD, List.getElem?_eraseIdx,
      if_pos hlt]
  · intro j hij hjs
    unfold size at hjs
    obtain ⟨m, hm⟩ : ∃ m : Nat, j.toNat = m + 1 := ⟨j.toNat - 1, by omega⟩
    have hge : ¬ m < i.toNat := by omega
    unfold operator_index size
    simp only []
    rw [if_neg (by omega), if_neg (by omega), hm, List.getD_cons_succ,
      List.getD_eq_getElem?_getD, List.getD_eq_getElem?_getD, List.getElem?_eraseIdx,
      if_neg hge]
  · unfold to_list
    simp only []
    obtain ⟨m, hm⟩ : ∃ m : Nat, a.my_size.toNat = m + 1 := ⟨a.my_size.toNat - 1, by omega⟩
    rw [hm, List.take_succ_cons, eraseIdx_take _ _ _ (by omega)]
    simp

/-- Witness for C1 on the driver's array: capacity 5, pushes 45, 23, 12, 10, 13, then
`find(12)` with the first match at index 2. -/
theorem find_moves_first_match_to_front_witness :
    (array_list.find (T := Int) ⟨5, 7, [45, 23, 12, 10, 13, 0, 0]⟩ 12).1 = true ∧
    (array_list.find (T := Int) ⟨5, 7, [45, 23, 12, 10, 13, 0, 0]⟩ 12).2.to_list
      = 12 :: [45, 23, 12, 10, 13].eraseIdx 2 := by
  have h := find_moves_first_match_to_front (T := Int) ⟨5, 7, [45, 23, 12, 10, 13, 0, 0]⟩ 12 2
    (by decide) rfl
    (by
      intro j hj
      rw [Ne, operator_index_ok_iff]
      rintro ⟨h0, -, h2⟩
      have : j = 0 ∨ j = 1 := by omega
      rcases this with rfl | rfl <;> simp at h2)
  exact ⟨h.1, h.2.2.2.2.2.2⟩

/-- C3. Array `find` result and absent case: `find(key)` returns true exactly when some
element at an index in `[0, size)` equals `key`; when none does it returns false and the
array (elements, size and capacity) is unchanged. -/
theorem find_true_iff_present [Inhabited T] [DecidableEq T]
    (a : array_list T) (key : T) (hv : a.valid) :
    ((a.find key).1 = true ↔ ∃ i : Int, a.operator_index i = Except.ok key) ∧
    ((¬ ∃ i : Int, a.operator_index i = Except.ok key) →
      a.find key = (false, a) ∧ (a.find key).2.to_list = a.to_list ∧
      (a.find key).2.size = a.size ∧ (a.find key).2.capacity = a.capacity) := by
  obtain ⟨hv0, hv1, hv2⟩ := hv
  by_cases hex : ∃ k : Nat, (k : Int) < a.my_size ∧ a.data.getD k default = key
  · have hfst := find_eq_of_first a key (Nat.find hex) (Nat.find_spec hex).1
      (Nat.find_spec hex).2
      (fun j hj e => Nat.find_min hex hj
        ⟨lt_trans (by exact_mod_cast hj) (Nat.find_spec hex).1, e⟩)
    have hpres : ∃ i : Int, a.operator_index i = Except.ok key := by
      obtain ⟨k, hk1, hk2⟩ := hex
      exact ⟨k, (operator_index_ok_iff a k key).2 ⟨by omega, hk1, by simpa using hk2⟩⟩
    refine ⟨⟨fun _ => hpres, fun _ => by rw [hfst]⟩, fun hn => absurd hpres hn⟩
  · have habs : a.find key = (false, a) := by
      unfold find
      apply find_loop_absent
      intro j _ hj e
      exact hex ⟨j, by omega, e⟩
    have hnone : ¬ ∃ i : Int, a.operator_index i = Except.ok key := by
      rintro ⟨i, hi⟩
      obtain ⟨h0, h1, h2⟩ := (operator_index_ok_iff a i key).1 hi
      exact hex ⟨i.toNat, by omega, h2⟩
    refine ⟨⟨fun h => ?_, fun h => absurd h hnone⟩, fun _ => ?_⟩
    · rw [habs] at h; cases h
    · rw [habs]; exact ⟨rfl, rfl, rfl, rfl⟩

/-- Witness for C3 on the driver's array: `find(999)` on 45, 23, 12, 10, 13. -/
theorem find_true_iff_present_witness :
    array_list.find (T := Int) ⟨5, 7, [45, 23, 12, 10, 13, 0, 0]⟩ 999
      = (false, ⟨5, 7, [45, 23, 12, 10, 13, 0, 0]⟩) := by
  have h := find_true_iff_present (T := Int) ⟨5, 7, [45, 23, 12, 10, 13, 0, 0]⟩ 999
    (by decide)
  refine (h.2 ?_).1
  rintro ⟨i, hi⟩
  obtain ⟨h0, h1, h2⟩ := (operator_index_ok_iff _ i _).1 hi
  simp only [] at h1
  have : i = 0 ∨ i = 1 ∨ i = 2 ∨ i = 3 ∨ i = 4 := by omega
  rcases this with rfl | rfl | rfl | rfl | rfl <;> simp at h2

theorem reserve_loop_eq [Inhabited T] (data : List T) (n : Nat) :
    ∀ (index : Nat) (new_data : List T),
    index + n ≤ data.length → index + n ≤ new_data.length →
    reserve_loop data n index new_data
      = new_data.take index ++ (data.drop index).take n ++ new_data.drop (index + n) := by
  induction n with
  | zero => intro index nd _ _; simp [reserve_loop]
  | succ n ih =>
    intro index nd h1 h2
    have hc : index < data.length := by omega
    have hd : index < nd.length := by omega
    rw [reserve_loop, ih (index + 1) _ (by omega) (by simp; omega),
      List.getD_eq_getElem _ _ hc, set_take_succ nd index _ hd,
      List.drop_set_of_lt _ _ (by omega), List.drop_eq_getElem_cons hc,
      List.take_succ_cons]
    simp only [List.append_assoc, List.cons_append, List.nil_append, Nat.add_assoc,
      Nat.add_comm 1 n]

theorem reserve_data [Inhabited T] (a : array_list T) (new_capacity : Int) (hv : a.valid)
    (h : ¬ new_capacity < a.my_size) :
    a.reserve new_capacity =
      { my_size := a.my_size, my_capacity := new_capacity,
        data := a.data.take a.my_size.toNat ++
          List.replicate (new_capacity.toNat - a.my_size.toNat) default } := by
  obtain ⟨hv0, hv1, hv2⟩ := hv
  unfold reserve
  rw [if_neg h]
  simp only []
  rw [reserve_loop_eq _ _ _ _ (by omega) (by simp [new_array]; omega)]
  simp [new_array]

theorem reserve_valid [Inhabited T] (a : array_list T) (new_capacity : Int) (hv : a.valid) :
    (a.reserve new_capacity).valid := by
  by_cases h : new_capacity < a.my_size
  · unfold reserve; rw [if_pos h]; exact hv
  · rw [reserve_data a _ hv h]
    obtain ⟨hv0, hv1, hv2⟩ := hv
    refine ⟨hv0, by simp only []; omega, ?_⟩
    simp only [List.length_append, List.length_take, List.length_replicate]
    omega

theorem reserve_to_list [Inhabited T] (a : array_list T) (new_capacity : Int) (hv : a.valid) :
    (a.reserve new_capacity).to_list = a.to_list := by
  by_cases h : new_capacity < a.my_size
  · unfold reserve; rw [if_pos h]
  · rw [reserve_data a _ hv h]
    obtain ⟨hv0, hv1, hv2⟩ := hv
    unfold to_list
    simp only []
    rw [List.take_append_eq_append_take]
    have hl : (a.data.take a.my_size.toNat).length = a.my_size.toNat := by
      simp; omega
    simp [hl]

theorem operator_index_eq_of_to_list [Inhabited T] (a b : array_list T) (ha : a.valid)
    (hb : b.valid) (hs : a.my_size = b.my_size) (hl : a.to_list = b.to_list) (i : Int) :
    a.operator_index i = b.operator_index i := by
  unfold operator_index size
  rw [hs]
  split_ifs with h
  · rfl
  · have h1 : i.toNat < b.my_size.toNat := by omega
    have e : ∀ c : array_list T, c.valid → i.toNat < c.my_size.toNat →
        c.data.getD i.toNat default = c.to_list.getD i.toNat default := by
      intro c hc hi
      unfold to_list
      rw [List.getD_eq_getElem?_getD, List.getD_eq_getElem?_getD, List.getElem?_take,
        if_pos hi]
    rw [e a ha (by omega), e b hb h1, hl]

/-- C8. Array `reserve`: if `new_capacity < size()` nothing changes; otherwise the
capacity becomes exactly `new_capacity`, the size is unchanged, and every element at an
index in `[0, size)` is the same value as before, in the same order. -/
theorem reserve_exact_capacity_keeps_elements [Inhabited T]
    (a : array_list T) (new_capacity : Int) (hv : a.valid) :
    (new_capacity < a.size → a.reserve new_capacity = a) ∧
    (¬ new_capacity < a.size →
      (a.reserve new_capacity).capacity = new_capacity ∧
      (a.reserve new_capacity).size = a.size ∧
      (∀ i : Int, 0 ≤ i → i < a.size →
        (a.reserve new_capacity).operator_index i = a.operator_index i) ∧
      (a.reserve new_capacity).to_list = a.to_list) := by
  refine ⟨fun h => by unfold reserve; rw [if_pos (show new_capacity < a.my_size from h)],
    fun h => ?_⟩
  have hd := reserve_data a new_capacity hv h
  refine ⟨by rw [hd]; rfl, by rw [hd]; rfl, fun i _ _ => ?_, reserve_to_list a _ hv⟩
  exact operator_index_eq_of_to_list _ _ (reserve_valid a _ hv) hv (by rw [hd])
    (reserve_to_list a _ hv) i

/-- Witness for C8: reserving 4 slots on the array 7, 8 of capacity 2. -/
theorem reserve_exact_capacity_keeps_elements_witness :
    (array_list.reserve (T := Int) ⟨2, 2, [7, 8]⟩ 4).capacity = 4 ∧
    (array_list.reserve (T := Int) ⟨2, 2, [7, 8]⟩ 4).to_list = [7, 8] := by
  have h := (reserve_exact_capacity_keeps_elements (T := Int) ⟨2, 2, [7, 8]⟩ 4
    (by decide)).2 (by decide)
  exact ⟨h.1, h.2.2.2⟩

theorem wrap_int_eq (x : Int) (h1 : int_min ≤ x) (h2 : x ≤ int_max) : wrap_int x = x := by
  unfold int_min at h1
  unfold int_max at h2
  unfold wrap_int
  omega

theorem store_at_size [Inhabited T] (a : array_list T) (value : T) (hv : a.valid)
    (hroom : a.my_size < a.my_capacity) :
    (array_list.mk (a.my_size + 1) a.my_capacity (a.data.set a.my_size.toNat value)).valid ∧
    (array_list.mk (a.my_size + 1) a.my_capacity (a.data.set a.my_size.toNat value)).to_list
      = a.to_list ++ [value] := by
  obtain ⟨hv0, hv1, hv2⟩ := hv
  refine ⟨⟨by simp only []; omega, by simp only []; omega, by simpa using hv2⟩, ?_⟩
  unfold to_list
  simp only []
  have e : (a.my_size + 1).toNat = a.my_size.toNat + 1 := by omega
  rw [e, set_take_succ _ _ _ (by omega)]

theorem growth_step (c : Int) (h : 2 ≤ c) (hmax : c * 3 ≤ int_max) :
    (wrap_int (c * 3)).tdiv 2 = (c * 3) / 2 ∧ c < (c * 3) / 2 ∧ (c * 3) / 2 ≤ int_max := by
  rw [wrap_int_eq _ (by unfold int_min; omega) hmax,
    Int.tdiv_eq_ediv (by omega) (by omega)]
  unfold int_max at hmax ⊢
  omega

theorem push_back_grows [Inhabited T] (a : array_list T) (value : T) (hv : a.valid)
    (hcap : 2 ≤ a.my_capacity) (hmax : a.my_capacity ≤ int_max)
    (hsize : a.my_size * 3 ≤ int_max) :
    (a.push_back value).valid ∧ 2 ≤ (a.push_back value).my_capacity ∧
    (a.push_back value).my_capacity ≤ int_max ∧
    (a.push_back value).my_size = a.my_size + 1 ∧
    (a.push_back value).to_list = a.to_list ++ [value] := by
  have hw : wrap_int (a.my_size + 1) = a.my_size + 1 := by
    obtain ⟨h0, h1, _⟩ := hv
    apply wrap_int_eq
    · unfold int_min; omega
    · unfold int_max at hmax hsize ⊢; omega
  unfold push_back capacity
  by_cases hfull : a.my_size = a.my_capacity
  · simp only [if_pos hfull]
    obtain ⟨hq, hg, hgm⟩ := growth_step a.my_capacity hcap (by rw [← hfull]; exact hsize)
    rw [hq]
    have hnot : ¬ (a.my_capacity * 3) / 2 < a.my_size := by omega
    have hd := reserve_data a _ hv hnot
    have hrv := reserve_valid a ((a.my_capacity * 3) / 2) hv
    have hrl := reserve_to_list a ((a.my_capacity * 3) / 2) hv
    have hs : (a.reserve ((a.my_capacity * 3) / 2)).my_size = a.my_size := by rw [hd]
    have hc : (a.reserve ((a.my_capacity * 3) / 2)).my_capacity
        = (a.my_capacity * 3) / 2 := by rw [hd]
    have hst := store_at_size (a.reserve ((a.my_capacity * 3) / 2)) value hrv
      (by rw [hs, hc]; omega)
    rw [hs] at hst ⊢
    rw [hw]
    refine ⟨hst.1, ?_, ?_, rfl, ?_⟩
    · simp only [hc]; omega
    · simp only [hc]; exact hgm
    · rw [← hrl]; exact hst.2
  · simp only [if_neg hfull]
    rw [hw]
    have hst := store_at_size a value hv (by obtain ⟨_, h1, _⟩ := hv; omega)
    exact ⟨hst.1, hcap, hmax, rfl, hst.2⟩

theorem foldl_push_back [Inhabited T] (vs : List T) : ∀ (a : array_list T), a.valid →
    2 ≤ a.my_capacity → a.my_capacity ≤ int_max →
    (a.my_size + vs.length) * 3 ≤ int_max + 3 →
    (vs.foldl push_back a).valid ∧
    (vs.foldl push_back a).my_size = a.my_size + vs.length ∧
    (vs.foldl push_back a).to_list = a.to_list ++ vs := by
  induction vs with
  | nil => intro a hv _ _ _; simp [hv]
  | cons v vs ih =>
    intro a hv hcap hmax hlen
    rw [List.length_cons] at hlen
    push_cast at hlen
    obtain ⟨h1, h2, h3, h4, h5⟩ := push_back_grows a v hv hcap hmax (by omega)
    obtain ⟨i1, i2, i3⟩ := ih (a.push_back v) h1 h2 h3 (by rw [h4]; omega)
    rw [List.foldl_cons]
    refine ⟨i1, ?_, ?_⟩
    · rw [i2, h4, List.length_cons]; push_cast; omega
    · rw [i3, h5]; simp

theorem construct_eq [Inhabited T] (initial_capacity : Int) (h : 0 ≤ initial_capacity)
    (hmax : initial_capacity + k_spare_capacity ≤ int_max) :
    (construct initial_capacity : Except exception (array_list T)) =
      Except.ok ⟨0, initial_capacity + k_spare_capacity,
        new_array (initial_capacity + k_spare_capacity)⟩ := by
  unfold construct
  simp only []
  rw [wrap_int_eq _ (by unfold int_min k_spare_capacity; omega) hmax,
    if_neg (by unfold k_spare_capacity; omega)]

theorem construct_valid [Inhabited T] (initial_capacity : Int) (h : 0 ≤ initial_capacity)
    (hmax : initial_capacity + k_spare_capacity ≤ int_max) :
    ∃ a : array_list T, construct initial_capacity = Except.ok a ∧ a.valid ∧
      a.my_size = 0 ∧ a.my_capacity = initial_capacity + k_spare_capacity ∧
      a.to_list = [] := by
  refine ⟨_, construct_eq initial_capacity h hmax, ?_, rfl, rfl, ?_⟩
  · unfold k_spare_capacity valid new_array
    simp only [List.length_replicate]
    refine ⟨le_refl _, by omega, by omega⟩
  · simp [to_list]

/-- Pushing at most 715827883 values onto an array freshly constructed with an initial
capacity in `[0, INT_MAX - 2]` involves no `int` overflow: afterwards `size()` is the
number of pushes, `operator[](i)` is the `i`-th pushed value and the traversal is the
pushed sequence. -/
theorem push_back_sequence_in_range [Inhabited T] (initial_capacity : Int)
    (hcap : 0 ≤ initial_capacity) (hmax : initial_capacity + k_spare_capacity ≤ int_max)
    (vs : List T) (hlen : vs.length ≤ 715827883) :
    ∃ a : array_list T, construct initial_capacity = Except.ok a ∧
      (vs.foldl push_back a).valid ∧
      (vs.foldl push_back a).size = vs.length ∧
      (∀ (i : Nat) (hi : i < vs.length),
        (vs.foldl push_back a).operator_index i = Except.ok (vs.get ⟨i, hi⟩)) ∧
      (vs.foldl push_back a).to_list = vs := by
  obtain ⟨a, hc, c1, c2, c3, c4⟩ := construct_valid (T := T) initial_capacity hcap hmax
  obtain ⟨f1, f2, f3⟩ := foldl_push_back vs a c1
    (by rw [c3]; unfold k_spare_capacity; omega) (by rw [c3]; exact hmax)
    (by rw [c2]; unfold int_max; omega)
  have hsz : (vs.foldl push_back a).my_size = vs.length := by
    rw [f2, c2]; simp
  have hl : (vs.foldl push_back a).to_list = vs := by
    rw [f3, c4]; rfl
  refine ⟨a, hc, f1, hsz, fun i hi => ?_, hl⟩
  rw [operator_index_ok_iff]
  refine ⟨by omega, by omega, ?_⟩
  have hget : (vs.foldl push_back a).to_list.getD i default = vs.get ⟨i, hi⟩ := by
    rw [hl, List.getD_eq_getElem _ _ hi]; rfl
  rw [← hget]
  unfold to_list
  rw [List.getD_eq_getElem?_getD, List.getD_eq_getElem?_getD, List.getElem?_take,
    if_pos (by omega)]
  rfl

/-- C5 (failing input). After `array_list<int> a(0); a.reserve(1); a.push_back(7);
a.push_back(8);` the fields are `my_size = 2` and `my_capacity = 1`: the growth request
`(1 * 3) / 2 = 1` does not enlarge the buffer, yet the size is incremented. -/
theorem push_back_overruns_capacity_one :
    ∃ a : array_list Int, construct 0 = Except.ok a ∧
      (((a.reserve 1).push_back 7).push_back 8).size = 2 ∧
      (((a.reserve 1).push_back 7).push_back 8).capacity = 1 ∧
      ¬ (((a.reserve 1).push_back 7).push_back 8).capacity
          ≥ (((a.reserve 1).push_back 7).push_back 8).size :=
  ⟨_, rfl, by decide⟩

end array_list

end nwacc

namespace nwacc

namespace heap

variable {T : Type}

theorem read_lt (h : heap T) (p : Nat) (n : node T) (e : h.read p = some n) :
    p < h.length := by
  unfold read at e
  by_contra hlt
  rw [List.getD_eq_default _ _ (by omega)] at e
  cases e

theorem read_write_same (h : heap T) (p : Nat) (n : node T) (hp : p < h.length) :
    (h.write p n).read p = some n := by
  unfold read write
  rw [List.getD_eq_getElem _ _ (by simpa using hp)]
  simp

theorem read_write_ne (h : heap T) (p q : Nat) (n : node T) (hne : p ≠ q) :
    (h.write p n).read q = h.read q := by
  unfold read write
  rw [List.getD_eq_getElem?_getD, List.getD_eq_getElem?_getD, List.getElem?_set_ne hne]

theorem read_free_ne (h : heap T) (p q : Nat) (hne : p ≠ q) :
    (h.free p).read q = h.read q := by
  unfold read free
  rw [List.getD_eq_getElem?_getD, List.getD_eq_getElem?_getD, List.getElem?_set_ne hne]

theorem read_alloc_old (h : heap T) (n : node T) (q : Nat) (hq : q < h.length) :
    (h.alloc n).1.read q = h.read q := by
  unfold read alloc
  rw [List.getD_eq_getElem?_getD, List.getD_eq_getElem?_getD,
    List.getElem?_append_left hq]

theorem read_alloc_new (h : heap T) (n : node T) :
    (h.alloc n).1.read h.length = some n := by
  unfold read alloc
  rw [List.getD_eq_getElem?_getD]
  simp

theorem length_write (h : heap T) (p : Nat) (n : node T) :
    (h.write p n).length = h.length := by
  unfold write; simp

theorem length_alloc (h : heap T) (n : node T) : (h.alloc n).1.length = h.length + 1 := by
  unfold alloc; simp

end heap

end nwacc

namespace nwacc

namespace linked_list

variable {T : Type}

theorem next_of_some (h : heap T) (a b : Nat) (e : next_of h a = some b) :
    ∃ n, h.read a = some n ∧ n.next = some b := by
  unfold next_of at e
  cases hr : h.read a with
  | none => rw [hr] at e; cases e
  | some n => rw [hr] at e; exact ⟨n, rfl, e⟩

theorem previous_of_some (h : heap T) (a b : Nat) (e : previous_of h b = some a) :
    ∃ n, h.read b = some n ∧ n.previous = some a := by
  unfold previous_of at e
  cases hr : h.read b with
  | none => rw [hr] at e; cases e
  | some n => rw [hr] at e; exact ⟨n, rfl, e⟩

theorem data_of_some (h : heap T) (a : Nat) (v : T) (e : data_of h a = some v) :
    ∃ n, h.read a = some n ∧ n.data = v := by
  unfold data_of at e
  cases hr : h.read a with
  | none => rw [hr] at e; cases e
  | some n => rw [hr] at e; exact ⟨n, rfl, by simpa using e⟩

theorem chain_frame {R S : Nat → Nat → Prop} : ∀ (cs : List Nat), List.Chain' R cs →
    (∀ x y, x ∈ cs.dropLast → y ∈ cs.tail → R x y → S x y) → List.Chain' S cs
  | [], _, _ => List.chain'_nil
  | [_], _, _ => List.chain'_singleton _
  | a :: b :: t, hc, hf => by
    rw [List.chain'_cons] at hc ⊢
    refine ⟨hf a b (by simp) (by simp) hc.1, ?_⟩
    apply chain_frame (b :: t) hc.2
    intro x y hx hy hr
    exact hf x y (by rw [List.dropLast_cons₂]; exact List.mem_cons_of_mem _ hx)
      (by have ht : y ∈ t := hy
          exact List.mem_cons_of_mem _ ht) hr

theorem chain_live (h : heap T) : ∀ (cs : List Nat), List.Chain' (linked h) cs →
    2 ≤ cs.length → ∀ x ∈ cs, x < h.length
  | [], _, hl, _, _ => by simp at hl
  | [_], _, hl, _, _ => by simp at hl
  | a :: b :: t, hc, _, x, hx => by
    rw [List.chain'_cons] at hc
    obtain ⟨na, hna, _⟩ := next_of_some h a b hc.1.1
    obtain ⟨nb, hnb, _⟩ := previous_of_some h a b hc.1.2
    rcases List.mem_cons.1 hx with rfl | hx
    · exact heap.read_lt h _ _ hna
    · cases t with
      | nil =>
        rcases List.mem_singleton.1 hx with rfl
        exact heap.read_lt h _ _ hnb
      | cons c t => exact chain_live h (b :: c :: t) hc.2 (by simp) x hx

end linked_list

end nwacc

namespace nwacc

namespace linked_list

variable {T : Type}

theorem nodup_split (F G : List Nat) (a b : Nat) (hnd : (F ++ a :: b :: G).Nodup) :
    (∀ x ∈ F, x ≠ a ∧ x ≠ b) ∧ a ≠ b ∧ (∀ x ∈ G, x ≠ a ∧ x ≠ b) := by
  rw [List.nodup_append, List.nodup_cons, List.nodup_cons] at hnd
  obtain ⟨-, ⟨ha, hb, -⟩, hdis⟩ := hnd
  refine ⟨fun x hx => ⟨?_, ?_⟩, ?_, fun x hx => ⟨?_, ?_⟩⟩
  · rintro rfl; exact hdis hx (by simp)
  · rintro rfl; exact hdis hx (by simp)
  · rintro rfl; exact ha (by simp)
  · rintro rfl; exact ha (by simp [hx])
  · rintro rfl; exact hb hx

theorem insert_split (h : heap T) (l : linked_list T) (hd tl : Nat) (A B : List Nat)
    (sA sB : List T) (value : T)
    (hnd : (hd :: (A ++ B ++ [tl])).Nodup)
    (hch : List.Chain' (linked h) (hd :: (A ++ B ++ [tl])))
    (hdA : A.map (data_of h) = sA.map some) (hdB : B.map (data_of h) = sB.map some) :
    ∃ h', insert h l (B ++ [tl]).head? value
        = some (h', { l with my_size := l.my_size + 1 }, some h.length) ∧
      (hd :: (A ++ h.length :: B ++ [tl])).Nodup ∧
      List.Chain' (linked h') (hd :: (A ++ h.length :: B ++ [tl])) ∧
      (A ++ h.length :: B).map (data_of h') = (sA ++ value :: sB).map some ∧
      next_of h' h.length = (B ++ [tl]).head? ∧
      data_of h' h.length = some value ∧
      h'.length = h.length + 1 ∧
      (∀ q, q ∉ hd :: (A ++ B ++ [tl]) → q < h.length → h'.read q = h.read q) := by
  obtain ⟨F, a, hFa⟩ : ∃ F a, hd :: A = F ++ [a] := by
    rcases List.eq_nil_or_concat (hd :: A) with e | ⟨F, a, e⟩
    · cases e
    · exact ⟨F, a, by simpa using e⟩
  obtain ⟨b, G, hbG⟩ : ∃ b G, B ++ [tl] = b :: G := by
    cases B with
    | nil => exact ⟨tl, [], rfl⟩
    | cons b B => exact ⟨b, B ++ [tl], rfl⟩
  have hcells : hd :: (A ++ B ++ [tl]) = F ++ a :: b :: G := by
    rw [List.append_assoc, ← List.cons_append, hFa, hbG]; simp
  have hcells' : hd :: (A ++ h.length :: B ++ [tl]) = F ++ a :: h.length :: b :: G := by
    rw [List.append_assoc, ← List.cons_append, hFa, List.cons_append, hbG]; simp
  rw [hcells] at hnd hch
  have hlive := chain_live h _ hch (by simp; omega)
  rw [List.chain'_append_cons_cons] at hch
  obtain ⟨hchF, hab, hchG⟩ := hch
  obtain ⟨an, han, hann⟩ := next_of_some h a b hab.1
  obtain ⟨cur, hcur, hcurp⟩ := previous_of_some h a b hab.2
  have hane : a ≠ b := (nodup_split F G a b hnd).2.1
  have ha_lt : a < h.length := heap.read_lt h _ _ han
  have hb_lt : b < h.length := heap.read_lt h _ _ hcur
  -- the three heap updates performed by `insert`
  let h1 : heap T := (h.alloc { data := value, previous := some a, next := some b }).1
  let h2 : heap T := h1.write a { an with next := some h.length }
  let h3 : heap T := h2.write b { cur with previous := some h.length }
  have r1a : h1.read a = some an := by
    rw [heap.read_alloc_old _ _ _ ha_lt]; exact han
  have r2b : h2.read b = some cur := by
    rw [heap.read_write_ne _ _ _ _ hane, heap.read_alloc_old _ _ _ hb_lt]; exact hcur
  have hrun : insert h l (B ++ [tl]).head? value
      = some (h3, { l with my_size := l.my_size + 1 }, some h.length) := by
    rw [hbG]
    simp only [insert, List.head?_cons, heap.deref, Option.bind_eq_bind, Option.some_bind,
      hcur, hcurp, heap.set_next, heap.set_previous, heap.alloc]
    have r1a' : heap.read (h ++ [some (node.mk value (some a) (some b))]) a
        = some an := r1a
    simp only [r1a', Option.some_bind, Option.pure_def]
    have r2b' : heap.read (heap.write (h ++ [some (node.mk value (some a) (some b))]) a
        (node.mk an.data an.previous (some h.length))) b = some cur := r2b
    simp only [r2b', Option.some_bind]
    rfl
  have rd3 : ∀ q, q ≠ a → q ≠ b → q < h.length → h3.read q = h.read q := by
    intro q hqa hqb hq
    rw [heap.read_write_ne _ _ _ _ (Ne.symm hqb), heap.read_write_ne _ _ _ _ (Ne.symm hqa),
      heap.read_alloc_old _ _ _ hq]
  have rd3a : h3.read a = some { an with next := some h.length } := by
    rw [heap.read_write_ne _ _ _ _ (Ne.symm hane),
      heap.read_write_same _ _ _ (by rw [heap.length_alloc]; omega)]
  have rd3b : h3.read b = some { cur with previous := some h.length } := by
    rw [heap.read_write_same _ _ _ (by rw [heap.length_write, heap.length_alloc]; omega)]
  have rd3n : h3.read h.length
      = some { data := value, previous := some a, next := some b } := by
    rw [heap.read_write_ne _ _ _ _ (by omega), heap.read_write_ne _ _ _ _ (by omega),
      heap.read_alloc_new]
  have nx3 : ∀ q, q ≠ a → q < h.length → next_of h3 q = next_of h q := by
    intro q hqa hq
    unfold next_of
    by_cases hqb : q = b
    · rw [hqb, rd3b, hcur]; rfl
    · rw [rd3 q hqa hqb hq]
  have pv3 : ∀ q, q ≠ b → q < h.length → previous_of h3 q = previous_of h q := by
    intro q hqb hq
    unfold previous_of
    by_cases hqa : q = a
    · rw [hqa, rd3a, han]; rfl
    · rw [rd3 q hqa hqb hq]
  have dt3 : ∀ q, q < h.length → data_of h3 q = data_of h q := by
    intro q hq
    unfold data_of
    by_cases hqa : q = a
    · rw [hqa, rd3a, han]; rfl
    · by_cases hqb : q = b
      · rw [hqb, rd3b, hcur]; rfl
      · rw [rd3 q hqa hqb hq]
  have hfresh : h.length ∉ F ++ a :: b :: G := fun hm => by
    have := hlive _ hm
    omega
  have hsep := nodup_split F G a b hnd
  obtain ⟨hFab, -, hGab⟩ := hsep
  have hmemA : ∀ x ∈ A, x ∈ F ++ a :: b :: G := fun x hx => by
    rw [← hcells]; simp [hx]
  have hmemB : ∀ x ∈ B, x ∈ F ++ a :: b :: G := fun x hx => by
    rw [← hcells]; simp [hx]
  refine ⟨h3, hrun, ?_, ?_, ?_, ?_, ?_, ?_, ?_⟩
  · rw [hcells']
    have e : F ++ a :: h.length :: b :: G = (F ++ [a]) ++ h.length :: (b :: G) := by simp
    rw [e, List.nodup_middle, List.nodup_cons]
    refine ⟨fun hm => hfresh (by simpa using hm), by simpa using hnd⟩
  · rw [hcells', List.chain'_append_cons_cons, List.chain'_cons]
    refine ⟨?_, ⟨?_, ?_⟩, ⟨?_, ?_⟩, ?_⟩
    · apply chain_frame _ hchF
      intro x y hx hy hr
      rw [List.dropLast_concat] at hx
      have hy' : y ∈ F ++ [a] := List.mem_of_mem_tail hy
      have hyb : y ≠ b := by
        rcases List.mem_append.1 hy' with hyF | hya
        · exact (hFab y hyF).2
        · rw [List.mem_singleton.1 hya]; exact hane
      refine ⟨?_, ?_⟩
      · rw [nx3 x (hFab x hx).1 (hlive x (by simp [hx]))]; exact hr.1
      · rw [pv3 y hyb (hlive y (by
          rcases List.mem_append.1 hy' with hyF | hya
          · simp [hyF]
          · simp [List.mem_singleton.1 hya]))]
        exact hr.2
    · unfold next_of; rw [rd3a]; rfl
    · unfold previous_of; rw [rd3n]; rfl
    · unfold next_of; rw [rd3n]; rfl
    · unfold previous_of; rw [rd3b]; rfl
    · apply chain_frame _ hchG
      intro x y hx hy hr
      have hx' : x ∈ b :: G := List.mem_of_mem_dropLast hx
      have hy' : y ∈ G := hy
      have hxa : x ≠ a := by
        rcases List.mem_cons.1 hx' with hxb | hxG
        · rw [hxb]; exact Ne.symm hane
        · exact (hGab x hxG).1
      refine ⟨?_, ?_⟩
      · rw [nx3 x hxa (hlive x (by
          rcases List.mem_cons.1 hx' with hxb | hxG
          · simp [hxb]
          · simp [hxG]))]
        exact hr.1
      · rw [pv3 y (hGab y hy').2 (hlive y (by simp [hy']))]; exact hr.2
  · rw [List.map_append, List.map_cons, List.map_append, List.map_cons, ← hdA, ← hdB]
    congr 1
    · exact List.map_congr_left (fun x hx => dt3 x (hlive x (hmemA x hx)))
    · congr 1
      · unfold data_of; rw [rd3n]; rfl
      · exact List.map_congr_left (fun x hx => dt3 x (hlive x (hmemB x hx)))
  · rw [hbG]; unfold next_of; rw [rd3n]; rfl
  · unfold data_of; rw [rd3n]; rfl
  · show (heap.write (heap.write (h.alloc _).1 _ _) _ _).length = _
    rw [heap.length_write, heap.length_write, heap.length_alloc]
  · intro q hq hlt
    rw [hcells] at hq
    exact rd3 q (fun e => hq (by simp [e])) (fun e => hq (by simp [e])) hlt

end linked_list

end nwacc

namespace nwacc

namespace linked_list

variable {T : Type}

theorem nodup_split3 (F G : List Nat) (a b c : Nat) (hnd : (F ++ a :: b :: c :: G).Nodup) :
    (∀ x ∈ F, x ≠ a ∧ x ≠ b ∧ x ≠ c) ∧ a ≠ b ∧ a ≠ c ∧ b ≠ c ∧
    (∀ x ∈ G, x ≠ a ∧ x ≠ b ∧ x ≠ c) ∧ (F ++ a :: c :: G).Nodup := by
  have e : F ++ a :: b :: c :: G = (F ++ [a]) ++ b :: (c :: G) := by simp
  have hnd2 : (F ++ a :: c :: G).Nodup := by
    have h2 := hnd
    rw [e, List.nodup_middle, List.nodup_cons] at h2
    simpa using h2.2
  have h1 := nodup_split F (c :: G) a b hnd
  have h3 := nodup_split F G a c hnd2
  have hbc : b ≠ c := by
    rintro rfl
    rw [e, List.nodup_middle, List.nodup_cons] at hnd
    exact hnd.1 (by simp)
  refine ⟨fun x hx => ⟨(h1.1 x hx).1, (h1.1 x hx).2, (h3.1 x hx).2⟩, h1.2.1, h3.2.1, hbc,
    fun x hx => ⟨(h3.2.2 x hx).1, (h1.2.2 x (List.mem_cons_of_mem _ hx)).2, (h3.2.2 x hx).2⟩,
    hnd2⟩

theorem erase_split (h : heap T) (l : linked_list T) (hd tl b : Nat) (A B : List Nat)
    (sA sB : List T)
    (hnd : (hd :: (A ++ b :: B ++ [tl])).Nodup)
    (hch : List.Chain' (linked h) (hd :: (A ++ b :: B ++ [tl])))
    (hdA : A.map (data_of h) = sA.map some) (hdB : B.map (data_of h) = sB.map some) :
    ∃ h', erase h l (some b)
        = some (h', { l with my_size := l.my_size - 1 }, (B ++ [tl]).head?) ∧
      (hd :: (A ++ B ++ [tl])).Nodup ∧
      List.Chain' (linked h') (hd :: (A ++ B ++ [tl])) ∧
      (A ++ B).map (data_of h') = (sA ++ sB).map some ∧
      h'.read b = none ∧
      h'.length = h.length ∧
      (∀ q, q ∉ hd :: (A ++ b :: B ++ [tl]) → h'.read q = h.read q) := by
  obtain ⟨F, a, hFa⟩ : ∃ F a, hd :: A = F ++ [a] := by
    rcases List.eq_nil_or_concat (hd :: A) with e | ⟨F, a, e⟩
    · cases e
    · exact ⟨F, a, by simpa using e⟩
  obtain ⟨c, G, hcG⟩ : ∃ c G, B ++ [tl] = c :: G := by
    cases B with
    | nil => exact ⟨tl, [], rfl⟩
    | cons c B => exact ⟨c, B ++ [tl], rfl⟩
  have hcells : hd :: (A ++ b :: B ++ [tl]) = F ++ a :: b :: c :: G := by
    rw [List.append_assoc, ← List.cons_append, hFa, List.cons_append, hcG]; simp
  have hcells' : hd :: (A ++ B ++ [tl]) = F ++ a :: c :: G := by
    rw [List.append_assoc, ← List.cons_append, hFa, hcG]; simp
  rw [hcells] at hnd hch
  obtain ⟨hFx, hab, hac, hbc, hGx, hnd'⟩ := nodup_split3 F G a b c hnd
  rw [List.chain'_append_cons_cons, List.chain'_cons] at hch
  obtain ⟨hchF, hlab, hlbc, hchG⟩ := hch
  obtain ⟨an, han, -⟩ := next_of_some h a b hlab.1
  obtain ⟨cur, hcur, hcurp⟩ := previous_of_some h a b hlab.2
  obtain ⟨cur', hcur', hcurn⟩ := next_of_some h b c hlbc.1
  obtain ⟨cn, hcn, -⟩ := previous_of_some h b c hlbc.2
  have ecur : cur' = cur := by rw [hcur] at hcur'; injection hcur' with e; exact e.symm
  rw [ecur] at hcurn
  have ha_lt : a < h.length := heap.read_lt h _ _ han
  have hb_lt : b < h.length := heap.read_lt h _ _ hcur
  have hc_lt : c < h.length := heap.read_lt h _ _ hcn
  let h1 : heap T := h.write a (node.mk an.data an.previous (some c))
  let h2 : heap T := h1.write c (node.mk cn.data (some a) cn.next)
  let h3 : heap T := h2.free b
  have r1b : h1.read b = some cur := by
    rw [heap.read_write_ne _ _ _ _ hab]; exact hcur
  have r1c : h1.read c = some cn := by
    rw [heap.read_write_ne _ _ _ _ hac]; exact hcn
  have r2b : h2.read b = some cur := by
    rw [heap.read_write_ne _ _ _ _ (Ne.symm hbc)]; exact r1b
  have hrun : erase h l (some b)
      = some (h3, { l with my_size := l.my_size - 1 }, (B ++ [tl]).head?) := by
    rw [hcG]
    simp only [erase, List.head?_cons, heap.deref, Option.bind_eq_bind, Option.some_bind,
      hcur, hcurp, hcurn, han, heap.set_next, heap.set_previous, Option.pure_def]
    have r1b' : heap.read (heap.write h a (node.mk an.data an.previous (some c))) b
        = some cur := r1b
    have r1c' : heap.read (heap.write h a (node.mk an.data an.previous (some c))) c
        = some cn := r1c
    simp only [r1b', r1c', Option.some_bind, hcurn, hcurp]
    have r2b' : heap.read (heap.write (heap.write h a (node.mk an.data an.previous (some c))) c
        (node.mk cn.data (some a) cn.next)) b = some cur := r2b
    simp only [r2b', Option.some_bind]
  have rd3 : ∀ q, q ≠ a → q ≠ b → q ≠ c → h3.read q = h.read q := by
    intro q hqa hqb hqc
    rw [heap.read_free_ne _ _ _ (Ne.symm hqb), heap.read_write_ne _ _ _ _ (Ne.symm hqc),
      heap.read_write_ne _ _ _ _ (Ne.symm hqa)]
  have rd3a : h3.read a = some (node.mk an.data an.previous (some c)) := by
    rw [heap.read_free_ne _ _ _ (Ne.symm hab), heap.read_write_ne _ _ _ _ (Ne.symm hac),
      heap.read_write_same _ _ _ ha_lt]
  have rd3c : h3.read c = some (node.mk cn.data (some a) cn.next) := by
    rw [heap.read_free_ne _ _ _ hbc,
      heap.read_write_same _ _ _ (by rw [heap.length_write]; exact hc_lt)]
  have rd3b : h3.read b = none := by
    show heap.read (heap.free h2 b) b = none
    unfold heap.read heap.free
    rw [List.getD_eq_getElem _ _ (by
      rw [List.length_set, heap.length_write, heap.length_write]; exact hb_lt)]
    simp
  have nx3 : ∀ q, q ≠ a → q ≠ b → next_of h3 q = next_of h q := by
    intro q hqa hqb
    unfold next_of
    by_cases hqc : q = c
    · rw [hqc, rd3c, hcn]; rfl
    · rw [rd3 q hqa hqb hqc]
  have pv3 : ∀ q, q ≠ c → q ≠ b → previous_of h3 q = previous_of h q := by
    intro q hqc hqb
    unfold previous_of
    by_cases hqa : q = a
    · rw [hqa, rd3a, han]; rfl
    · rw [rd3 q hqa hqb hqc]
  have dt3 : ∀ q, q ≠ b → data_of h3 q = data_of h q := by
    intro q hqb
    unfold data_of
    by_cases hqa : q = a
    · rw [hqa, rd3a, han]; rfl
    · by_cases hqc : q = c
      · rw [hqc, rd3c, hcn]; rfl
      · rw [rd3 q hqa hqb hqc]
  have hnb : ∀ x, x ∈ F ++ a :: c :: G → x ≠ b := by
    intro x hx
    rcases List.mem_append.1 hx with hxF | hx2
    · exact (hFx x hxF).2.1
    · rcases List.mem_cons.1 hx2 with rfl | hx3
      · exact hab
      · rcases List.mem_cons.1 hx3 with rfl | hxG
        · exact Ne.symm hbc
        · exact (hGx x hxG).2.1
  refine ⟨h3, hrun, by rw [hcells']; exact hnd', ?_, ?_, rd3b, ?_, ?_⟩
  · rw [hcells', List.chain'_append_cons_cons]
    refine ⟨?_, ⟨?_, ?_⟩, ?_⟩
    · apply chain_frame _ hchF
      intro x y hx hy hr
      rw [List.dropLast_concat] at hx
      have hy' : y ∈ F ++ [a] := List.mem_of_mem_tail hy
      have hyc : y ≠ c ∧ y ≠ b := by
        rcases List.mem_append.1 hy' with hyF | hya
        · exact ⟨(hFx y hyF).2.2, (hFx y hyF).2.1⟩
        · rw [List.mem_singleton.1 hya]; exact ⟨hac, hab⟩
      refine ⟨?_, ?_⟩
      · rw [nx3 x (hFx x hx).1 (hFx x hx).2.1]; exact hr.1
      · rw [pv3 y hyc.1 hyc.2]; exact hr.2
    · unfold next_of; rw [rd3a]; rfl
    · unfold previous_of; rw [rd3c]; rfl
    · apply chain_frame _ hchG
      intro x y hx hy hr
      have hx' : x ∈ c :: G := List.mem_of_mem_dropLast hx
      have hy' : y ∈ G := hy
      have hxab : x ≠ a ∧ x ≠ b := by
        rcases List.mem_cons.1 hx' with hxc | hxG
        · rw [hxc]; exact ⟨Ne.symm hac, Ne.symm hbc⟩
        · exact ⟨(hGx x hxG).1, (hGx x hxG).2.1⟩
      refine ⟨?_, ?_⟩
      · rw [nx3 x hxab.1 hxab.2]; exact hr.1
      · rw [pv3 y (hGx y hy').2.2 (hGx y hy').2.1]; exact hr.2
  · rw [List.map_append, List.map_append, ← hdA, ← hdB]
    congr 1
    · exact List.map_congr_left (fun x hx => dt3 x (hnb x (by rw [← hcells']; simp [hx])))
    · exact List.map_congr_left (fun x hx => dt3 x (hnb x (by rw [← hcells']; simp [hx])))
  · show (heap.free (heap.write (heap.write h _ _) _ _) _).length = _
    unfold heap.free
    rw [List.length_set, heap.length_write, heap.length_write]
  · intro q hq
    rw [hcells] at hq
    exact rd3 q (fun e => hq (by simp [e])) (fun e => hq (by simp [e]))
      (fun e => hq (by simp [e]))

end linked_list

end nwacc

namespace nwacc

namespace linked_list

variable {T : Type}

theorem begin_of_chain (h : heap T) (l : linked_list T) (hd : Nat) (xs : List Nat) (x : Nat)
    (hhd : l.head = some hd) (hch : List.Chain' (linked h) (hd :: x :: xs)) :
    begin h l = some (some x) := by
  rw [List.chain'_cons] at hch
  obtain ⟨n, hn, hnn⟩ := next_of_some h hd x hch.1.1
  simp [begin, heap.deref, hhd, hn, hnn]

theorem begin_well_formed (h : heap T) (l : linked_list T) (nodes : List Nat) (hd tl : Nat)
    (hhd : l.head = some hd) (hch : List.Chain' (linked h) (hd :: (nodes ++ [tl]))) :
    begin h l = some (nodes ++ [tl]).head? := by
  cases nodes with
  | nil => exact begin_of_chain h l hd [] tl hhd hch
  | cons x xs => exact begin_of_chain h l hd (xs ++ [tl]) x hhd hch

theorem map_some_eq_cons {f : Nat → Option T} {x : Nat} {xs : List Nat} {vs : List T}
    (e : (x :: xs).map f = vs.map some) :
    ∃ v vs', vs = v :: vs' ∧ f x = some v ∧ xs.map f = vs'.map some := by
  cases vs with
  | nil => simp at e
  | cons v vs' =>
    simp only [List.map_cons, List.cons.injEq] at e
    exact ⟨v, vs', rfl, e.1, e.2⟩

theorem map_some_eq_concat {f : Nat → Option T} {x : Nat} {xs : List Nat} {vs : List T}
    (e : (xs ++ [x]).map f = vs.map some) :
    ∃ v vs', vs = vs' ++ [v] ∧ f x = some v ∧ xs.map f = vs'.map some := by
  rcases List.eq_nil_or_concat vs with rfl | ⟨vs', v, rfl⟩
  · simp at e
  · rw [List.concat_eq_append] at e ⊢
    rw [List.map_append, List.map_append] at e
    obtain ⟨e1, e2⟩ := List.append_inj' e (by simp)
    exact ⟨v, vs', rfl, by simpa using e2, e1⟩

theorem forward_chain (h : heap T) (tl : Nat) : ∀ (xs : List Nat) (vs : List T) (fuel : Nat),
    List.Chain' (linked h) (xs ++ [tl]) → tl ∉ xs → xs.map (data_of h) = vs.map some →
    xs.length < fuel → forward h (some tl) fuel (xs ++ [tl]).head? = some vs
  | [], vs, fuel, _, _, hdat, hf => by
    obtain ⟨f, rfl⟩ : ∃ f, fuel = f + 1 := ⟨fuel - 1, by simp at hf; omega⟩
    have : vs = [] := by simpa using hdat.symm
    simp [forward, this]
  | x :: xs, vs, fuel, hch, hnot, hdat, hf => by
    obtain ⟨f, rfl⟩ : ∃ f, fuel = f + 1 := ⟨fuel - 1, by simp at hf; omega⟩
    obtain ⟨v, vs', rfl, hv, hrest⟩ := map_some_eq_cons hdat
    obtain ⟨n, hn, hnd⟩ := data_of_some h x v hv
    have hxt : x ≠ tl := fun e => hnot (by simp [e])
    obtain ⟨y, ys, hy⟩ : ∃ y ys, xs ++ [tl] = y :: ys := by
      cases xs with
      | nil => exact ⟨tl, [], rfl⟩
      | cons y ys => exact ⟨y, ys ++ [tl], rfl⟩
    have hch' : List.Chain' (linked h) (x :: y :: ys) := by rw [← hy]; exact hch
    rw [List.chain'_cons] at hch'
    obtain ⟨n', hn', hnn⟩ := next_of_some h x y hch'.1.1
    have en : n' = n := by rw [hn] at hn'; injection hn' with e; exact e.symm
    rw [en] at hnn
    have ih := forward_chain h tl xs vs' f (by rw [hy]; exact hch'.2)
      (fun hm => hnot (List.mem_cons_of_mem _ hm)) hrest (by simp at hf; omega)
    rw [hy, List.head?_cons] at ih
    simp [forward, hxt, heap.deref, hn, hnn, hnd, ih]

theorem backward_chain (h : heap T) (pre : List Nat) : ∀ (q : Nat) (vs : List T) (fuel : Nat),
    List.Chain' (linked h) (pre ++ [q]) → (pre ++ [q]).Nodup →
    pre.map (data_of h) = vs.map some → pre.length < fuel →
    backward h (pre ++ [q]).head? fuel (some q) = some vs.reverse := by
  induction pre using List.reverseRecOn with
  | nil =>
    intro q vs fuel _ _ hdat hf
    obtain ⟨f, rfl⟩ : ∃ f, fuel = f + 1 := ⟨fuel - 1, by simp at hf; omega⟩
    have : vs = [] := by simpa using hdat.symm
    simp [backward, this]
  | append_singleton pre p ih =>
    intro q vs fuel hch hnd hdat hf
    obtain ⟨f, rfl⟩ : ∃ f, fuel = f + 1 := ⟨fuel - 1, by simp at hf; omega⟩
    obtain ⟨v, vs', rfl, hv, hrest⟩ := map_some_eq_concat hdat
    obtain ⟨m, hm, hmd⟩ := data_of_some h p v hv
    have e : pre ++ [p] ++ [q] = pre ++ p :: q :: [] := by simp
    rw [e] at hch hnd
    have hsplit := List.chain'_append_cons_cons.1 hch
    obtain ⟨n, hn, hnp⟩ := previous_of_some h p q hsplit.2.1.2
    have hnd' : (pre ++ [p]).Nodup := by
      have := hnd
      rw [show pre ++ p :: q :: [] = (pre ++ [p]) ++ [q] by simp, List.nodup_append] at this
      exact this.1
    have hhead : (pre ++ [p] ++ [q]).head? = (pre ++ [p]).head? := by
      cases pre <;> rfl
    have hstop : (some q : Option Nat) ≠ (pre ++ [p]).head? := by
      intro e2
      have hq : q ∈ pre ++ [p] := List.mem_of_mem_head? e2.symm
      rw [show pre ++ p :: q :: [] = (pre ++ [p]) ++ [q] by simp, List.nodup_append] at hnd
      exact hnd.2.2 hq (by simp)
    have ih' := ih p vs' f hsplit.1 hnd' hrest (by simp at hf; omega)
    rw [hhead]
    generalize (pre ++ [p]).head? = stop at hstop ih'
    simp [backward, hstop, heap.deref, hn, hnp, hm, hmd, ih']

end linked_list

end nwacc

namespace nwacc

namespace linked_list

variable {T : Type}

theorem well_formed_length (h : heap T) (l : linked_list T) (nodes : List Nat) (s : List T)
    (hwf : well_formed h l nodes s) : nodes.length = s.length := by
  obtain ⟨hd, tl, -, -, -, -, hdat, -⟩ := hwf
  have := congrArg List.length hdat
  simpa using this

theorem to_list_well_formed (h : heap T) (l : linked_list T) (nodes : List Nat) (s : List T)
    (hwf : well_formed h l nodes s) (fuel : Nat) (hf : s.length < fuel) :
    to_list fuel h l = some s := by
  have hlen := well_formed_length h l nodes s hwf
  obtain ⟨hd, tl, hhd, htl, hnd, hch, hdat, -⟩ := hwf
  have hb := begin_well_formed h l nodes hd tl hhd hch
  have hnot : tl ∉ nodes := by
    have := (List.nodup_cons.1 hnd).2
    rw [List.nodup_append] at this
    exact fun hm => this.2.2 hm (by simp)
  have hfw := forward_chain h tl nodes s fuel (List.chain'_cons'.1 hch).2 hnot hdat
    (by omega)
  unfold to_list
  rw [hb]
  simp only [Option.bind_eq_bind, Option.some_bind, end_, htl]
  exact hfw

theorem to_list_reverse_well_formed (h : heap T) (l : linked_list T) (nodes : List Nat)
    (s : List T) (hwf : well_formed h l nodes s) (fuel : Nat) (hf : s.length < fuel) :
    to_list_reverse fuel h l = some s.reverse := by
  have hlen := well_formed_length h l nodes s hwf
  obtain ⟨hd, tl, hhd, htl, hnd, hch, hdat, -⟩ := hwf
  have hb := begin_well_formed h l nodes hd tl hhd hch
  have hbw := backward_chain h nodes tl s fuel (List.chain'_cons'.1 hch).2
    (List.nodup_cons.1 hnd).2 hdat (by omega)
  unfold to_list_reverse
  rw [hb]
  simp only [Option.bind_eq_bind, Option.some_bind, end_, htl]
  exact hbw

theorem position_index (l : linked_list T) (nodes : List Nat) (tl : Nat) (k : Nat)
    (position : Option Nat) (htl : l.tail = some tl)
    (hp : (nodes.map some ++ [l.end_])[k]? = some position) :
    k ≤ nodes.length ∧ position = (nodes.drop k ++ [tl]).head? := by
  have e : nodes.map some ++ [l.end_] = (nodes ++ [tl]).map some := by
    simp [end_, htl]
  rw [e, List.getElem?_map] at hp
  have hk : k < (nodes ++ [tl]).length := by
    by_contra hlt
    rw [List.getElem?_eq_none (by omega)] at hp
    cases hp
  have hk' : k ≤ nodes.length := by simp at hk; omega
  refine ⟨hk', ?_⟩
  rw [← List.drop_append_of_le_length hk', List.head?_drop]
  rw [List.getElem?_eq_getElem hk] at hp ⊢
  injection hp with hp
  exact hp.symm

theorem insert_at (h : heap T) (l : linked_list T) (nodes : List Nat) (s : List T)
    (k : Nat) (position : Option Nat) (value : T) (hwf : well_formed h l nodes s)
    (hp : (nodes.map some ++ [l.end_])[k]? = some position) :
    ∃ h', insert h l position value
        = some (h', { l with my_size := l.my_size + 1 }, some h.length) ∧
      well_formed h' { l with my_size := l.my_size + 1 }
        (nodes.take k ++ h.length :: nodes.drop k) (s.take k ++ value :: s.drop k) ∧
      data_of h' h.length = some value ∧ next_of h' h.length = position := by
  obtain ⟨hd, tl, hhd, htl, hnd, hch, hdat, hsz⟩ := hwf
  obtain ⟨hk, hpos⟩ := position_index l nodes tl k position htl hp
  have hsplit : nodes = nodes.take k ++ nodes.drop k := (List.take_append_drop k nodes).symm
  have hdA : (nodes.take k).map (data_of h) = (s.take k).map some := by
    rw [List.map_take, List.map_take, hdat]
  have hdB : (nodes.drop k).map (data_of h) = (s.drop k).map some := by
    rw [List.map_drop, List.map_drop, hdat]
  rw [hsplit] at hnd hch
  obtain ⟨h', hrun, hnd', hch', hdat', hnx, hdt, -, -⟩ :=
    insert_split h l hd tl (nodes.take k) (nodes.drop k) (s.take k) (s.drop k) value
      hnd hch hdA hdB
  rw [← hpos] at hrun hnx
  refine ⟨h', hrun, ⟨hd, tl, hhd, htl, ?_, ?_, hdat', ?_⟩, hdt, hnx⟩
  · simpa using hnd'
  · simpa using hch'
  · simp only [List.length_append, List.length_cons, List.length_take, List.length_drop]
    rw [hsz]; push_cast; omega

theorem erase_at (h : heap T) (l : linked_list T) (nodes : List Nat) (s : List T)
    (k : Nat) (p : Nat) (hwf : well_formed h l nodes s) (hp : nodes[k]? = some p) :
    ∃ h' it, erase h l (some p) = some (h', { l with my_size := l.my_size - 1 }, it) ∧
      well_formed h' { l with my_size := l.my_size - 1 } (nodes.eraseIdx k) (s.eraseIdx k) ∧
      (nodes.map some ++ [l.end_])[k + 1]? = some it := by
  have hlen := well_formed_length h l nodes s hwf
  obtain ⟨hd, tl, hhd, htl, hnd, hch, hdat, hsz⟩ := hwf
  obtain ⟨hk, hpk⟩ := List.getElem?_eq_some.1 hp
  have hsplit : nodes = nodes.take k ++ p :: nodes.drop (k + 1) := by
    rw [← hpk, List.getElem_cons_drop, List.take_append_drop]
  have hdA : (nodes.take k).map (data_of h) = (s.take k).map some := by
    rw [List.map_take, List.map_take, hdat]
  have hdB : (nodes.drop (k + 1)).map (data_of h) = (s.drop (k + 1)).map some := by
    rw [List.map_drop, List.map_drop, hdat]
  have hnd0 := hnd
  have hch0 := hch
  rw [hsplit] at hnd0 hch0
  obtain ⟨h', hrun, hnd', hch', hdat', -, -, -⟩ :=
    erase_split h l hd tl p (nodes.take k) (nodes.drop (k + 1)) (s.take k) (s.drop (k + 1))
      (by simpa using hnd0) (by simpa using hch0) hdA hdB
  refine ⟨h', _, hrun, ⟨hd, tl, hhd, htl, ?_, ?_, ?_, ?_⟩, ?_⟩
  · rw [List.eraseIdx_eq_take_drop_succ]; simpa using hnd'
  · rw [List.eraseIdx_eq_take_drop_succ]; simpa using hch'
  · rw [List.eraseIdx_eq_take_drop_succ, List.eraseIdx_eq_take_drop_succ]; exact hdat'
  · rw [List.length_eraseIdx, if_pos hk]
    simp only []
    rw [hsz]; omega
  · have e : nodes.map some ++ [l.end_] = (nodes ++ [tl]).map some := by
      simp [end_, htl]
    obtain ⟨x, hx⟩ : ∃ x, (nodes.drop (k + 1) ++ [tl]).head? = some x := by
      cases nodes.drop (k + 1) <;> simp
    rw [e, List.getElem?_map, ← List.head?_drop,
      List.drop_append_of_le_length (by omega), hx]
    rfl

end linked_list

end nwacc

namespace nwacc

namespace linked_list

variable {T : Type}

/-- C9. List `insert`: on a well-formed list with forward traversal `s`, for the position
`p` at index `k` (a node for `k < |s|`, `end()` for `k = |s|`), `insert(p, value)` returns,
the traversal becomes `s[0..k) ++ [value] ++ s[k..)`, `size()` grows by exactly one, and
the returned iterator points to the new node: it dereferences to `value` and its
successor is `p`. -/
theorem insert_before_position (h : heap T) (l : linked_list T) (nodes : List Nat)
    (s : List T) (k : Nat) (position : Option Nat) (value : T)
    (hwf : well_formed h l nodes s)
    (hp : (nodes.map some ++ [l.end_])[k]? = some position) :
    ∃ h' l' it, insert h l position value = some (h', l', it) ∧
      (∃ nodes', well_formed h' l' nodes' (s.take k ++ value :: s.drop k)) ∧
      (∀ fuel, s.length + 1 < fuel →
        to_list fuel h' l' = some (s.take k ++ value :: s.drop k)) ∧
      l'.size = l.size + 1 ∧
      (h'.deref it).map node.data = some value ∧
      (h'.deref it).bind node.next = position := by
  obtain ⟨h', hrun, hwf', hdt, hnx⟩ := insert_at h l nodes s k position value hwf hp
  have hk : k ≤ s.length := by
    rw [← well_formed_length h l nodes s hwf]
    obtain ⟨hd, tl, -, htl, -⟩ := hwf
    exact (position_index l nodes tl k position htl hp).1
  refine ⟨h', _, _, hrun, ⟨_, hwf'⟩, fun fuel hf => ?_, rfl, hdt, hnx⟩
  apply to_list_well_formed h' _ _ _ hwf'
  simp only [List.length_append, List.length_cons, List.length_take, List.length_drop]
  omega

/-- Witness for C9: inserting 5 before the only node of the list holding 7. -/
theorem insert_before_position_witness :
    ∃ h' l' it, insert (T := Nat)
        [some ⟨0, none, some 2⟩, some ⟨0, some 2, none⟩, some ⟨7, some 0, some 1⟩]
        ⟨1, some 0, some 1⟩ (some 2) 5 = some (h', l', it) ∧
      (∃ nodes', well_formed h' l' nodes' ([7].take 0 ++ 5 :: [7].drop 0)) ∧
      (∀ fuel, [7].length + 1 < fuel →
        to_list fuel h' l' = some ([7].take 0 ++ 5 :: [7].drop 0)) ∧
      l'.size = (linked_list.mk (T := Nat) 1 (some 0) (some 1)).size + 1 ∧
      (h'.deref it).map node.data = some 5 ∧
      (h'.deref it).bind node.next = some 2 :=
  insert_before_position (T := Nat)
    [some ⟨0, none, some 2⟩, some ⟨0, some 2, none⟩, some ⟨7, some 0, some 1⟩]
    ⟨1, some 0, some 1⟩ [2] [7] 0 (some 2) 5
    ⟨0, 1, rfl, rfl, by decide,
      by simp [linked, next_of, previous_of, heap.read], by decide, rfl⟩ rfl

/-- C10. List single `erase`: on a well-formed list with forward traversal `s`, for the
position `p` at the non-sentinel node of index `k`, `erase(p)` returns, the traversal
becomes `s` without its element at index `k`, `size()` shrinks by exactly one, and the
returned iterator points to the node that followed `p` (`end()` when `p` was last). -/
theorem erase_at_position (h : heap T) (l : linked_list T) (nodes : List Nat)
    (s : List T) (k : Nat) (p : Nat)
    (hwf : well_formed h l nodes s) (hp : nodes[k]? = some p) :
    ∃ h' l' it, erase h l (some p) = some (h', l', it) ∧
      (∃ nodes', well_formed h' l' nodes' (s.eraseIdx k)) ∧
      (∀ fuel, s.length < fuel → to_list fuel h' l' = some (s.eraseIdx k)) ∧
      l'.size = l.size - 1 ∧
      (nodes.map some ++ [l.end_])[k + 1]? = some it := by
  obtain ⟨h', it, hrun, hwf', hit⟩ := erase_at h l nodes s k p hwf hp
  refine ⟨h', _, it, hrun, ⟨_, hwf'⟩, fun fuel hf => ?_, rfl, hit⟩
  apply to_list_well_formed h' _ _ _ hwf'
  have := List.length_eraseIdx_le s k
  omega

/-- Witness for C10: erasing the first node of the list holding 7, 9. -/
theorem erase_at_position_witness :
    ∃ h' l' it, erase (T := Nat)
        [some ⟨0, none, some 2⟩, some ⟨0, some 3, none⟩, some ⟨7, some 0, some 3⟩,
          some ⟨9, some 2, some 1⟩]
        ⟨2, some 0, some 1⟩ (some 2) = some (h', l', it) ∧
      (∃ nodes', well_formed h' l' nodes' ([7, 9].eraseIdx 0)) ∧
      (∀ fuel, [7, 9].length < fuel → to_list fuel h' l' = some ([7, 9].eraseIdx 0)) ∧
      l'.size = (linked_list.mk (T := Nat) 2 (some 0) (some 1)).size - 1 ∧
      ([2, 3].map some ++ [(linked_list.mk (T := Nat) 2 (some 0) (some 1)).end_])[0 + 1]?
        = some it :=
  erase_at_position (T := Nat)
    [some ⟨0, none, some 2⟩, some ⟨0, some 3, none⟩, some ⟨7, some 0, some 3⟩,
      some ⟨9, some 2, some 1⟩]
    ⟨2, some 0, some 1⟩ [2, 3] [7, 9] 0 2
    ⟨0, 1, rfl, rfl, by decide,
      by simp [linked, next_of, previous_of, heap.read], by decide, rfl⟩ rfl

end linked_list

end nwacc

namespace nwacc

namespace linked_list

variable {T : Type}

theorem list_find_loop_absent [DecidableEq T] (key : T) (h : heap T) (l : linked_list T)
    (tl : Nat) (htl : l.tail = some tl) : ∀ (xs : List Nat) (vs : List T) (fuel : Nat),
    List.Chain' (linked h) (xs ++ [tl]) → tl ∉ xs → xs.map (data_of h) = vs.map some →
    key ∉ vs → xs.length < fuel →
    find_loop key h l fuel (xs ++ [tl]).head? = some (h, l, false)
  | [], vs, fuel, _, _, _, _, hf => by
    obtain ⟨f, rfl⟩ : ∃ f, fuel = f + 1 := ⟨fuel - 1, by simp at hf; omega⟩
    simp [find_loop, end_, htl]
  | x :: xs, vs, fuel, hch, hnot, hdat, hkey, hf => by
    obtain ⟨f, rfl⟩ : ∃ f, fuel = f + 1 := ⟨fuel - 1, by simp at hf; omega⟩
    obtain ⟨v, vs', rfl, hv, hrest⟩ := map_some_eq_cons hdat
    obtain ⟨n, hn, hnd⟩ := data_of_some h x v hv
    have hxt : x ≠ tl := fun e => hnot (by simp [e])
    obtain ⟨y, ys, hy⟩ : ∃ y ys, xs ++ [tl] = y :: ys := by
      cases xs with
      | nil => exact ⟨tl, [], rfl⟩
      | cons y ys => exact ⟨y, ys ++ [tl], rfl⟩
    have hch' : List.Chain' (linked h) (x :: y :: ys) := by rw [← hy]; exact hch
    rw [List.chain'_cons] at hch'
    obtain ⟨n', hn', hnn⟩ := next_of_some h x y hch'.1.1
    have en : n' = n := by rw [hn] at hn'; injection hn' with e; exact e.symm
    rw [en] at hnn
    have hvk : ¬ v = key := fun e => hkey (by simp [e])
    have ih := list_find_loop_absent key h l tl htl xs vs' f (by rw [hy]; exact hch'.2)
      (fun hm => hnot (List.mem_cons_of_mem _ hm)) hrest
      (fun hm => hkey (List.mem_cons_of_mem _ hm)) (by simp at hf; omega)
    rw [hy, List.head?_cons] at ih
    simp [find_loop, end_, htl, hxt, heap.deref, hn, hnn, hnd, hvk, ih]

theorem list_find_loop_present [DecidableEq T] (key : T) (h : heap T) (l : linked_list T)
    (tl : Nat) (htl : l.tail = some tl) :
    ∀ (xs : List Nat) (vs : List T) (fuel : Nat) (i : Nat) (p : Nat),
    List.Chain' (linked h) (xs ++ [tl]) → tl ∉ xs → xs.map (data_of h) = vs.map some →
    vs[i]? = some key → (∀ j, j < i → vs[j]? ≠ some key) → xs[i]? = some p → i < fuel →
    find_loop key h l fuel (xs ++ [tl]).head? =
      (push_front h l key).bind (fun r1 =>
        (erase r1.1 r1.2 (some p)).bind (fun r2 => some (r2.1, r2.2.1, true)))
  | [], vs, fuel, i, p, _, _, _, _, _, hp, _ => by simp at hp
  | x :: xs, vs, fuel, i, p, hch, hnot, hdat, hi, hmin, hp, hf => by
    obtain ⟨f, rfl⟩ : ∃ f, fuel = f + 1 := ⟨fuel - 1, by omega⟩
    obtain ⟨v, vs', rfl, hv, hrest⟩ := map_some_eq_cons hdat
    obtain ⟨n, hn, hnd⟩ := data_of_some h x v hv
    have hxt : x ≠ tl := fun e => hnot (by simp [e])
    cases i with
    | zero =>
      simp only [List.getElem?_cons_zero, Option.some.injEq] at hi hp
      subst hi; subst hp
      simp only [find_loop, List.cons_append, List.head?_cons, end_, htl, Option.some.injEq,
        if_neg hxt, heap.deref, Option.bind_eq_bind, Option.some_bind, hn, hnd, if_true]
      rfl
    | succ i =>
      simp only [List.getElem?_cons_succ] at hi hp
      obtain ⟨y, ys, hy⟩ : ∃ y ys, xs ++ [tl] = y :: ys := by
        cases xs with
        | nil => exact ⟨tl, [], rfl⟩
        | cons y ys => exact ⟨y, ys ++ [tl], rfl⟩
      have hch' : List.Chain' (linked h) (x :: y :: ys) := by rw [← hy]; exact hch
      rw [List.chain'_cons] at hch'
      obtain ⟨n', hn', hnn⟩ := next_of_some h x y hch'.1.1
      have en : n' = n := by rw [hn] at hn'; injection hn' with e; exact e.symm
      rw [en] at hnn
      have hvk : ¬ v = key := fun e => hmin 0 (by omega) (by simp [e])
      have ih := list_find_loop_present key h l tl htl xs vs' f i p (by rw [hy]; exact hch'.2)
        (fun hm => hnot (List.mem_cons_of_mem _ hm)) hrest hi
        (fun j hj e => hmin (j + 1) (by omega) (by simpa using e)) hp (by omega)
      rw [hy, List.head?_cons] at ih
      simp only [find_loop, List.cons_append, List.head?_cons, end_, htl, Option.some.injEq,
        if_neg hxt, heap.deref, Option.bind_eq_bind, Option.some_bind, hn, hnd, if_neg hvk,
        hnn]
      exact ih

end linked_list

end nwacc

namespace nwacc

namespace linked_list

variable {T : Type}

theorem push_front_well_formed (h : heap T) (l : linked_list T) (nodes : List Nat)
    (s : List T) (value : T) (hwf : well_formed h l nodes s) :
    ∃ h', push_front h l value = some (h', { l with my_size := l.my_size + 1 }) ∧
      well_formed h' { l with my_size := l.my_size + 1 } (h.length :: nodes) (value :: s) := by
  have hwf0 := hwf
  obtain ⟨hd, tl, hhd, htl, -, hch, -, -⟩ := hwf
  have hb := begin_well_formed h l nodes hd tl hhd hch
  have hp : (nodes.map some ++ [l.end_])[0]? = some (nodes ++ [tl]).head? := by
    cases nodes <;> simp [end_, htl]
  obtain ⟨h', hrun, hwf', -, -⟩ := insert_at h l nodes s 0 _ value hwf0 hp
  refine ⟨h', ?_, by simpa using hwf'⟩
  unfold push_front
  rw [hb]
  simp only [Option.bind_eq_bind, Option.some_bind, hrun, Option.pure_def]

theorem push_back_well_formed (h : heap T) (l : linked_list T) (nodes : List Nat)
    (s : List T) (value : T) (hwf : well_formed h l nodes s) :
    ∃ h', push_back h l value = some (h', { l with my_size := l.my_size + 1 }) ∧
      well_formed h' { l with my_size := l.my_size + 1 } (nodes ++ [h.length])
        (s ++ [value]) := by
  have hlen := well_formed_length h l nodes s hwf
  have hp : (nodes.map some ++ [l.end_])[nodes.length]? = some l.end_ := by
    rw [List.getElem?_append_right (by simp)]; simp
  obtain ⟨h', hrun, hwf', -, -⟩ := insert_at h l nodes s nodes.length _ value hwf hp
  refine ⟨h', ?_, ?_⟩
  · unfold push_back
    simp only [Option.bind_eq_bind, hrun, Option.some_bind, Option.pure_def]
  · rw [List.take_of_length_le (le_refl _), List.drop_of_length_le (le_refl _),
      List.take_of_length_le (by omega), List.drop_of_length_le (by omega)] at hwf'
    exact hwf'

theorem front_well_formed (h : heap T) (l : linked_list T) (nodes : List Nat)
    (v : T) (s : List T) (hwf : well_formed h l nodes (v :: s)) :
    front h l = some v := by
  obtain ⟨hd, tl, hhd, htl, -, hch, hdat, -⟩ := hwf
  have hb := begin_well_formed h l nodes hd tl hhd hch
  cases nodes with
  | nil => simp at hdat
  | cons x xs =>
    obtain ⟨v', vs', e, hv, -⟩ := map_some_eq_cons hdat
    injection e with e1 e2
    subst e1
    obtain ⟨n, hn, hnd⟩ := data_of_some h x v hv
    unfold front
    rw [hb]
    simp [heap.deref, hn, hnd]

theorem find_found [DecidableEq T] (h : heap T) (l : linked_list T) (nodes : List Nat)
    (s : List T) (key : T) (i : Nat) (hwf : well_formed h l nodes s)
    (hi : s[i]? = some key) (hmin : ∀ j, j < i → s[j]? ≠ some key)
    (fuel : Nat) (hf : i < fuel) :
    ∃ h' l', find fuel h l key = some (h', l', true) ∧
      well_formed h' l' (h.length :: nodes.eraseIdx i) (key :: s.eraseIdx i) ∧
      l'.my_size = l.my_size := by
  have hlen := well_formed_length h l nodes s hwf
  obtain ⟨hi_lt, -⟩ := List.getElem?_eq_some.1 hi
  have hp : nodes[i]? = some (nodes[i]) := List.getElem?_eq_getElem (by omega)
  obtain ⟨h1, hpush, hwf1⟩ := push_front_well_formed h l nodes s key hwf
  obtain ⟨h2, it, herase, hwf2, -⟩ := erase_at h1 _ (h.length :: nodes) (key :: s) (i + 1)
    nodes[i] hwf1 (by simp [hp])
  obtain ⟨hd, tl, hhd, htl, hnd, hch, hdat, -⟩ := hwf
  have hb := begin_well_formed h l nodes hd tl hhd hch
  have hnot : tl ∉ nodes := by
    have := (List.nodup_cons.1 hnd).2
    rw [List.nodup_append] at this
    exact fun hm => this.2.2 hm (by simp)
  have hloop := list_find_loop_present key h l tl htl nodes s fuel i nodes[i]
    (List.chain'_cons'.1 hch).2 hnot hdat hi hmin hp hf
  refine ⟨h2, { l with my_size := l.my_size + 1 - 1 }, ?_, by simpa using hwf2, ?_⟩
  · unfold find
    rw [hb]
    simp only [Option.bind_eq_bind, Option.some_bind]
    rw [hloop, hpush]
    simp only [Option.some_bind, herase]
  · simp only []
    omega

theorem find_not_found [DecidableEq T] (h : heap T) (l : linked_list T) (nodes : List Nat)
    (s : List T) (key : T) (hwf : well_formed h l nodes s) (hkey : key ∉ s)
    (fuel : Nat) (hf : s.length < fuel) :
    find fuel h l key = some (h, l, false) := by
  have hlen := well_formed_length h l nodes s hwf
  obtain ⟨hd, tl, hhd, htl, hnd, hch, hdat, -⟩ := hwf
  have hb := begin_well_formed h l nodes hd tl hhd hch
  have hnot : tl ∉ nodes := by
    have := (List.nodup_cons.1 hnd).2
    rw [List.nodup_append] at this
    exact fun hm => this.2.2 hm (by simp)
  unfold find
  rw [hb]
  simp only [Option.bind_eq_bind, Option.some_bind]
  exact list_find_loop_absent key h l tl htl nodes s fuel (List.chain'_cons'.1 hch).2 hnot hdat
    hkey (by omega)

/-- C2. List `find`, key present: on a well-formed list with forward traversal `s` in
which `key` first occurs at position `i`, `find(key)` returns true and afterwards the
forward traversal is `s[i]` followed by `s` with position `i` removed; `front()` equals
`key` and `size()` is unchanged. -/
theorem list_find_moves_first_match_to_front [DecidableEq T] (h : heap T)
    (l : linked_list T) (nodes : List Nat) (s : List T) (key : T) (i : Nat)
    (hwf : well_formed h l nodes s)
    (hi : s[i]? = some key) (hmin : ∀ j, j < i → s[j]? ≠ some key)
    (fuel : Nat) (hf : s.length < fuel) :
    ∃ h' l', find fuel h l key = some (h', l', true) ∧
      (∃ nodes', well_formed h' l' nodes' (key :: s.eraseIdx i)) ∧
      (∀ fuel', s.length < fuel' → to_list fuel' h' l' = some (key :: s.eraseIdx i)) ∧
      front h' l' = some key ∧
      l'.size = l.size := by
  obtain ⟨hi_lt, -⟩ := List.getElem?_eq_some.1 hi
  obtain ⟨h', l', hrun, hwf', hsz⟩ := find_found h l nodes s key i hwf hi hmin fuel
    (by omega)
  refine ⟨h', l', hrun, ⟨_, hwf'⟩, fun fuel' hf' => ?_, front_well_formed h' l' _ _ _ hwf',
    hsz⟩
  apply to_list_well_formed h' l' _ _ hwf'
  rw [List.length_cons, List.length_eraseIdx, if_pos hi_lt]
  omega

/-- C4. List `find` result and absent case: on a well-formed list with forward traversal
`s`, `find(key)` returns, and returns true exactly when some element of `s` equals `key`;
when none does it returns false and the list (heap, sentinels and size) is unchanged. -/
theorem list_find_true_iff_present [DecidableEq T] (h : heap T) (l : linked_list T)
    (nodes : List Nat) (s : List T) (key : T) (hwf : well_formed h l nodes s)
    (fuel : Nat) (hf : s.length < fuel) :
    (∃ h' l' r, find fuel h l key = some (h', l', r) ∧ (r = true ↔ key ∈ s)) ∧
    (key ∉ s → find fuel h l key = some (h, l, false) ∧ to_list fuel h l = some s ∧
      l.size = s.length) := by
  have hsize : l.size = s.length := by
    have hlen := well_formed_length h l nodes s hwf
    obtain ⟨hd, tl, -, -, -, -, -, hsz⟩ := hwf
    unfold size; rw [hsz, hlen]
  have habs : key ∉ s → find fuel h l key = some (h, l, false) :=
    fun hk => find_not_found h l nodes s key hwf hk fuel hf
  refine ⟨?_, fun hk => ⟨habs hk, to_list_well_formed h l nodes s hwf fuel hf, hsize⟩⟩
  by_cases hk : key ∈ s
  · have hex : ∃ i : Nat, s[i]? = some key := by
      obtain ⟨i, hi, e⟩ := List.getElem_of_mem hk
      exact ⟨i, by rw [List.getElem?_eq_getElem hi, e]⟩
    obtain ⟨h', l', hrun, -, -⟩ := find_found h l nodes s key (Nat.find hex) hwf
      (Nat.find_spec hex) (fun j hj => Nat.find_min hex hj) fuel (by
        obtain ⟨hlt, -⟩ := List.getElem?_eq_some.1 (Nat.find_spec hex)
        omega)
    exact ⟨h', l', true, hrun, by simp [hk]⟩
  · exact ⟨h, l, false, habs hk, by simp [hk]⟩

end linked_list

end nwacc

namespace nwacc

namespace linked_list

variable {T : Type}

theorem driver_names_built :
    (do
      let (h, l) ← init (T := String) []
      let (h, l) ← push_front h l "Shane"
      let (h, l) ← push_front h l "Daniel"
      let (h, l) ← push_front h l "Lela"
      push_front h l "Tamara") = some (driver_heap, driver_names) := by
  decide

theorem driver_names_well_formed :
    well_formed driver_heap driver_names [5, 4, 3, 2] ["Tamara", "Lela", "Daniel", "Shane"] :=
  ⟨0, 1, rfl, rfl, by decide,
    by simp [linked, next_of, previous_of, heap.read, driver_heap], by decide, rfl⟩

/-- Witness for C2 on the driver's list: `find("Daniel")` on Tamara, Lela, Daniel, Shane. -/
theorem list_find_moves_first_match_to_front_witness :
    ∃ h' l', find 5 driver_heap driver_names "Daniel" = some (h', l', true) ∧
      (∃ nodes', well_formed h' l' nodes'
        ("Daniel" :: ["Tamara", "Lela", "Daniel", "Shane"].eraseIdx 2)) ∧
      (∀ fuel', ["Tamara", "Lela", "Daniel", "Shane"].length < fuel' →
        to_list fuel' h' l'
          = some ("Daniel" :: ["Tamara", "Lela", "Daniel", "Shane"].eraseIdx 2)) ∧
      front h' l' = some "Daniel" ∧
      l'.size = driver_names.size :=
  list_find_moves_first_match_to_front driver_heap driver_names [5, 4, 3, 2]
    ["Tamara", "Lela", "Daniel", "Shane"] "Daniel" 2 driver_names_well_formed rfl
    (by
      intro j hj
      have : j = 0 ∨ j = 1 := by omega
      rcases this with rfl | rfl <;> decide)
    5 (by decide)

/-- Witness for C4 on the driver's list: `find("Nobody")` leaves it unchanged. -/
theorem list_find_true_iff_present_witness :
    find 5 driver_heap driver_names "Nobody" = some (driver_heap, driver_names, false) :=
  ((list_find_true_iff_present driver_heap driver_names [5, 4, 3, 2]
    ["Tamara", "Lela", "Daniel", "Shane"] "Nobody" driver_names_well_formed 5
    (by decide)).2 (by decide)).1

end linked_list

end nwacc

namespace nwacc

namespace linked_list

variable {T : Type}

theorem init_well_formed [Inhabited T] (h0 : heap T) :
    ∃ h l, init h0 = some (h, l) ∧ well_formed h l [] [] := by
  let a : node T := { data := default, previous := none, next := none }
  let h2 : heap T := (((h0.alloc a).1).alloc a).1
  have len2 : h2.length = h0.length + 2 := by
    show (((h0.alloc a).1).alloc a).1.length = _
    rw [heap.length_alloc, heap.length_alloc]
  have r2hd : h2.read h0.length = some a := by
    show (((h0.alloc a).1).alloc a).1.read h0.length = _
    rw [heap.read_alloc_old _ _ _ (by rw [heap.length_alloc]; omega), heap.read_alloc_new]
  have r2tl : h2.read (h0.length + 1) = some a := by
    have := heap.read_alloc_new (h0.alloc a).1 a
    rw [heap.length_alloc] at this
    exact this
  let h3 : heap T := h2.write h0.length { a with next := some (h0.length + 1) }
  let h4 : heap T := h3.write (h0.length + 1) { a with previous := some h0.length }
  have r3tl : h3.read (h0.length + 1) = some a := by
    rw [heap.read_write_ne _ _ _ _ (by omega)]; exact r2tl
  have r4hd : h4.read h0.length = some { a with next := some (h0.length + 1) } := by
    rw [heap.read_write_ne _ _ _ _ (by omega),
      heap.read_write_same _ _ _ (by rw [len2]; omega)]
  have r4tl : h4.read (h0.length + 1) = some { a with previous := some h0.length } := by
    rw [heap.read_write_same _ _ _ (by rw [heap.length_write, len2]; omega)]
  have hrun : init h0 = some (h4, ⟨0, some h0.length, some (h0.length + 1)⟩) := by
    have r2hd' : heap.read (h0 ++ [some a] ++ [some a]) h0.length = some a := r2hd
    have r3tl' : heap.read (heap.write (h0 ++ [some a] ++ [some a]) h0.length
        (node.mk a.data a.previous (some (h0.length + 1)))) (h0.length + 1) = some a := r3tl
    simp only [init, heap.alloc, heap.set_next, heap.set_previous, Option.bind_eq_bind,
      Option.some_bind, Option.pure_def, List.length_append, List.length_singleton]
    rw [r2hd']
    simp only [Option.some_bind]
    rw [r3tl']
    rfl
  refine ⟨h4, _, hrun, h0.length, h0.length + 1, rfl, rfl, by simp, ?_, rfl, rfl⟩
  rw [List.nil_append, List.chain'_cons]
  refine ⟨⟨?_, ?_⟩, List.chain'_singleton _⟩
  · unfold next_of; rw [r4hd]; rfl
  · unfold previous_of; rw [r4tl]; rfl

theorem advance_chain (h : heap T) (tl : Nat) : ∀ (xs : List Nat) (k : Nat),
    List.Chain' (linked h) (xs ++ [tl]) → k ≤ xs.length →
    advance h k (xs ++ [tl]).head? = some (xs ++ [tl])[k]?
  | xs, 0, _, _ => by
    rw [advance]; cases xs <;> simp
  | [], k + 1, _, hk => by simp at hk
  | x :: xs, k + 1, hch, hk => by
    obtain ⟨y, ys, hy⟩ : ∃ y ys, xs ++ [tl] = y :: ys := by
      cases xs with
      | nil => exact ⟨tl, [], rfl⟩
      | cons y ys => exact ⟨y, ys ++ [tl], rfl⟩
    have hch' : List.Chain' (linked h) (x :: y :: ys) := by rw [← hy]; exact hch
    rw [List.chain'_cons] at hch'
    obtain ⟨n, hn, hnn⟩ := next_of_some h x y hch'.1.1
    have ih := advance_chain h tl xs k (by rw [hy]; exact hch'.2) (by simp at hk; omega)
    rw [hy, List.head?_cons] at ih
    simp only [advance, List.cons_append, List.head?_cons, heap.deref, Option.bind_eq_bind,
      Option.some_bind, hn, hnn, List.getElem?_cons_succ]
    rw [hy]
    exact ih

theorem iterator_at_well_formed (h : heap T) (l : linked_list T) (nodes : List Nat)
    (s : List T) (k : Nat) (hwf : well_formed h l nodes s) (hk : k ≤ nodes.length) :
    ∃ position, iterator_at h l k = some position ∧
      (nodes.map some ++ [l.end_])[k]? = some position := by
  obtain ⟨hd, tl, hhd, htl, -, hch, -, -⟩ := hwf
  have hb := begin_well_formed h l nodes hd tl hhd hch
  have hadv := advance_chain h tl nodes k (List.chain'_cons'.1 hch).2 hk
  refine ⟨(nodes ++ [tl])[k]?, ?_, ?_⟩
  · unfold iterator_at
    rw [hb]
    simp only [Option.bind_eq_bind, Option.some_bind]
    exact hadv
  · have e : nodes.map some ++ [l.end_] = (nodes ++ [tl]).map some := by
      simp [end_, htl]
    have hlt : k < (nodes ++ [tl]).length := by simp; omega
    rw [e, List.getElem?_map, List.getElem?_eq_getElem hlt]
    rfl

theorem step_well_formed (h : heap T) (l : linked_list T) (nodes : List Nat) (s : List T)
    (hwf : well_formed h l nodes s) (op : operation T) (ops : List (operation T))
    (hv : valid_positions nodes.length (op :: ops)) :
    ∃ h' l' nodes' s', step h l op = some (h', l') ∧ well_formed h' l' nodes' s' ∧
      valid_positions nodes'.length ops := by
  cases op with
  | push_front value =>
    obtain ⟨h', hrun, hwf'⟩ := push_front_well_formed h l nodes s value hwf
    exact ⟨h', _, _, _, hrun, hwf', by simpa [valid_positions] using hv⟩
  | push_back value =>
    obtain ⟨h', hrun, hwf'⟩ := push_back_well_formed h l nodes s value hwf
    exact ⟨h', _, _, _, hrun, hwf', by simpa [valid_positions] using hv⟩
  | insert k value =>
    obtain ⟨hk, hv'⟩ : k ≤ nodes.length ∧ valid_positions (nodes.length + 1) ops := hv
    obtain ⟨position, hit, hp⟩ := iterator_at_well_formed h l nodes s k hwf hk
    obtain ⟨h', hrun, hwf', -, -⟩ := insert_at h l nodes s k position value hwf hp
    refine ⟨h', _, _, _, ?_, hwf', ?_⟩
    · simp only [step, hit, Option.bind_eq_bind, Option.some_bind, hrun, Option.pure_def]
    · have e : (nodes.take k ++ h.length :: nodes.drop k).length = nodes.length + 1 := by
        simp only [List.length_append, List.length_cons, List.length_take,
          List.length_drop]
        omega
      rw [e]; exact hv'
  | erase k =>
    obtain ⟨hk, hv'⟩ : k < nodes.length ∧ valid_positions (nodes.length - 1) ops := hv
    obtain ⟨position, hit, hp⟩ := iterator_at_well_formed h l nodes s k hwf (by omega)
    have hpk : nodes[k]? = some nodes[k] := List.getElem?_eq_getElem hk
    have hpos : position = some nodes[k] := by
      rw [List.getElem?_append_left (by simpa using hk), List.getElem?_map, hpk] at hp
      injection hp with hp
      exact hp.symm
    obtain ⟨h', it, hrun, hwf', -⟩ := erase_at h l nodes s k nodes[k] hwf hpk
    refine ⟨h', _, _, _, ?_, hwf', ?_⟩
    · simp only [step, hit, hpos, Option.bind_eq_bind, Option.some_bind, hrun,
        Option.pure_def]
    · rw [List.length_eraseIdx, if_pos hk]; exact hv'

theorem run_well_formed : ∀ (ops : List (operation T)) (h : heap T) (l : linked_list T)
    (nodes : List Nat) (s : List T), well_formed h l nodes s →
    valid_positions nodes.length ops →
    ∃ h' l' nodes' s', run ops (h, l) = some (h', l') ∧ well_formed h' l' nodes' s'
  | [], h, l, nodes, s, hwf, _ => ⟨h, l, nodes, s, rfl, hwf⟩
  | op :: ops, h, l, nodes, s, hwf, hv => by
    obtain ⟨h1, l1, nodes1, s1, hstep, hwf1, hv1⟩ := step_well_formed h l nodes s hwf op ops hv
    obtain ⟨h2, l2, nodes2, s2, hrun, hwf2⟩ := run_well_formed ops h1 l1 nodes1 s1 hwf1 hv1
    refine ⟨h2, l2, nodes2, s2, ?_, hwf2⟩
    simp only [run, hstep, Option.bind_eq_bind, Option.some_bind]
    exact hrun

end linked_list

end nwacc

namespace nwacc

namespace linked_list

variable {T : Type}

theorem node_links (h : heap T) (l : linked_list T) (nodes : List Nat) (s : List T)
    (k : Nat) (hwf : well_formed h l nodes s) (hk : k < nodes.length) :
    ∃ p n pn nn, iterator_at h l k = some p ∧ p ≠ l.end_ ∧ h.deref p = some n ∧
      h.deref n.previous = some pn ∧ pn.next = p ∧
      h.deref n.next = some nn ∧ nn.previous = p := by
  obtain ⟨hd, tl, hhd, htl, hnd, hch, -, -⟩ := hwf
  have hb := begin_well_formed h l nodes hd tl hhd hch
  have hadv := advance_chain h tl nodes k (List.chain'_cons'.1 hch).2 (by omega)
  have hlt : k < (nodes ++ [tl]).length := by simp; omega
  have hR := List.chain'_iff_get.1 hch
  have h1 := hR k (by simp; omega)
  have h2 := hR (k + 1) (by simp; omega)
  simp only [List.get_eq_getElem, List.getElem_cons_succ] at h1 h2
  have hbk : (nodes ++ [tl])[k] = nodes[k] := List.getElem_append_left hk
  rw [hbk] at h1 h2
  obtain ⟨n, hn, hnp⟩ := previous_of_some h _ _ h1.2
  obtain ⟨pn, hpn, hpnn⟩ := next_of_some h _ _ h1.1
  obtain ⟨n', hn', hnn⟩ := next_of_some h _ _ h2.1
  obtain ⟨nn, hnn2, hnnp⟩ := previous_of_some h _ _ h2.2
  have en : n' = n := by rw [hn] at hn'; injection hn' with e; exact e.symm
  rw [en] at hnn
  have hne : nodes[k] ≠ tl := by
    intro e
    have hmem : tl ∈ nodes := by rw [← e]; exact List.getElem_mem hk
    have := (List.nodup_cons.1 hnd).2
    rw [List.nodup_append] at this
    exact this.2.2 hmem (by simp)
  refine ⟨some nodes[k], n, pn, nn, ?_, ?_, ?_, ?_, hpnn, ?_, hnnp⟩
  · unfold iterator_at
    rw [hb]
    simp only [Option.bind_eq_bind, Option.some_bind]
    rw [hadv, List.getElem?_eq_getElem hlt, hbk]
  · rw [end_, htl]
    exact fun e => hne (Option.some.inj e)
  · exact hn
  · rw [hnp]; exact hpn
  · rw [hnn]; exact hnn2

/-- C7. List structural invariant and traversal: after any sequence of `push_front`,
`push_back`, `insert` at a valid position and `erase` at a valid non-sentinel position on a
newly constructed list, the calls all return; every non-sentinel node `n` (the `k`-th
position from `begin()`, `k < size()`) has `n.previous.next == n` and
`n.next.previous == n`; forward traversal from `begin()` reaches `end()` after exactly
`size()` elements, and backward traversal from `end()` visits them in reverse order. -/
theorem sequence_keeps_links_and_traversals [Inhabited T] (h0 : heap T)
    (ops : List (operation T)) (hv : valid_positions 0 ops) :
    ∃ h l, (init h0).bind (run ops) = some (h, l) ∧
      (∀ k : Nat, (k : Int) < l.size →
        ∃ p n pn nn, iterator_at h l k = some p ∧ p ≠ l.end_ ∧ h.deref p = some n ∧
          h.deref n.previous = some pn ∧ pn.next = p ∧
          h.deref n.next = some nn ∧ nn.previous = p) ∧
      ∃ s : List T, (s.length : Int) = l.size ∧
        ∀ fuel, s.length < fuel →
          to_list fuel h l = some s ∧ to_list_reverse fuel h l = some s.reverse := by
  obtain ⟨h1, l1, hinit, hwf1⟩ := init_well_formed h0
  obtain ⟨h, l, nodes, s, hrun, hwf⟩ := run_well_formed ops h1 l1 [] [] hwf1 hv
  have hlen := well_formed_length h l nodes s hwf
  have hsz : l.size = nodes.length := by
    obtain ⟨hd, tl, -, -, -, -, -, hsz⟩ := hwf
    exact hsz
  refine ⟨h, l, by rw [hinit]; exact hrun, fun k hk => ?_, s, by rw [hsz, hlen],
    fun fuel hf => ⟨to_list_well_formed h l nodes s hwf fuel hf,
      to_list_reverse_well_formed h l nodes s hwf fuel hf⟩⟩
  exact node_links h l nodes s k hwf (by rw [hsz] at hk; exact_mod_cast hk)

/-- Witness for C7: `push_front(1); push_back(2); insert(++begin(), 3); erase(begin())`
on a new list in an empty heap. -/
theorem sequence_keeps_links_and_traversals_witness :
    ∃ h l, (init (T := Nat) []).bind (run [operation.push_front 1, operation.push_back 2,
        operation.insert 1 3, operation.erase 0]) = some (h, l) ∧
      (∀ k : Nat, (k : Int) < l.size →
        ∃ p n pn nn, iterator_at h l k = some p ∧ p ≠ l.end_ ∧ h.deref p = some n ∧
          h.deref n.previous = some pn ∧ pn.next = p ∧
          h.deref n.next = some nn ∧ nn.previous = p) ∧
      ∃ s : List Nat, (s.length : Int) = l.size ∧
        ∀ fuel, s.length < fuel →
          to_list fuel h l = some s ∧ to_list_reverse fuel h l = some s.reverse :=
  sequence_keeps_links_and_traversals (T := Nat) []
    [operation.push_front 1, operation.push_back 2, operation.insert 1 3, operation.erase 0]
    ⟨by decide, by decide, trivial⟩

end linked_list

end nwacc

namespace nwacc

namespace array_list

variable {T : Type}

/-- C11. Array bounds check: `operator[](index)` fails with the out-of-range error exactly
when `index < 0` or `index ≥ size()`; otherwise it returns the element stored in slot
`index` (for an array satisfying the data model, the `index`-th element of the traversal).
The call only reads the array. -/
theorem operator_index_bounds [Inhabited T] (a : array_list T) (index : Int) :
    (a.operator_index index = Except.error exception.out_of_range ↔
      index < 0 ∨ index ≥ a.size) ∧
    (¬ (index < 0 ∨ index ≥ a.size) →
      a.operator_index index = Except.ok (a.data.getD index.toNat default)) ∧
    (a.valid → ¬ (index < 0 ∨ index ≥ a.size) →
      ∃ x, a.to_list[index.toNat]? = some x ∧ a.operator_index index = Except.ok x) := by
  refine ⟨?_, ?_, ?_⟩
  · unfold operator_index
    split_ifs with h
    · simp [h]
    · constructor
      · intro e; cases e
      · intro h2; exact absurd h2 h
  · intro h
    unfold operator_index
    rw [if_neg h]
  · rintro ⟨hv0, hv1, hv2⟩ h
    unfold size at h
    have hlt : index.toNat < a.data.length := by omega
    refine ⟨a.data[index.toNat], ?_, ?_⟩
    · unfold to_list
      rw [List.getElem?_take, if_pos (by omega), List.getElem?_eq_getElem hlt]
    · unfold operator_index size
      rw [if_neg h, List.getD_eq_getElem _ _ hlt]

theorem back_eq_last [Inhabited T] (a : array_list T) (hv : a.valid) (hne : a.size ≠ 0) :
    a.back = a.operator_index (a.size - 1) := by
  obtain ⟨hv0, hv1, hv2⟩ := hv
  unfold size at hne
  unfold back empty operator_index size
  rw [if_neg (by simpa using hne), if_neg (by omega)]

/-- C12. Array `pop_back` and `back`: both fail with the empty-container error exactly when
`size() == 0` (a failing call returns no new state); on a non-empty array `back()` is the
element at index `size() - 1`, and `pop_back()` lowers `size()` by one and leaves
`capacity()`, the buffer and the elements at `[0, size() - 1)` unchanged. -/
theorem pop_back_and_back_contract [Inhabited T] (a : array_list T) (hv : a.valid) :
    (a.pop_back = Except.error exception.out_of_range ↔ a.size = 0) ∧
    (a.back = Except.error exception.out_of_range ↔ a.size = 0) ∧
    (a.size ≠ 0 →
      a.back = a.operator_index (a.size - 1) ∧
      (∃ x, a.back = Except.ok x) ∧
      ∃ a', a.pop_back = Except.ok a' ∧ a'.size = a.size - 1 ∧
        a'.capacity = a.capacity ∧ a'.data = a.data ∧
        (∀ i : Int, 0 ≤ i → i < a.size - 1 → a'.operator_index i = a.operator_index i) ∧
        a'.to_list = a.to_list.dropLast) := by
  have hv' := hv
  obtain ⟨hv0, hv1, hv2⟩ := hv
  refine ⟨?_, ?_, ?_⟩
  · unfold pop_back empty
    by_cases h : a.size = 0
    · simp [h]
    · simp [h]
  · unfold back empty
    by_cases h : a.size = 0
    · simp [h]
    · simp [h]
  · intro hne
    have hb := back_eq_last a hv' hne
    unfold size at hne
    refine ⟨hb, ⟨a.data.getD (a.my_size - 1).toNat default, ?_⟩, ?_⟩
    · unfold back empty size
      rw [if_neg (by simpa using hne)]
    · refine ⟨{ a with my_size := a.my_size - 1 }, ?_, rfl, rfl, rfl, ?_, ?_⟩
      · unfold pop_back empty size
        rw [if_neg (by simpa using hne)]
      · intro i hi0 hi1
        unfold size at hi1
        unfold operator_index size
        simp only []
        rw [if_neg (by omega), if_neg (by omega)]
      · unfold to_list
        simp only []
        rw [List.dropLast_eq_take, List.take_take, List.length_take]
        congr 1
        omega

/-- Witness for C12: the array 7, 8 of capacity 2. -/
theorem pop_back_and_back_contract_witness :
    array_list.back (T := Int) ⟨2, 2, [7, 8]⟩
      = array_list.operator_index (T := Int) ⟨2, 2, [7, 8]⟩ 1 ∧
    ∃ a', array_list.pop_back (T := Int) ⟨2, 2, [7, 8]⟩ = Except.ok a' ∧
      a'.to_list = [7] := by
  obtain ⟨h1, -, a', h2, -, -, -, -, h3⟩ :=
    (pop_back_and_back_contract (T := Int) ⟨2, 2, [7, 8]⟩ (by decide)).2.2 (by decide)
  exact ⟨h1, a', h2, h3⟩

end array_list

end nwacc

namespace nwacc

namespace array_list

variable {T : Type}

theorem reserve_getD [Inhabited T] (a : array_list T) (new_capacity : Int) (hv : a.valid)
    (i : Nat) (hi : (i : Int) < a.my_size) :
    (a.reserve new_capacity).data.getD i default = a.data.getD i default := by
  by_cases h : new_capacity < a.my_size
  · unfold reserve; rw [if_pos h]
  · rw [reserve_data a _ hv h]
    obtain ⟨hv0, hv1, hv2⟩ := hv
    simp only []
    rw [List.getD_eq_getElem?_getD, List.getD_eq_getElem?_getD,
      List.getElem?_append_left (by rw [List.length_take]; omega), List.getElem?_take,
      if_pos (by omega)]

theorem resize_growth (c n : Int) (hc : 0 ≤ c) (h : n > c) (hmax : n * 3 ≤ int_max) :
    (wrap_int (n * 3)).tdiv 2 = (n * 3).tdiv 2 ∧ n ≤ (n * 3).tdiv 2 := by
  rw [wrap_int_eq _ (by unfold int_min; omega) hmax,
    Int.tdiv_eq_ediv (by omega) (by omega)]
  omega

/-- Array `resize` without `int` overflow: for `new_size ≥ 0` with `new_size * 3` at most
`INT_MAX`, afterwards `size()` is `new_size`; `capacity()` is `(new_size * 3) / 2` when
`new_size` exceeded the old capacity and is unchanged otherwise; every element at an index
below `min(old size, new_size)` is the same value as before. -/
theorem resize_in_range [Inhabited T] (a : array_list T) (new_size : Int)
    (hv : a.valid) (hn : 0 ≤ new_size) (hmax : new_size * 3 ≤ int_max) :
    (a.resize new_size).size = new_size ∧
    (new_size > a.capacity → (a.resize new_size).capacity = (new_size * 3).tdiv 2) ∧
    (¬ new_size > a.capacity → (a.resize new_size).capacity = a.capacity) ∧
    (∀ i : Int, 0 ≤ i → i < min a.size new_size →
      (a.resize new_size).operator_index i = a.operator_index i) ∧
    (a.resize new_size).to_list.take a.size.toNat = a.to_list.take new_size.toNat := by
  have hv' := hv
  obtain ⟨hv0, hv1, hv2⟩ := hv
  unfold capacity size
  by_cases hgt : new_size > a.my_capacity
  · obtain ⟨hw, hg⟩ := resize_growth a.my_capacity new_size (by omega) hgt hmax
    have hnot : ¬ (new_size * 3).tdiv 2 < a.my_size := by omega
    have hd := reserve_data a ((new_size * 3).tdiv 2) hv' hnot
    have hres : a.resize new_size =
        { a.reserve ((new_size * 3).tdiv 2) with my_size := new_size } := by
      unfold resize; rw [if_pos hgt, hw]
    refine ⟨by rw [hres], fun _ => by rw [hres, hd], fun h => absurd hgt h, ?_, ?_⟩
    · intro i hi0 hi1
      have hi2 : i < a.my_size := lt_of_lt_of_le hi1 (min_le_left _ _)
      have hi3 : i < new_size := lt_of_lt_of_le hi1 (min_le_right _ _)
      rw [hres]
      unfold operator_index size
      simp only []
      rw [if_neg (by omega), if_neg (by omega),
        reserve_getD a _ hv' i.toNat (by omega)]
    · rw [hres, hd]
      unfold to_list
      simp only []
      rw [List.take_take, List.take_take, List.take_append_eq_append_take,
        List.take_take]
      have e1 : min a.my_size.toNat new_size.toNat = a.my_size.toNat := by omega
      have e2 : min new_size.toNat a.my_size.toNat = a.my_size.toNat := by omega
      have e3 : a.my_size.toNat - (List.take a.my_size.toNat a.data).length = 0 := by
        rw [List.length_take]; omega
      rw [e1, e2, e3]
      simp
  · have hres : a.resize new_size = { a with my_size := new_size } := by
      unfold resize; rw [if_neg hgt]
    refine ⟨by rw [hres], fun h => absurd h hgt, fun _ => by rw [hres], ?_, ?_⟩
    · intro i hi0 hi1
      have hi2 : i < a.my_size := lt_of_lt_of_le hi1 (min_le_left _ _)
      have hi3 : i < new_size := lt_of_lt_of_le hi1 (min_le_right _ _)
      rw [hres]
      unfold operator_index size
      simp only []
      rw [if_neg (by omega), if_neg (by omega)]
    · rw [hres]
      unfold to_list
      simp only []
      rw [List.take_take, List.take_take, min_comm]

/-- C16 (failing input). `array_list<int> a; a.resize(800000000);`: the array starts with
capacity 2, the product `new_size * 3 = 2400000000` overflows `int` to `-1894967296`, so
`reserve` gets the request `-947483648` and returns at once: afterwards `size()` is
800000000 and `capacity()` is still 2, not `(800000000 * 3) / 2 = 1200000000`. With the
capacity first brought to 200000002 by `reserve`, `resize(1500000000)` wraps the product
to `205032704` and leaves the capacity at 102516352. -/
theorem resize_overflows_growth_request :
    ∃ a : array_list Int, construct 0 = Except.ok a ∧
      a.capacity = 2 ∧
      wrap_int (800000000 * 3) = -1894967296 ∧
      (a.resize 800000000).size = 800000000 ∧
      (a.resize 800000000).capacity = 2 ∧
      (800000000 * 3 : Int).tdiv 2 = 1200000000 ∧
      (a.reserve 200000002).capacity = 200000002 ∧
      ((a.reserve 200000002).resize 1500000000).capacity = 102516352 :=
  ⟨_, rfl, by decide⟩

theorem find_loop_fields [Inhabited T] [DecidableEq T] (key : T) (a : array_list T)
    (n : Nat) : ∀ index : Nat,
    (find_loop key a n index).2.my_capacity = a.my_capacity ∧
    (find_loop key a n index).2.my_size = a.my_size := by
  induction n with
  | zero => intro index; exact ⟨rfl, rfl⟩
  | succ n ih =>
    intro index
    rw [find_loop]
    split_ifs
    · exact ⟨rfl, rfl⟩
    · exact ih (index + 1)

theorem push_back_capacity [Inhabited T] (a : array_list T) (value : T) :
    (a.push_back value).my_capacity ≥ a.my_capacity ∧
    (a.emplace_back value).my_capacity ≥ a.my_capacity := by
  have key : (if a.my_size = a.my_capacity
      then a.reserve ((wrap_int (a.capacity * 3)).tdiv 2) else a).my_capacity
        ≥ a.my_capacity := by
    split_ifs with hfull
    · unfold reserve
      split_ifs with hlt
      · exact le_refl _
      · simp only []
        omega
    · exact le_refl _
  exact ⟨key, key⟩

/-- C19 (counterexample). After `array_list<int> a(5); a.reserve(3);` the capacity has gone
from 7 down to 3. -/
theorem reserve_lowers_capacity :
    ∃ a : array_list Int, construct 5 = Except.ok a ∧
      a.capacity = 7 ∧
      (a.reserve 3).capacity = 3 ∧
      ¬ (a.reserve 3).capacity ≥ a.capacity :=
  ⟨_, rfl, by decide⟩

/-- C19 (amended). On an array satisfying the data model, `resize(new_size)` with
`new_size * 3` at most `INT_MAX`, `push_back`, `emplace_back`, `pop_back` and `find` never
lower `capacity()`; `reserve(new_capacity)` leaves it alone when `new_capacity < size()`
and otherwise sets it to `new_capacity`, so it lowers the capacity exactly when
`size() ≤ new_capacity < capacity()`. -/
theorem capacity_not_lowered_without_overflow [Inhabited T] [DecidableEq T]
    (a : array_list T) (hv : a.valid) :
    (∀ new_size : Int, new_size * 3 ≤ int_max →
      (a.resize new_size).capacity ≥ a.capacity) ∧
    (∀ value : T, (a.push_back value).capacity ≥ a.capacity) ∧
    (∀ value : T, (a.emplace_back value).capacity ≥ a.capacity) ∧
    (∀ a', a.pop_back = Except.ok a' → a'.capacity = a.capacity) ∧
    (∀ key : T, (a.find key).2.capacity = a.capacity) ∧
    (∀ new_capacity : Int,
      (a.reserve new_capacity).capacity
        = if new_capacity < a.size then a.capacity else new_capacity) ∧
    (∀ new_capacity : Int,
      (a.reserve new_capacity).capacity < a.capacity ↔
        a.size ≤ new_capacity ∧ new_capacity < a.capacity) := by
  have hv' := hv
  obtain ⟨hv0, hv1, hv2⟩ := hv
  have hres : ∀ new_capacity : Int, (a.reserve new_capacity).my_capacity
      = if new_capacity < a.my_size then a.my_capacity else new_capacity := by
    intro nc
    unfold reserve
    split_ifs <;> rfl
  unfold capacity size
  refine ⟨?_, fun v => (push_back_capacity a v).1,
    fun v => (push_back_capacity a v).2, ?_, ?_, hres, ?_⟩
  · intro ns hmax
    unfold resize
    split_ifs with hgt
    · simp only []
      obtain ⟨hw, hg⟩ := resize_growth a.my_capacity ns (by omega) hgt hmax
      rw [hw, hres]
      split_ifs
      · exact le_refl _
      · omega
    · exact le_refl _
  · intro a' h
    unfold pop_back at h
    split_ifs at h
    injection h with h
    rw [← h]
  · intro key
    exact (find_loop_fields key a _ 0).1
  · intro nc
    rw [hres]
    split_ifs with h
    · constructor
      · intro h2; omega
      · rintro ⟨h2, _⟩; omega
    · constructor
      · intro h2; exact ⟨by omega, h2⟩
      · rintro ⟨_, h2⟩; exact h2

/-- Witness for C19 (amended): the array 7, 8 with capacity 4. -/
theorem capacity_not_lowered_without_overflow_witness :
    (array_list.reserve (T := Int) ⟨2, 4, [7, 8, 0, 0]⟩ 3).capacity < 4 ∧
    (array_list.push_back (T := Int) ⟨2, 4, [7, 8, 0, 0]⟩ 9).capacity ≥ 4 ∧
    (array_list.resize (T := Int) ⟨2, 4, [7, 8, 0, 0]⟩ 6).capacity ≥ 4 := by
  have h := capacity_not_lowered_without_overflow (T := Int) ⟨2, 4, [7, 8, 0, 0]⟩
    (by decide)
  exact ⟨(h.2.2.2.2.2.2 3).2 (by decide), h.2.1 9, h.1 6 (by decide)⟩

end array_list

end nwacc

namespace nwacc

namespace linked_list

variable {T : Type}

theorem mem_cells (l : linked_list T) (nodes : List Nat) (hd tl : Nat)
    (hhd : l.head = some hd) (htl : l.tail = some tl) (q : Nat) :
    some q ∈ cells l nodes ↔ q ∈ hd :: (nodes ++ [tl]) := by
  unfold cells
  rw [hhd, htl]
  simp [eq_comm]

theorem has_traversal_of_well_formed (h : heap T) (l : linked_list T) (nodes : List Nat)
    (s : List T) (hwf : well_formed h l nodes s) : has_traversal h l s :=
  ⟨⟨nodes, hwf⟩, fun fuel hf => to_list_well_formed h l nodes s hwf fuel hf⟩

theorem well_formed_size (h : heap T) (l : linked_list T) (nodes : List Nat) (s : List T)
    (hwf : well_formed h l nodes s) : l.size = s.length := by
  have hlen := well_formed_length h l nodes s hwf
  obtain ⟨hd, tl, -, -, -, -, -, hsz⟩ := hwf
  unfold size; rw [hsz, hlen]

theorem well_formed_live (h : heap T) (l : linked_list T) (nodes : List Nat) (s : List T)
    (hwf : well_formed h l nodes s) (q : Nat) (hq : some q ∈ cells l nodes) :
    q < h.length := by
  obtain ⟨hd, tl, hhd, htl, -, hch, -, -⟩ := hwf
  rw [mem_cells l nodes hd tl hhd htl] at hq
  exact chain_live h _ hch (by simp) q hq

theorem well_formed_frame (h h' : heap T) (l : linked_list T) (nodes : List Nat)
    (s : List T) (hwf : well_formed h l nodes s)
    (hfr : ∀ q, some q ∈ cells l nodes → h'.read q = h.read q) :
    well_formed h' l nodes s := by
  obtain ⟨hd, tl, hhd, htl, hnd, hch, hdat, hsz⟩ := hwf
  have hfr' : ∀ q, q ∈ hd :: (nodes ++ [tl]) → h'.read q = h.read q :=
    fun q hq => hfr q ((mem_cells l nodes hd tl hhd htl q).2 hq)
  refine ⟨hd, tl, hhd, htl, hnd, ?_, ?_, hsz⟩
  · apply chain_frame _ hch
    intro x y hx hy hr
    have hx' := hfr' x (List.mem_of_mem_dropLast hx)
    have hy' := hfr' y (List.mem_of_mem_tail hy)
    unfold linked next_of previous_of at hr ⊢
    rw [hx', hy']
    exact hr
  · rw [← hdat]
    apply List.map_congr_left
    intro x hx
    unfold data_of
    rw [hfr' x (by simp [hx])]

theorem insert_at_frame (h : heap T) (l : linked_list T) (nodes : List Nat) (s : List T)
    (k : Nat) (position : Option Nat) (value : T) (hwf : well_formed h l nodes s)
    (hp : (nodes.map some ++ [l.end_])[k]? = some position) :
    ∃ h', insert h l position value
        = some (h', { l with my_size := l.my_size + 1 }, some h.length) ∧
      well_formed h' { l with my_size := l.my_size + 1 }
        (nodes.take k ++ h.length :: nodes.drop k) (s.take k ++ value :: s.drop k) ∧
      h'.length = h.length + 1 ∧
      (∀ q, some q ∉ cells l nodes → q < h.length → h'.read q = h.read q) := by
  have hwf0 := hwf
  obtain ⟨hd, tl, hhd, htl, hnd, hch, hdat, hsz⟩ := hwf
  obtain ⟨hk, hpos⟩ := position_index l nodes tl k position htl hp
  have hsplit : nodes = nodes.take k ++ nodes.drop k := (List.take_append_drop k nodes).symm
  have hdA : (nodes.take k).map (data_of h) = (s.take k).map some := by
    rw [List.map_take, List.map_take, hdat]
  have hdB : (nodes.drop k).map (data_of h) = (s.drop k).map some := by
    rw [List.map_drop, List.map_drop, hdat]
  have hnd0 := hnd
  have hch0 := hch
  rw [hsplit] at hnd0 hch0
  obtain ⟨h', hrun, -, -, -, -, -, hlen, hfr⟩ :=
    insert_split h l hd tl (nodes.take k) (nodes.drop k) (s.take k) (s.drop k) value
      hnd0 hch0 hdA hdB
  obtain ⟨h2, hrun2, hwf2, -, -⟩ := insert_at h l nodes s k position value hwf0 hp
  rw [← hpos] at hrun
  have e : h2 = h' := by
    rw [hrun] at hrun2
    injection hrun2 with e
    exact (congrArg Prod.fst e).symm
  rw [e] at hwf2
  refine ⟨h', hrun, hwf2, hlen, fun q hq hlt => hfr q ?_ hlt⟩
  rw [List.take_append_drop]
  exact fun hm => hq ((mem_cells l nodes hd tl hhd htl q).2 hm)

theorem erase_at_frame (h : heap T) (l : linked_list T) (nodes : List Nat) (s : List T)
    (k : Nat) (p : Nat) (hwf : well_formed h l nodes s) (hp : nodes[k]? = some p) :
    ∃ h' it, erase h l (some p) = some (h', { l with my_size := l.my_size - 1 }, it) ∧
      well_formed h' { l with my_size := l.my_size - 1 } (nodes.eraseIdx k) (s.eraseIdx k) ∧
      (nodes.map some ++ [l.end_])[k + 1]? = some it ∧
      h'.length = h.length ∧
      (∀ q, some q ∉ cells l nodes → h'.read q = h.read q) := by
  have hwf0 := hwf
  obtain ⟨hd, tl, hhd, htl, hnd, hch, hdat, hsz⟩ := hwf
  obtain ⟨hk, hpk⟩ := List.getElem?_eq_some.1 hp
  have hsplit : nodes = nodes.take k ++ p :: nodes.drop (k + 1) := by
    rw [← hpk, List.getElem_cons_drop, List.take_append_drop]
  have hdA : (nodes.take k).map (data_of h) = (s.take k).map some := by
    rw [List.map_take, List.map_take, hdat]
  have hdB : (nodes.drop (k + 1)).map (data_of h) = (s.drop (k + 1)).map some := by
    rw [List.map_drop, List.map_drop, hdat]
  have hnd0 := hnd
  have hch0 := hch
  rw [hsplit] at hnd0 hch0
  obtain ⟨h', hrun, -, -, -, -, hlen, hfr⟩ :=
    erase_split h l hd tl p (nodes.take k) (nodes.drop (k + 1)) (s.take k) (s.drop (k + 1))
      (by simpa using hnd0) (by simpa using hch0) hdA hdB
  obtain ⟨h2, it, hrun2, hwf2, hit⟩ := erase_at h l nodes s k p hwf0 hp
  have e : h2 = h' := by
    rw [hrun] at hrun2
    injection hrun2 with e
    exact (congrArg Prod.fst e).symm
  rw [e] at hwf2 hrun2
  refine ⟨h', it, hrun2, hwf2, hit, hlen, fun q hq => hfr q ?_⟩
  intro hm
  apply hq
  rw [mem_cells l nodes hd tl hhd htl q, hsplit]
  simpa using hm

end linked_list

end nwacc

namespace nwacc

namespace linked_list

variable {T : Type}

theorem push_front_frame (h : heap T) (l : linked_list T) (nodes : List Nat)
    (s : List T) (value : T) (hwf : well_formed h l nodes s) :
    ∃ h', push_front h l value = some (h', { l with my_size := l.my_size + 1 }) ∧
      well_formed h' { l with my_size := l.my_size + 1 } (h.length :: nodes) (value :: s) ∧
      h'.length = h.length + 1 ∧
      (∀ q, some q ∉ cells l nodes → q < h.length → h'.read q = h.read q) := by
  have hwf0 := hwf
  obtain ⟨hd, tl, hhd, htl, -, hch, -, -⟩ := hwf
  have hb := begin_well_formed h l nodes hd tl hhd hch
  have hp : (nodes.map some ++ [l.end_])[0]? = some (nodes ++ [tl]).head? := by
    cases nodes <;> simp [end_, htl]
  obtain ⟨h', hrun, hwf', hlen, hfr⟩ := insert_at_frame h l nodes s 0 _ value hwf0 hp
  refine ⟨h', ?_, by simpa using hwf', hlen, hfr⟩
  unfold push_front
  rw [hb]
  simp only [Option.bind_eq_bind, Option.some_bind, hrun, Option.pure_def]

theorem push_back_frame (h : heap T) (l : linked_list T) (nodes : List Nat)
    (s : List T) (value : T) (hwf : well_formed h l nodes s) :
    ∃ h', push_back h l value = some (h', { l with my_size := l.my_size + 1 }) ∧
      well_formed h' { l with my_size := l.my_size + 1 } (nodes ++ [h.length])
        (s ++ [value]) ∧
      h'.length = h.length + 1 ∧
      (∀ q, some q ∉ cells l nodes → q < h.length → h'.read q = h.read q) := by
  have hlen := well_formed_length h l nodes s hwf
  have hp : (nodes.map some ++ [l.end_])[nodes.length]? = some l.end_ := by
    rw [List.getElem?_append_right (by simp)]; simp
  obtain ⟨h', hrun, hwf', hl, hfr⟩ := insert_at_frame h l nodes s nodes.length _ value hwf hp
  refine ⟨h', ?_, ?_, hl, hfr⟩
  · unfold push_back
    simp only [Option.bind_eq_bind, hrun, Option.some_bind, Option.pure_def]
  · rw [List.take_of_length_le (le_refl _), List.drop_of_length_le (le_refl _),
      List.take_of_length_le (by omega), List.drop_of_length_le (by omega)] at hwf'
    exact hwf'

theorem pop_front_frame (h : heap T) (l : linked_list T) (nodes : List Nat)
    (v : T) (s : List T) (hwf : well_formed h l nodes (v :: s)) :
    ∃ h', pop_front h l = some (h', { l with my_size := l.my_size - 1 }) ∧
      well_formed h' { l with my_size := l.my_size - 1 } nodes.tail s ∧
      h'.length = h.length ∧
      (∀ q, some q ∉ cells l nodes → h'.read q = h.read q) := by
  have hwf0 := hwf
  have hlen := well_formed_length h l nodes (v :: s) hwf
  obtain ⟨hd, tl, hhd, htl, -, hch, -, -⟩ := hwf
  have hb := begin_well_formed h l nodes hd tl hhd hch
  cases nodes with
  | nil => simp at hlen
  | cons x xs =>
    obtain ⟨h', it, hrun, hwf', -, hl, hfr⟩ :=
      erase_at_frame h l (x :: xs) (v :: s) 0 x hwf0 (by simp)
    refine ⟨h', ?_, by simpa using hwf', hl, hfr⟩
    unfold pop_front
    rw [hb]
    simp only [List.cons_append, List.head?_cons, Option.bind_eq_bind, Option.some_bind,
      hrun, Option.pure_def]

theorem last_node (h : heap T) (l : linked_list T) (nodes : List Nat) (p : Nat)
    (s : List T) (v : T) (hwf : well_formed h l (nodes ++ [p]) (s ++ [v])) :
    ∃ e n, h.deref l.end_ = some e ∧ e.previous = some p ∧ h.read p = some n ∧
      n.data = v := by
  obtain ⟨hd, tl, hhd, htl, -, hch, hdat, -⟩ := hwf
  have e : hd :: (nodes ++ [p] ++ [tl]) = (hd :: nodes) ++ p :: tl :: [] := by simp
  rw [e, List.chain'_append_cons_cons] at hch
  obtain ⟨en, hen, henp⟩ := previous_of_some h p tl hch.2.1.2
  obtain ⟨v', s', e2, hv, -⟩ := map_some_eq_concat hdat
  obtain ⟨e3, e4⟩ := List.append_inj' e2 rfl
  have hv' : v' = v := by simpa using e4.symm
  obtain ⟨n, hn, hnd⟩ := data_of_some h p v' hv
  exact ⟨en, n, by simp [end_, htl, heap.deref, hen], henp, hn, by rw [hnd, hv']⟩

theorem pop_back_frame (h : heap T) (l : linked_list T) (nodes : List Nat)
    (s : List T) (hwf : well_formed h l nodes s) (hne : s ≠ []) :
    ∃ h', pop_back h l = some (h', { l with my_size := l.my_size - 1 }) ∧
      well_formed h' { l with my_size := l.my_size - 1 } nodes.dropLast s.dropLast ∧
      h'.length = h.length ∧
      (∀ q, some q ∉ cells l nodes → h'.read q = h.read q) := by
  have hlen := well_formed_length h l nodes s hwf
  rcases List.eq_nil_or_concat s with rfl | ⟨s', v, rfl⟩
  · exact absurd rfl hne
  rcases List.eq_nil_or_concat nodes with rfl | ⟨nodes', p, rfl⟩
  · simp at hlen
  rw [List.concat_eq_append] at hwf hlen ⊢
  rw [List.concat_eq_append] at hwf hlen ⊢
  obtain ⟨e, n, he, hep, -, -⟩ := last_node h l nodes' p s' v hwf
  have hlen' : nodes'.length = s'.length := by simpa using hlen
  have hp : (nodes' ++ [p])[nodes'.length]? = some p := by
    rw [List.getElem?_append_right (le_refl _)]; simp
  obtain ⟨h', it, hrun, hwf', -, hl, hfr⟩ :=
    erase_at_frame h l (nodes' ++ [p]) (s' ++ [v]) nodes'.length p hwf hp
  refine ⟨h', ?_, ?_, hl, hfr⟩
  · unfold pop_back
    rw [he]
    simp only [Option.bind_eq_bind, Option.some_bind, hep, hrun, Option.pure_def]
  · rw [List.dropLast_concat, List.dropLast_concat]
    rw [List.eraseIdx_append_of_length_le (le_refl _),
      hlen', List.eraseIdx_append_of_length_le (le_refl _)] at hwf'
    simpa using hwf'

theorem back_well_formed (h : heap T) (l : linked_list T) (nodes : List Nat)
    (s : List T) (v : T) (hwf : well_formed h l nodes (s ++ [v])) :
    back h l = some v := by
  have hlen := well_formed_length h l nodes (s ++ [v]) hwf
  rcases List.eq_nil_or_concat nodes with rfl | ⟨nodes', p, rfl⟩
  · simp at hlen
  rw [List.concat_eq_append] at hwf
  obtain ⟨e, n, he, hep, hn, hnd⟩ := last_node h l nodes' p s v hwf
  unfold back
  rw [he]
  simp only [Option.bind_eq_bind, Option.some_bind, hep, heap.deref, hn, Option.pure_def,
    hnd]

end linked_list

end nwacc

namespace nwacc

namespace linked_list

variable {T : Type}

/-- C13. List double-ended operations: on a well-formed list with forward traversal `s`,
`push_front(v)` yields `[v] ++ s` and `push_back(v)` yields `s ++ [v]`; for non-empty `s`,
`pop_front()` yields `s` without its first element, `pop_back()` yields `s` without its
last, `front()` is the first element and `back()` the last; each push raises and each pop
lowers `size()` by exactly one. -/
theorem double_ended_operations (h : heap T) (l : linked_list T) (nodes : List Nat)
    (s : List T) (v : T) (hwf : well_formed h l nodes s) :
    (∃ h' l', push_front h l v = some (h', l') ∧ has_traversal h' l' (v :: s) ∧
      l'.size = l.size + 1) ∧
    (∃ h' l', push_back h l v = some (h', l') ∧ has_traversal h' l' (s ++ [v]) ∧
      l'.size = l.size + 1) ∧
    (s ≠ [] →
      (∃ h' l', pop_front h l = some (h', l') ∧ has_traversal h' l' s.tail ∧
        l'.size = l.size - 1) ∧
      (∃ h' l', pop_back h l = some (h', l') ∧ has_traversal h' l' s.dropLast ∧
        l'.size = l.size - 1) ∧
      front h l = s.head? ∧ back h l = s.getLast?) := by
  refine ⟨?_, ?_, fun hne => ⟨?_, ?_, ?_, ?_⟩⟩
  · obtain ⟨h', hrun, hwf', -, -⟩ := push_front_frame h l nodes s v hwf
    exact ⟨h', _, hrun, has_traversal_of_well_formed _ _ _ _ hwf', rfl⟩
  · obtain ⟨h', hrun, hwf', -, -⟩ := push_back_frame h l nodes s v hwf
    exact ⟨h', _, hrun, has_traversal_of_well_formed _ _ _ _ hwf', rfl⟩
  · cases s with
    | nil => exact absurd rfl hne
    | cons x xs =>
      obtain ⟨h', hrun, hwf', -, -⟩ := pop_front_frame h l nodes x xs hwf
      exact ⟨h', _, hrun, has_traversal_of_well_formed _ _ _ _ hwf', rfl⟩
  · obtain ⟨h', hrun, hwf', -, -⟩ := pop_back_frame h l nodes s hwf hne
    exact ⟨h', _, hrun, has_traversal_of_well_formed _ _ _ _ hwf', rfl⟩
  · cases s with
    | nil => exact absurd rfl hne
    | cons x xs => exact front_well_formed h l nodes x xs hwf
  · rcases List.eq_nil_or_concat s with rfl | ⟨s', x, rfl⟩
    · exact absurd rfl hne
    · rw [List.concat_eq_append] at hwf ⊢
      rw [back_well_formed h l nodes s' x hwf]
      simp

/-- Witness for C13 on the driver's list Tamara, Lela, Daniel, Shane. -/
theorem double_ended_operations_witness :
    front driver_heap driver_names = some "Tamara" ∧
    back driver_heap driver_names = some "Shane" ∧
    ∃ h' l', pop_back driver_heap driver_names = some (h', l') ∧
      has_traversal h' l' ["Tamara", "Lela", "Daniel"] ∧ l'.size = driver_names.size - 1 := by
  have h := (double_ended_operations driver_heap driver_names [5, 4, 3, 2]
    ["Tamara", "Lela", "Daniel", "Shane"] "x" driver_names_well_formed).2.2 (by decide)
  exact ⟨h.2.2.1, h.2.2.2, h.2.1⟩

end linked_list

end nwacc

namespace nwacc

namespace linked_list

variable {T : Type}

theorem positions_nodup (h : heap T) (l : linked_list T) (nodes : List Nat) (s : List T)
    (hwf : well_formed h l nodes s) : (nodes.map some ++ [l.end_]).Nodup := by
  obtain ⟨hd, tl, -, htl, hnd, -, -, -⟩ := hwf
  have e : nodes.map some ++ [l.end_] = (nodes ++ [tl]).map some := by simp [end_, htl]
  rw [e]
  exact List.Nodup.map (Option.some_injective _) (List.nodup_cons.1 hnd).2

theorem eraseIdx_take_self {α : Type} (xs : List α) (i : Nat) :
    (xs.eraseIdx i).take i = xs.take i := by
  apply List.ext_getElem?
  intro k
  simp only [List.getElem?_take, List.getElem?_eraseIdx]
  split_ifs <;> rfl

theorem eraseIdx_drop_after {α : Type} (xs : List α) (i d : Nat) :
    (xs.eraseIdx i).drop (i + d) = xs.drop (i + d + 1) := by
  apply List.ext_getElem?
  intro k
  simp only [List.getElem?_drop, List.getElem?_eraseIdx]
  rw [if_neg (by omega)]
  congr 1
  omega

theorem erase_range_loop_correct (d : Nat) : ∀ (h : heap T) (l : linked_list T)
    (nodes : List Nat) (s : List T) (i : Nat) (from_ to_ : Option Nat) (fuel : Nat),
    well_formed h l nodes s →
    (nodes.map some ++ [l.end_])[i]? = some from_ →
    (nodes.map some ++ [l.end_])[i + d]? = some to_ → d < fuel →
    ∃ h' l', erase_range_loop to_ fuel h l from_ = some (h', l', to_) ∧
      well_formed h' l' (nodes.take i ++ nodes.drop (i + d)) (s.take i ++ s.drop (i + d)) ∧
      l'.my_size = l.my_size - d := by
  induction d with
  | zero =>
    intro h l nodes s i from_ to_ fuel hwf hi hj hf
    obtain ⟨f, rfl⟩ : ∃ f, fuel = f + 1 := ⟨fuel - 1, by omega⟩
    have e : from_ = to_ := by
      rw [Nat.add_zero, hi] at hj
      exact Option.some.inj hj
    refine ⟨h, l, ?_, ?_, by simp⟩
    · rw [erase_range_loop, if_pos e]
    · rw [Nat.add_zero, List.take_append_drop, List.take_append_drop]
      exact hwf
  | succ d ih =>
    intro h l nodes s i from_ to_ fuel hwf hi hj hf
    obtain ⟨f, rfl⟩ : ∃ f, fuel = f + 1 := ⟨fuel - 1, by omega⟩
    have hlen := well_formed_length h l nodes s hwf
    have hnd := positions_nodup h l nodes s hwf
    have hjlt : i + (d + 1) < (nodes.map some ++ [l.end_]).length := by
      by_contra hc
      rw [List.getElem?_eq_none (by omega)] at hj
      cases hj
    have hilt : i < nodes.length := by simp at hjlt; omega
    have hpi : nodes[i]? = some nodes[i] := List.getElem?_eq_getElem hilt
    have hfrom : from_ = some nodes[i] := by
      rw [List.getElem?_append_left (by simpa using hilt), List.getElem?_map, hpi] at hi
      exact (Option.some.inj hi).symm
    have hne : from_ ≠ to_ := by
      intro e
      rw [← e] at hj
      have h1 := List.getElem?_eq_some.1 hi
      have h2 := List.getElem?_eq_some.1 hj
      obtain ⟨p1, q1⟩ := h1
      obtain ⟨p2, q2⟩ := h2
      have := (List.Nodup.getElem_inj_iff hnd).1 (q1.trans q2.symm)
      omega
    obtain ⟨h1, it, hrun, hwf1, hit⟩ := erase_at h l nodes s i nodes[i] hwf hpi
    have hend : (linked_list.mk (l.my_size - 1) l.head l.tail : linked_list T).end_ = l.end_ := rfl
    have hpos : ∀ k, ((nodes.eraseIdx i).map some
        ++ [(linked_list.mk (l.my_size - 1) l.head l.tail : linked_list T).end_])[i + k]?
        = (nodes.map some ++ [l.end_])[i + k + 1]? := by
      intro k
      have e : (nodes.eraseIdx i).map some ++ [l.end_]
          = (nodes.map some ++ [l.end_]).eraseIdx i := by
        rw [List.eraseIdx_append_of_lt_length (by simpa using hilt)]
        congr 1
        apply List.ext_getElem?
        intro m
        simp only [List.getElem?_map, List.getElem?_eraseIdx]
        split_ifs <;> rfl
      rw [hend, e, List.getElem?_eraseIdx, if_neg (by omega)]
    obtain ⟨h', l', hloop, hwf', hsz⟩ := ih h1 _ (nodes.eraseIdx i) (s.eraseIdx i) i it to_ f
      hwf1 (by rw [← hit]; exact hpos 0)
      (by rw [hpos d, ← hj]; congr 1) (by omega)
    refine ⟨h', l', ?_, ?_, ?_⟩
    · rw [erase_range_loop, if_neg hne, hfrom]
      simp only [Option.bind_eq_bind, hrun, Option.some_bind]
      exact hloop
    · rw [eraseIdx_take_self, eraseIdx_drop_after, eraseIdx_take_self,
        eraseIdx_drop_after] at hwf'
      exact hwf'
    · rw [hsz]
      simp only []
      push_cast
      omega

/-- C17. List range `erase`: on a well-formed list, for positions `from` at index `i` and
`to` at index `j ≥ i` (so `to` is reached from `from` by `j - i` forward steps),
`erase(from, to)` terminates, removes exactly the elements at `[i, j)` and keeps the others
in order, lowers `size()` by `j - i`, and returns `to`. -/
theorem erase_range_removes_interval (h : heap T) (l : linked_list T) (nodes : List Nat)
    (s : List T) (i j : Nat) (from_ to_ : Option Nat) (fuel : Nat)
    (hwf : well_formed h l nodes s) (hij : i ≤ j)
    (hi : (nodes.map some ++ [l.end_])[i]? = some from_)
    (hj : (nodes.map some ++ [l.end_])[j]? = some to_)
    (hf : j - i < fuel) :
    ∃ h' l', erase_range fuel h l from_ to_ = some (h', l', to_) ∧
      has_traversal h' l' (s.take i ++ s.drop j) ∧
      l'.size = l.size - ((j - i : Nat) : Int) := by
  obtain ⟨d, rfl⟩ : ∃ d, j = i + d := ⟨j - i, by omega⟩
  obtain ⟨h', l', hrun, hwf', hsz⟩ :=
    erase_range_loop_correct d h l nodes s i from_ to_ fuel hwf hi hj (by omega)
  refine ⟨h', l', hrun, has_traversal_of_well_formed _ _ _ _ hwf', ?_⟩
  unfold size
  rw [hsz]
  congr 2
  omega

/-- Witness for C17 on the driver's list: erasing from index 1 up to index 3. -/
theorem erase_range_removes_interval_witness :
    ∃ h' l', erase_range 3 driver_heap driver_names (some 4) (some 2) = some (h', l', some 2) ∧
      has_traversal h' l'
        (["Tamara", "Lela", "Daniel", "Shane"].take 1
          ++ ["Tamara", "Lela", "Daniel", "Shane"].drop 3) ∧
      l'.size = driver_names.size - ((3 - 1 : Nat) : Int) :=
  erase_range_removes_interval driver_heap driver_names [5, 4, 3, 2]
    ["Tamara", "Lela", "Daniel", "Shane"] 1 3 (some 4) (some 2) 3 driver_names_well_formed
    (by decide) rfl rfl (by decide)

end linked_list

end nwacc

namespace nwacc

variable {T : Type}

theorem linked_list.has_traversal_eta (h : heap T) (l : linked_list T) (s : List T)
    (hs : linked_list.has_traversal h l s) :
    linked_list.has_traversal h ⟨l.my_size, l.head, l.tail⟩ s := by
  cases l; exact hs

/-- C14 (counterexample). Move assignment exchanges the fields: assigning the array 2
(size 1) into an array holding 1 (size 1) leaves the source with size 1, and likewise for
two lists of sizes 2 and 1. -/
theorem move_assign_source_not_empty :
    (array_list.move_assign (T := Int) ⟨1, 2, [1, 0]⟩ ⟨1, 2, [2, 0]⟩).2.size = 1 ∧
    (array_list.move_assign (T := Int) ⟨1, 2, [1, 0]⟩ ⟨1, 2, [2, 0]⟩).2.to_list = [1] ∧
    (linked_list.move_assign (T := Int) ⟨1, some 0, some 1⟩ ⟨2, some 3, some 4⟩).2.size = 1 := by
  decide

/-- C14 (amended). For both containers: after move construction the destination has the
size and element sequence the source had and the source has `size() == 0`; after move
assignment the destination has the size and element sequence the source had, and the
source has the size and element sequence the destination had. -/
theorem move_transfers_contents (a_src a_dst : array_list T) (h : heap T)
    (src dst : linked_list T) (s t : List T)
    (hs : linked_list.has_traversal h src s) (ht : linked_list.has_traversal h dst t) :
    ((array_list.move_construct a_src).1.size = a_src.size ∧
      (array_list.move_construct a_src).1.to_list = a_src.to_list ∧
      (array_list.move_construct a_src).2.size = 0 ∧
      (array_list.move_construct a_src).2.to_list = [] ∧
      (array_list.move_assign a_dst a_src).1.size = a_src.size ∧
      (array_list.move_assign a_dst a_src).1.to_list = a_src.to_list ∧
      (array_list.move_assign a_dst a_src).2.size = a_dst.size ∧
      (array_list.move_assign a_dst a_src).2.to_list = a_dst.to_list) ∧
    ((linked_list.move_construct src).1.size = src.size ∧
      linked_list.has_traversal h (linked_list.move_construct src).1 s ∧
      (linked_list.move_construct src).2.size = 0 ∧
      (linked_list.move_construct src).2.empty = true ∧
      (linked_list.move_assign dst src).1.size = src.size ∧
      linked_list.has_traversal h (linked_list.move_assign dst src).1 s ∧
      (linked_list.move_assign dst src).2.size = dst.size ∧
      linked_list.has_traversal h (linked_list.move_assign dst src).2 t) := by
  refine ⟨⟨rfl, rfl, rfl, rfl, rfl, rfl, rfl, rfl⟩, rfl, ?_, rfl, rfl, rfl, ?_, rfl, ?_⟩
  · exact linked_list.has_traversal_eta h src s hs
  · exact linked_list.has_traversal_eta h src s hs
  · exact linked_list.has_traversal_eta h dst t ht

/-- Witness for C14 (amended): an array holding two strings and the driver's list. -/
theorem move_transfers_contents_witness :
    (array_list.move_construct (T := String) ⟨2, 2, ["a", "b"]⟩).2.size = 0 ∧
    linked_list.has_traversal linked_list.driver_heap
      (linked_list.move_construct linked_list.driver_names).1
      ["Tamara", "Lela", "Daniel", "Shane"] ∧
    (linked_list.move_construct linked_list.driver_names).2.size = 0 := by
  have hs := linked_list.has_traversal_of_well_formed _ _ _ _
    linked_list.driver_names_well_formed
  have h := move_transfers_contents (T := String) ⟨2, 2, ["a", "b"]⟩ ⟨0, 0, []⟩
    linked_list.driver_heap linked_list.driver_names linked_list.driver_names _ _ hs hs
  exact ⟨h.1.2.2.1, h.2.2.1, h.2.2.2.1⟩

namespace linked_list

/-- C15 (counterexample). After move construction from the driver's list the source has
null `head` and `tail`: `begin()` dereferences a null pointer and neither `push_front` nor
`push_back` can be applied. -/
theorem moved_from_list_has_no_sentinels :
    (move_construct driver_names).2.head = none ∧
    (move_construct driver_names).2.tail = none ∧
    begin driver_heap (move_construct driver_names).2 = none ∧
    push_front driver_heap (move_construct driver_names).2 "x" = none ∧
    push_back driver_heap (move_construct driver_names).2 "x" = none := by
  decide

/-- C15 (amended). After move construction from a linked list the source is not in a
state equivalent to a default-constructed list: `size() == 0`, but no sentinel is present
(`head == tail == nullptr`, where a default-constructed list has both and
`begin() == end()`), so `begin()` dereferences a null pointer and `push_front`,
`push_back` and `insert` at `end()` cannot be applied to it. -/
theorem moved_from_list_not_reusable [Inhabited T] (h : heap T) (rhs : linked_list T) :
    (move_construct rhs).2.size = 0 ∧
    (move_construct rhs).2.head = none ∧
    (move_construct rhs).2.tail = none ∧
    (∃ h1 l1 hd tl, init h = some (h1, l1) ∧ l1.size = 0 ∧ l1.head = some hd ∧
      l1.tail = some tl ∧ begin h1 l1 = some l1.end_) ∧
    begin h (move_construct rhs).2 = none ∧
    (∀ value : T, push_front h (move_construct rhs).2 value = none) ∧
    (∀ value : T, push_back h (move_construct rhs).2 value = none) ∧
    (∀ value : T,
      insert h (move_construct rhs).2 (move_construct rhs).2.end_ value = none) := by
  refine ⟨rfl, rfl, rfl, ?_, rfl, fun _ => rfl, fun _ => rfl, fun _ => rfl⟩
  obtain ⟨h1, l1, hinit, hwf⟩ := init_well_formed h
  obtain ⟨hd, tl, hhd, htl, -, hch, -, hsz⟩ := hwf
  have hb := begin_well_formed h1 l1 [] hd tl hhd hch
  refine ⟨h1, l1, hd, tl, hinit, by simpa [size] using hsz, hhd, htl, ?_⟩
  rw [hb, end_, htl]
  rfl

end linked_list

end nwacc

namespace nwacc

variable {T : Type}

theorem erase_eq_eraseIdx_of_first [DecidableEq T] (key : T) : ∀ (s : List T) (i : Nat),
    s[i]? = some key → (∀ j, j < i → s[j]? ≠ some key) → s.erase key = s.eraseIdx i
  | [], i, hi, _ => by simp at hi
  | x :: xs, 0, hi, _ => by
    simp only [List.getElem?_cons_zero, Option.some.injEq] at hi
    subst hi
    simp
  | x :: xs, i + 1, hi, hmin => by
    have hx : x ≠ key := fun e => hmin 0 (by omega) (by simp [e])
    simp only [List.getElem?_cons_succ] at hi
    rw [List.erase_cons_tail (by simpa using hx), List.eraseIdx_cons_succ,
      erase_eq_eraseIdx_of_first key xs i hi
        (fun j hj e => hmin (j + 1) (by omega) (by simpa using e))]

theorem first_index_of_mem [DecidableEq T] (key : T) (s : List T) (hk : key ∈ s) :
    ∃ i : Nat, s[i]? = some key ∧ ∀ j, j < i → s[j]? ≠ some key := by
  have hex : ∃ i : Nat, s[i]? = some key := by
    obtain ⟨i, hi, e⟩ := List.getElem_of_mem hk
    exact ⟨i, by rw [List.getElem?_eq_getElem hi, e]⟩
  exact ⟨Nat.find hex, Nat.find_spec hex, fun j hj => Nat.find_min hex hj⟩

theorem array_list.to_list_getElem? [Inhabited T] (a : array_list T) (hv : a.valid)
    (j : Nat) (hj : (j : Int) < a.my_size) :
    a.to_list[j]? = some (a.data.getD j default) := by
  obtain ⟨hv0, hv1, hv2⟩ := hv
  unfold array_list.to_list
  rw [List.getElem?_take, if_pos (by omega), List.getD_eq_getElem _ _ (by omega),
    List.getElem?_eq_getElem]

theorem array_list.find_refines_spec [Inhabited T] [DecidableEq T] (a : array_list T)
    (key : T) (hv : a.valid) :
    (a.find key).1 = (move_to_front_spec key a.to_list).1 ∧
    (a.find key).2.to_list = (move_to_front_spec key a.to_list).2 ∧
    (a.find key).2.my_size = a.my_size ∧
    (a.find key).2.my_capacity = a.my_capacity ∧
    (a.find key).2.valid := by
  have hv' := hv
  obtain ⟨hv0, hv1, hv2⟩ := hv
  have hlen : a.to_list.length = a.my_size.toNat := by
    unfold array_list.to_list
    rw [List.length_take]; omega
  unfold move_to_front_spec
  by_cases hk : key ∈ a.to_list
  · rw [if_pos hk]
    obtain ⟨i, hi, hmin⟩ := first_index_of_mem key a.to_list hk
    obtain ⟨hilt, -⟩ := List.getElem?_eq_some.1 hi
    have hi' : (i : Int) < a.my_size := by omega
    have hkey : a.data.getD i default = key := by
      rw [array_list.to_list_getElem? a hv' i hi'] at hi
      exact Option.some.inj hi
    have hfind := array_list.find_eq_of_first a key i hi' hkey (fun j hj e =>
      hmin j hj (by rw [array_list.to_list_getElem? a hv' j (by omega), e]))
    rw [array_list.find_shift_front i key a.data (by omega)] at hfind
    rw [hfind, erase_eq_eraseIdx_of_first key a.to_list i hi hmin]
    refine ⟨rfl, ?_, rfl, rfl, hv0, hv1, ?_⟩
    · unfold array_list.to_list
      simp only []
      obtain ⟨m, hm⟩ : ∃ m : Nat, a.my_size.toNat = m + 1 :=
        ⟨a.my_size.toNat - 1, by omega⟩
      rw [hm, List.take_succ_cons, array_list.eraseIdx_take _ _ _ (by omega)]
      simp
    · simp only [List.length_cons, List.length_eraseIdx]
      rw [if_pos (by omega)]
      omega
  · rw [if_neg hk]
    have habs : a.find key = (false, a) := by
      unfold array_list.find
      apply array_list.find_loop_absent
      intro j _ hj e
      apply hk
      have := array_list.to_list_getElem? a hv' j (by omega)
      rw [e] at this
      exact List.getElem?_mem this
    rw [habs]
    exact ⟨rfl, rfl, rfl, rfl, hv'⟩

theorem linked_list.list_find_refines_spec [DecidableEq T] (h : heap T) (l : linked_list T)
    (nodes : List Nat) (s : List T) (key : T) (hwf : linked_list.well_formed h l nodes s)
    (fuel : Nat) (hf : s.length < fuel) :
    ∃ h' l' nodes', linked_list.find fuel h l key
        = some (h', l', (move_to_front_spec key s).1) ∧
      linked_list.well_formed h' l' nodes' (move_to_front_spec key s).2 ∧
      l'.my_size = l.my_size := by
  unfold move_to_front_spec
  by_cases hk : key ∈ s
  · rw [if_pos hk]
    obtain ⟨i, hi, hmin⟩ := first_index_of_mem key s hk
    obtain ⟨hilt, -⟩ := List.getElem?_eq_some.1 hi
    obtain ⟨h', l', hrun, hwf', hsz⟩ :=
      linked_list.find_found h l nodes s key i hwf hi hmin fuel (by omega)
    rw [erase_eq_eraseIdx_of_first key s i hi hmin]
    exact ⟨h', l', _, hrun, hwf', hsz⟩
  · rw [if_neg hk]
    exact ⟨h, l, nodes, linked_list.find_not_found h l nodes s key hwf hk fuel hf, hwf, rfl⟩

theorem linked_list.push_back_all_well_formed : ∀ (vs : List T) (h : heap T)
    (l : linked_list T) (nodes : List Nat) (s : List T),
    linked_list.well_formed h l nodes s →
    ∃ h' l' nodes', linked_list.push_back_all vs (h, l) = some (h', l') ∧
      linked_list.well_formed h' l' nodes' (s ++ vs)
  | [], h, l, nodes, s, hwf => ⟨h, l, nodes, rfl, by simpa using hwf⟩
  | v :: vs, h, l, nodes, s, hwf => by
    obtain ⟨h1, hrun, hwf1⟩ := linked_list.push_back_well_formed h l nodes s v hwf
    obtain ⟨h2, l2, nodes2, hrun2, hwf2⟩ :=
      linked_list.push_back_all_well_formed vs h1 _ _ _ hwf1
    refine ⟨h2, l2, nodes2, ?_, by simpa using hwf2⟩
    simp only [linked_list.push_back_all, hrun, Option.bind_eq_bind, Option.some_bind]
    exact hrun2

theorem first_match_index (p : T → Bool) (s : List T) (h : ∃ x ∈ s, p x = true) :
    ∃ (i : Nat) (x : T), s[i]? = some x ∧ p x = true ∧
      ∀ (j : Nat) (y : T), j < i → s[j]? = some y → p y = false := by
  have hex : ∃ i : Nat, ∃ x, s[i]? = some x ∧ p x = true := by
    obtain ⟨x, hx, hp⟩ := h
    obtain ⟨i, hi, e⟩ := List.getElem_of_mem hx
    exact ⟨i, x, by rw [List.getElem?_eq_getElem hi, e], hp⟩
  obtain ⟨x, hx, hp⟩ := Nat.find_spec hex
  refine ⟨Nat.find hex, x, hx, hp, fun j y hj hy => ?_⟩
  by_contra hne
  exact Nat.find_min hex hj ⟨y, hy, by simpa using hne⟩

namespace array_list

theorem find_with_loop_absent [Inhabited T] (eq : T → T → Bool) (key : T)
    (a : array_list T) (n : Nat) : ∀ index : Nat,
    (∀ j, index ≤ j → j < index + n → eq key (a.data.getD j default) = false) →
    find_with_loop eq key a n index = (false, a) := by
  induction n with
  | zero => intro index _; rfl
  | succ n ih =>
    intro index h
    rw [find_with_loop, h index (Nat.le_refl _) (by omega)]
    simp only [Bool.false_eq_true, if_false]
    exact ih (index + 1) (fun j h1 h2 => h j (by omega) (by omega))

theorem find_with_loop_present [Inhabited T] (eq : T → T → Bool) (key : T)
    (a : array_list T) (i : Nat) (n : Nat) : ∀ index : Nat, index ≤ i → i < index + n →
    eq key (a.data.getD i default) = true →
    (∀ j, index ≤ j → j < i → eq key (a.data.getD j default) = false) →
    find_with_loop eq key a n index
      = (true, { a with data := find_shift (i + 1) 0 key a.data }) := by
  induction n with
  | zero => intro index h1 h2; omega
  | succ n ih =>
    intro index h1 h2 hkey hmin
    rw [find_with_loop]
    by_cases e : index = i
    · subst e
      rw [if_pos hkey]
    · rw [hmin index (Nat.le_refl _) (by omega)]
      simp only [Bool.false_eq_true, if_false]
      exact ih (index + 1) (by omega) (by omega) hkey (fun j h3 h4 => hmin j (by omega) h4)

theorem find_with_loop_eq_find_loop [Inhabited T] [DecidableEq T] (key : T)
    (a : array_list T) (n : Nat) : ∀ index : Nat,
    find_with_loop (fun x y => decide (x = y)) key a n index = find_loop key a n index := by
  induction n with
  | zero => intro index; rfl
  | succ n ih =>
    intro index
    rw [find_with_loop, find_loop, ih]
    simp only [decide_eq_true_eq]

/-- With value equality as `operator==`, `find_with` is `find`. -/
theorem find_with_eq_find [Inhabited T] [DecidableEq T] (a : array_list T) (key : T) :
    a.find_with (fun x y => decide (x = y)) key = a.find key := by
  unfold find_with find
  exact find_with_loop_eq_find_loop key a _ 0

theorem find_with_absent [Inhabited T] (eq : T → T → Bool) (a : array_list T) (key : T)
    (hv : a.valid) (habs : ∀ x ∈ a.to_list, eq key x = false) :
    a.find_with eq key = (false, a) := by
  have hv' := hv
  obtain ⟨hv0, hv1, hv2⟩ := hv
  unfold find_with
  apply find_with_loop_absent
  intro j _ hj
  apply habs
  exact List.getElem?_mem (to_list_getElem? a hv' j (by omega))

theorem find_with_present [Inhabited T] (eq : T → T → Bool) (a : array_list T) (key : T)
    (hv : a.valid) (i : Nat) (x : T) (hi : a.to_list[i]? = some x)
    (hx : eq key x = true)
    (hmin : ∀ (j : Nat) (y : T), j < i → a.to_list[j]? = some y → eq key y = false) :
    (a.find_with eq key).1 = true ∧
    (a.find_with eq key).2.to_list = key :: a.to_list.eraseIdx i := by
  have hv' := hv
  obtain ⟨hv0, hv1, hv2⟩ := hv
  have hlen : a.to_list.length = a.my_size.toNat := by
    unfold to_list
    rw [List.length_take]; omega
  obtain ⟨hilt, -⟩ := List.getElem?_eq_some.1 hi
  have hi' : (i : Int) < a.my_size := by omega
  have hkey : a.data.getD i default = x := by
    rw [to_list_getElem? a hv' i hi'] at hi
    exact Option.some.inj hi
  have hfind : a.find_with eq key
      = (true, { a with data := find_shift (i + 1) 0 key a.data }) := by
    unfold find_with
    apply find_with_loop_present eq key a i _ 0 (Nat.zero_le _) (by omega)
      (by rw [hkey]; exact hx)
    intro j _ hj
    exact hmin j _ hj (to_list_getElem? a hv' j (by omega))
  rw [find_shift_front i key a.data (by omega)] at hfind
  rw [hfind]
  refine ⟨rfl, ?_⟩
  unfold to_list
  simp only []
  obtain ⟨m, hm⟩ : ∃ m : Nat, a.my_size.toNat = m + 1 := ⟨a.my_size.toNat - 1, by omega⟩
  rw [hm, List.take_succ_cons, eraseIdx_take _ _ _ (by omega)]
  simp

end array_list

namespace linked_list

theorem list_find_with_loop_absent (eq : T → T → Bool) (key : T) (h : heap T)
    (l : linked_list T) (tl : Nat) (htl : l.tail = some tl) :
    ∀ (xs : List Nat) (vs : List T) (fuel : Nat),
    List.Chain' (linked h) (xs ++ [tl]) → tl ∉ xs → xs.map (data_of h) = vs.map some →
    (∀ v ∈ vs, eq v key = false) → xs.length < fuel →
    find_with_loop eq key h l fuel (xs ++ [tl]).head? = some (h, l, false)
  | [], vs, fuel, _, _, _, _, hf => by
    obtain ⟨f, rfl⟩ : ∃ f, fuel = f + 1 := ⟨fuel - 1, by simp at hf; omega⟩
    simp [find_with_loop, end_, htl]
  | x :: xs, vs, fuel, hch, hnot, hdat, hkey, hf => by
    obtain ⟨f, rfl⟩ : ∃ f, fuel = f + 1 := ⟨fuel - 1, by simp at hf; omega⟩
    obtain ⟨v, vs', rfl, hv, hrest⟩ := map_some_eq_cons hdat
    obtain ⟨n, hn, hnd⟩ := data_of_some h x v hv
    have hxt : x ≠ tl := fun e => hnot (by simp [e])
    obtain ⟨y, ys, hy⟩ : ∃ y ys, xs ++ [tl] = y :: ys := by
      cases xs with
      | nil => exact ⟨tl, [], rfl⟩
      | cons y ys => exact ⟨y, ys ++ [tl], rfl⟩
    have hch' : List.Chain' (linked h) (x :: y :: ys) := by rw [← hy]; exact hch
    rw [List.chain'_cons] at hch'
    obtain ⟨n', hn', hnn⟩ := next_of_some h x y hch'.1.1
    have en : n' = n := by rw [hn] at hn'; injection hn' with e; exact e.symm
    rw [en] at hnn
    have hvk : eq v key = false := hkey v (by simp)
    have ih := list_find_with_loop_absent eq key h l tl htl xs vs' f (by rw [hy]; exact hch'.2)
      (fun hm => hnot (List.mem_cons_of_mem _ hm)) hrest
      (fun w hm => hkey w (List.mem_cons_of_mem _ hm)) (by simp at hf; omega)
    rw [hy, List.head?_cons] at ih
    simp [find_with_loop, end_, htl, hxt, heap.deref, hn, hnn, hnd, hvk, ih]

theorem list_find_with_loop_present (eq : T → T → Bool) (key : T) (h : heap T)
    (l : linked_list T) (tl : Nat) (htl : l.tail = some tl) :
    ∀ (xs : List Nat) (vs : List T) (fuel : Nat) (i : Nat) (p : Nat) (v : T),
    List.Chain' (linked h) (xs ++ [tl]) → tl ∉ xs → xs.map (data_of h) = vs.map some →
    vs[i]? = some v → eq v key = true →
    (∀ (j : Nat) (y : T), j < i → vs[j]? = some y → eq y key = false) →
    xs[i]? = some p → i < fuel →
    find_with_loop eq key h l fuel (xs ++ [tl]).head? =
      (push_front h l v).bind (fun r1 =>
        (erase r1.1 r1.2 (some p)).bind (fun r2 => some (r2.1, r2.2.1, true)))
  | [], vs, fuel, i, p, v, _, _, _, _, _, _, hp, _ => by simp at hp
  | x :: xs, vs, fuel, i, p, v, hch, hnot, hdat, hi, hv, hmin, hp, hf => by
    obtain ⟨f, rfl⟩ : ∃ f, fuel = f + 1 := ⟨fuel - 1, by omega⟩
    obtain ⟨w, vs', rfl, hw, hrest⟩ := map_some_eq_cons hdat
    obtain ⟨n, hn, hnd⟩ := data_of_some h x w hw
    have hxt : x ≠ tl := fun e => hnot (by simp [e])
    cases i with
    | zero =>
      simp only [List.getElem?_cons_zero, Option.some.injEq] at hi hp
      subst hi; subst hp
      simp only [find_with_loop, List.cons_append, List.head?_cons, end_, htl,
        Option.some.injEq, if_neg hxt, heap.deref, Option.bind_eq_bind, Option.some_bind, hn,
        hnd, hv, if_true]
      rfl
    | succ i =>
      simp only [List.getElem?_cons_succ] at hi hp
      obtain ⟨y, ys, hy⟩ : ∃ y ys, xs ++ [tl] = y :: ys := by
        cases xs with
        | nil => exact ⟨tl, [], rfl⟩
        | cons y ys => exact ⟨y, ys ++ [tl], rfl⟩
      have hch' : List.Chain' (linked h) (x :: y :: ys) := by rw [← hy]; exact hch
      rw [List.chain'_cons] at hch'
      obtain ⟨n', hn', hnn⟩ := next_of_some h x y hch'.1.1
      have en : n' = n := by rw [hn] at hn'; injection hn' with e; exact e.symm
      rw [en] at hnn
      have hwk : eq w key = false := hmin 0 w (by omega) (by simp)
      have ih := list_find_with_loop_present eq key h l tl htl xs vs' f i p v
        (by rw [hy]; exact hch'.2)
        (fun hm => hnot (List.mem_cons_of_mem _ hm)) hrest hi hv
        (fun j y hj e => hmin (j + 1) y (by omega) (by simpa using e)) hp (by omega)
      rw [hy, List.head?_cons] at ih
      simp only [find_with_loop, List.cons_append, List.head?_cons, end_, htl,
        Option.some.injEq, if_neg hxt, heap.deref, Option.bind_eq_bind, Option.some_bind, hn,
        hnd, hwk, Bool.false_eq_true, if_false, hnn]
      exact ih

theorem find_with_found (eq : T → T → Bool) (h : heap T) (l : linked_list T)
    (nodes : List Nat) (s : List T) (key : T) (i : Nat) (v : T)
    (hwf : well_formed h l nodes s)
    (hi : s[i]? = some v) (hv : eq v key = true)
    (hmin : ∀ (j : Nat) (y : T), j < i → s[j]? = some y → eq y key = false)
    (fuel : Nat) (hf : i < fuel) :
    ∃ h' l', find_with eq fuel h l key = some (h', l', true) ∧
      well_formed h' l' (h.length :: nodes.eraseIdx i) (v :: s.eraseIdx i) ∧
      l'.my_size = l.my_size := by
  have hlen := well_formed_length h l nodes s hwf
  obtain ⟨hi_lt, -⟩ := List.getElem?_eq_some.1 hi
  have hp : nodes[i]? = some (nodes[i]) := List.getElem?_eq_getElem (by omega)
  obtain ⟨h1, hpush, hwf1⟩ := push_front_well_formed h l nodes s v hwf
  obtain ⟨h2, it, herase, hwf2, -⟩ := erase_at h1 _ (h.length :: nodes) (v :: s) (i + 1)
    nodes[i] hwf1 (by simp [hp])
  obtain ⟨hd, tl, hhd, htl, hnd, hch, hdat, -⟩ := hwf
  have hb := begin_well_formed h l nodes hd tl hhd hch
  have hnot : tl ∉ nodes := by
    have := (List.nodup_cons.1 hnd).2
    rw [List.nodup_append] at this
    exact fun hm => this.2.2 hm (by simp)
  have hloop := list_find_with_loop_present eq key h l tl htl nodes s fuel i nodes[i] v
    (List.chain'_cons'.1 hch).2 hnot hdat hi hv hmin hp hf
  refine ⟨h2, { l with my_size := l.my_size + 1 - 1 }, ?_, by simpa using hwf2, ?_⟩
  · unfold find_with
    rw [hb]
    simp only [Option.bind_eq_bind, Option.some_bind]
    rw [hloop, hpush]
    simp only [Option.some_bind, herase]
  · simp only []
    omega

theorem find_with_not_found (eq : T → T → Bool) (h : heap T) (l : linked_list T)
    (nodes : List Nat) (s : List T) (key : T) (hwf : well_formed h l nodes s)
    (hkey : ∀ v ∈ s, eq v key = false) (fuel : Nat) (hf : s.length < fuel) :
    find_with eq fuel h l key = some (h, l, false) := by
  have hlen := well_formed_length h l nodes s hwf
  obtain ⟨hd, tl, hhd, htl, hnd, hch, hdat, -⟩ := hwf
  have hb := begin_well_formed h l nodes hd tl hhd hch
  have hnot : tl ∉ nodes := by
    have := (List.nodup_cons.1 hnd).2
    rw [List.nodup_append] at this
    exact fun hm => this.2.2 hm (by simp)
  unfold find_with
  rw [hb]
  simp only [Option.bind_eq_bind, Option.some_bind]
  exact list_find_with_loop_absent eq key h l tl htl nodes s fuel (List.chain'_cons'.1 hch).2
    hnot hdat hkey (by omega)

theorem list_find_with_loop_eq_find_loop [DecidableEq T] (key : T) (h : heap T)
    (l : linked_list T) (fuel : Nat) : ∀ position : Option Nat,
    find_with_loop (fun x y => decide (x = y)) key h l fuel position
      = find_loop key h l fuel position := by
  induction fuel with
  | zero => intro position; rfl
  | succ fuel ih =>
    intro position
    rw [find_with_loop, find_loop]
    simp only [decide_eq_true_eq, ih]

/-- With value equality as `operator==`, the list's `find_with` is `find`. -/
theorem list_find_with_eq_find [DecidableEq T] (fuel : Nat) (h : heap T)
    (l : linked_list T) (key : T) :
    find_with (fun x y => decide (x = y)) fuel h l key = find fuel h l key := by
  unfold find_with find
  simp only [list_find_with_loop_eq_find_loop]

end linked_list

/-- C20 (counterexample). Pairs compared by their first component only, the sequence
`(1, 10)` and the key `(1, 20)`: both `find` calls return true, but the array then holds
the caller's key `(1, 20)` while the list holds the stored element `(1, 10)`. With an
`operator==` that is not symmetric (`x == y` when `x ≤ y`), the sequence `2` and the key
`1`, the array's test `key == data[index]` finds a match and the list's test
`*position == key` finds none. -/
theorem array_find_stores_key_list_find_stores_element :
    ∃ (a : array_list (Nat × Nat)) (h h' : heap (Nat × Nat)) (l l' : linked_list (Nat × Nat))
      (b : array_list Nat) (g : heap Nat) (m : linked_list Nat),
      array_list.construct 0 = Except.ok a ∧
      (linked_list.init []).bind (linked_list.push_back_all [(1, 10)]) = some (h, l) ∧
      (([(1, 10)].foldl array_list.push_back a).find_with
        (fun x y => x.1 == y.1) (1, 20)).1 = true ∧
      (([(1, 10)].foldl array_list.push_back a).find_with
        (fun x y => x.1 == y.1) (1, 20)).2.to_list = [(1, 20)] ∧
      linked_list.find_with (fun x y => x.1 == y.1) 2 h l (1, 20) = some (h', l', true) ∧
      linked_list.to_list 2 h' l' = some [(1, 10)] ∧
      array_list.construct 0 = Except.ok b ∧
      (linked_list.init []).bind (linked_list.push_back_all [2]) = some (g, m) ∧
      (([2].foldl array_list.push_back b).find_with (fun x y => decide (x ≤ y)) 1).1 = true ∧
      linked_list.find_with (fun x y => decide (x ≤ y)) 2 g m 1 = some (g, m, false) :=
  ⟨_, _, _, _, _, _, _, _, rfl, rfl, by decide, by decide, rfl, by decide, rfl, rfl,
    by decide, by decide⟩

/-- C20 (amended). For a sequence `s` of at most 715827883 values, a key and a symmetric
`operator==`, the array obtained by `push_back` of `s` (initial capacity between 0 and
`INT_MAX - 2`) and the list obtained by `push_back` of `s` give, after `find(key)` on
each, the same return value. When no element equals `key` both traversals are `s`; when
the first element equal to `key` is `x`, at position `i`, both traversals are `s` without
position `i` behind a front element, which is the stored element `x` in the list and a
copy of `key` in the array. The traversals are the same whenever `operator==` holds only
between identical values. -/
theorem array_and_list_find_agree_up_to_front [Inhabited T] (eq : T → T → Bool)
    (initial_capacity : Int) (hcap : 0 ≤ initial_capacity)
    (hmax : initial_capacity + 2 ≤ int_max)
    (s : List T) (hlen : s.length ≤ 715827883) (key : T)
    (hsymm : ∀ x : T, eq key x = eq x key)
    (h0 : heap T) (fuel : Nat) (hf : s.length < fuel) :
    ∃ a h l h' l' r t,
      array_list.construct initial_capacity = Except.ok a ∧
      (linked_list.init h0).bind (linked_list.push_back_all s) = some (h, l) ∧
      linked_list.find_with eq fuel h l key = some (h', l', r) ∧
      linked_list.has_traversal h' l' t ∧
      r = ((s.foldl array_list.push_back a).find_with eq key).1 ∧
      ((r = false ∧ (∀ x ∈ s, eq x key = false) ∧ t = s ∧
          ((s.foldl array_list.push_back a).find_with eq key).2.to_list = s) ∨
        (r = true ∧ ∃ (i : Nat) (x : T), s[i]? = some x ∧ eq x key = true ∧
          (∀ (j : Nat) (y : T), j < i → s[j]? = some y → eq y key = false) ∧
          t = x :: s.eraseIdx i ∧
          ((s.foldl array_list.push_back a).find_with eq key).2.to_list
            = key :: s.eraseIdx i)) ∧
      ((∀ x y : T, eq x y = true → x = y) →
        t = ((s.foldl array_list.push_back a).find_with eq key).2.to_list) := by
  obtain ⟨a, hc, f1, -, -, hl⟩ :=
    array_list.push_back_sequence_in_range (T := T) initial_capacity hcap hmax s hlen
  obtain ⟨h1, l1, hinit, hwf1⟩ := linked_list.init_well_formed h0
  obtain ⟨h, l, nodes, hrun, hwf⟩ := linked_list.push_back_all_well_formed s h1 l1 [] [] hwf1
  rw [List.nil_append] at hwf
  by_cases hex : ∃ x ∈ s, (fun x => eq x key) x = true
  · obtain ⟨i, x, hi, hx, hmin⟩ := first_match_index (fun x => eq x key) s hex
    have hx : eq x key = true := hx
    have hmin : ∀ (j : Nat) (y : T), j < i → s[j]? = some y → eq y key = false := hmin
    obtain ⟨hilt, -⟩ := List.getElem?_eq_some.1 hi
    obtain ⟨h', l', hfind, hwf', -⟩ :=
      linked_list.find_with_found eq h l nodes s key i x hwf hi hx hmin fuel (by omega)
    obtain ⟨p1, p2⟩ := array_list.find_with_present eq (s.foldl array_list.push_back a) key
      f1 i x (by rw [hl]; exact hi) (by rw [hsymm]; exact hx)
      (fun j y hj hy => by rw [hsymm]; exact hmin j y hj (by rw [hl] at hy; exact hy))
    rw [hl] at p2
    refine ⟨a, h, l, h', l', true, x :: s.eraseIdx i, hc, by rw [hinit]; exact hrun, hfind,
      linked_list.has_traversal_of_well_formed _ _ _ _ hwf', p1.symm,
      Or.inr ⟨rfl, i, x, hi, hx, hmin, rfl, p2⟩, fun hid => ?_⟩
    rw [p2, hid x key hx]
  · have habs : ∀ x ∈ s, eq x key = false := by
      intro x hx
      by_contra hne
      exact hex ⟨x, hx, by simpa using hne⟩
    have hfind := linked_list.find_with_not_found eq h l nodes s key hwf habs fuel hf
    have p := array_list.find_with_absent eq (s.foldl array_list.push_back a) key f1
      (by rw [hl]; intro x hx; rw [hsymm]; exact habs x hx)
    refine ⟨a, h, l, h, l, false, s, hc, by rw [hinit]; exact hrun, hfind,
      linked_list.has_traversal_of_well_formed _ _ _ _ hwf, by rw [p],
      Or.inl ⟨rfl, habs, rfl, by rw [p]; exact hl⟩, fun _ => by rw [p]; exact hl.symm⟩

/-- Witness for C20 (amended): pairs compared by their first component, an array of initial
capacity 0 (which reallocates at the third push), three pushes and the key `(2, 99)`. -/
theorem array_and_list_find_agree_up_to_front_witness :
    ∃ a h l h' l' r t,
      array_list.construct 0 = Except.ok a ∧
      (linked_list.init ([] : heap (Nat × Nat))).bind
        (linked_list.push_back_all [(1, 10), (2, 20), (3, 30)]) = some (h, l) ∧
      linked_list.find_with (fun x y => x.1 == y.1) 4 h l (2, 99) = some (h', l', r) ∧
      linked_list.has_traversal h' l' t ∧
      r = (([(1, 10), (2, 20), (3, 30)].foldl array_list.push_back a).find_with
        (fun x y => x.1 == y.1) (2, 99)).1 ∧
      ((r = false ∧ (∀ x ∈ [(1, 10), (2, 20), (3, 30)],
            (fun x y : Nat × Nat => x.1 == y.1) x (2, 99) = false) ∧
          t = [(1, 10), (2, 20), (3, 30)] ∧
          (([(1, 10), (2, 20), (3, 30)].foldl array_list.push_back a).find_with
            (fun x y => x.1 == y.1) (2, 99)).2.to_list = [(1, 10), (2, 20), (3, 30)]) ∨
        (r = true ∧ ∃ (i : Nat) (x : Nat × Nat),
          [(1, 10), (2, 20), (3, 30)][i]? = some x ∧
          (fun x y : Nat × Nat => x.1 == y.1) x (2, 99) = true ∧
          (∀ (j : Nat) (y : Nat × Nat), j < i → [(1, 10), (2, 20), (3, 30)][j]? = some y →
            (fun x y : Nat × Nat => x.1 == y.1) y (2, 99) = false) ∧
          t = x :: [(1, 10), (2, 20), (3, 30)].eraseIdx i ∧
          (([(1, 10), (2, 20), (3, 30)].foldl array_list.push_back a).find_with
            (fun x y => x.1 == y.1) (2, 99)).2.to_list
            = (2, 99) :: [(1, 10), (2, 20), (3, 30)].eraseIdx i)) ∧
      ((∀ x y : Nat × Nat, (fun x y : Nat × Nat => x.1 == y.1) x y = true → x = y) →
        t = (([(1, 10), (2, 20), (3, 30)].foldl array_list.push_back a).find_with
          (fun x y => x.1 == y.1) (2, 99)).2.to_list) :=
  array_and_list_find_agree_up_to_front (T := Nat × Nat) (fun x y => x.1 == y.1) 0
    (by decide) (by decide) [(1, 10), (2, 20), (3, 30)] (by decide) (2, 99)
    (fun x => by simp [eq_comm]) [] 4 (by decide)

end nwacc

namespace nwacc

namespace array_list

variable {T : Type}

theorem copy_loop_eq_reserve_loop [Inhabited T] (rhs_data : List T) (n : Nat) :
    ∀ (index : Nat) (data : List T),
    copy_loop rhs_data n index data = reserve_loop rhs_data n index data := by
  induction n with
  | zero => intro index data; rfl
  | succ n ih => intro index data; rw [copy_loop, reserve_loop, ih]

theorem copy_construct_eq [Inhabited T] (rhs : array_list T) (hv : rhs.valid) :
    (copy_construct rhs).valid ∧ (copy_construct rhs).my_size = rhs.my_size ∧
    (copy_construct rhs).my_capacity = rhs.my_capacity ∧
    (copy_construct rhs).to_list = rhs.to_list := by
  have hr : copy_construct rhs = rhs.reserve rhs.my_capacity := by
    unfold copy_construct reserve
    rw [if_neg (by obtain ⟨_, h1, _⟩ := hv; omega)]
    simp only [copy_loop_eq_reserve_loop]
  rw [hr]
  have hd := reserve_data rhs rhs.my_capacity hv (by obtain ⟨_, h1, _⟩ := hv; omega)
  exact ⟨reserve_valid rhs _ hv, by rw [hd], by rw [hd], reserve_to_list rhs _ hv⟩

theorem swap_eq (a b : array_list T) : swap a b = (b, a) := by
  cases a; cases b; rfl

theorem copy_assign_eq [Inhabited T] (self rhs : array_list T) :
    copy_assign self rhs = (copy_construct rhs, rhs) := by
  unfold copy_assign
  simp only [swap_eq]

end array_list

end nwacc

namespace nwacc

namespace linked_list

variable {T : Type}

theorem init_frame [Inhabited T] (h0 : heap T) :
    ∃ h l, init h0 = some (h, l) ∧ well_formed h l [] [] ∧
      h.length = h0.length + 2 ∧
      (∀ q, q < h0.length → h.read q = h0.read q) ∧
      (∀ q, some q ∈ cells l [] → h0.length ≤ q) := by
  let a : node T := { data := default, previous := none, next := none }
  let h2 : heap T := (((h0.alloc a).1).alloc a).1
  have len2 : h2.length = h0.length + 2 := by
    show (((h0.alloc a).1).alloc a).1.length = _
    rw [heap.length_alloc, heap.length_alloc]
  have r2hd : h2.read h0.length = some a := by
    show (((h0.alloc a).1).alloc a).1.read h0.length = _
    rw [heap.read_alloc_old _ _ _ (by rw [heap.length_alloc]; omega), heap.read_alloc_new]
  have r2tl : h2.read (h0.length + 1) = some a := by
    have := heap.read_alloc_new (h0.alloc a).1 a
    rw [heap.length_alloc] at this
    exact this
  have r2old : ∀ q, q < h0.length → h2.read q = h0.read q := by
    intro q hq
    show (((h0.alloc a).1).alloc a).1.read q = _
    rw [heap.read_alloc_old _ _ _ (by rw [heap.length_alloc]; omega),
      heap.read_alloc_old _ _ _ hq]
  let h3 : heap T := h2.write h0.length { a with next := some (h0.length + 1) }
  let h4 : heap T := h3.write (h0.length + 1) { a with previous := some h0.length }
  have r3tl : h3.read (h0.length + 1) = some a := by
    rw [heap.read_write_ne _ _ _ _ (by omega)]; exact r2tl
  have r4hd : h4.read h0.length = some { a with next := some (h0.length + 1) } := by
    rw [heap.read_write_ne _ _ _ _ (by omega),
      heap.read_write_same _ _ _ (by rw [len2]; omega)]
  have r4tl : h4.read (h0.length + 1) = some { a with previous := some h0.length } := by
    rw [heap.read_write_same _ _ _ (by rw [heap.length_write, len2]; omega)]
  have hrun : init h0 = some (h4, ⟨0, some h0.length, some (h0.length + 1)⟩) := by
    have r2hd' : heap.read (h0 ++ [some a] ++ [some a]) h0.length = some a := r2hd
    have r3tl' : heap.read (heap.write (h0 ++ [some a] ++ [some a]) h0.length
        (node.mk a.data a.previous (some (h0.length + 1)))) (h0.length + 1) = some a := r3tl
    simp only [init, heap.alloc, heap.set_next, heap.set_previous, Option.bind_eq_bind,
      Option.some_bind, Option.pure_def, List.length_append, List.length_singleton]
    rw [r2hd']
    simp only [Option.some_bind]
    rw [r3tl']
    rfl
  refine ⟨h4, _, hrun, ⟨h0.length, h0.length + 1, rfl, rfl, by simp, ?_, rfl, rfl⟩, ?_, ?_, ?_⟩
  · rw [List.nil_append, List.chain'_cons]
    refine ⟨⟨?_, ?_⟩, List.chain'_singleton _⟩
    · unfold next_of; rw [r4hd]; rfl
    · unfold previous_of; rw [r4tl]; rfl
  · show (heap.write (heap.write h2 _ _) _ _).length = _
    rw [heap.length_write, heap.length_write, len2]
  · intro q hq
    rw [heap.read_write_ne _ _ _ _ (by omega), heap.read_write_ne _ _ _ _ (by omega)]
    exact r2old q hq
  · intro q hq
    unfold cells at hq
    simp only [List.map_nil, List.nil_append, List.mem_cons, Option.some.injEq,
      List.mem_singleton, List.not_mem_nil, or_false] at hq
    omega

theorem chain_of_read_eq (h h' : heap T) (cs : List Nat)
    (hr : ∀ x ∈ cs, h'.read x = h.read x) (hch : List.Chain' (linked h) cs) :
    List.Chain' (linked h') cs := by
  apply chain_frame _ hch
  intro x y hx hy hl
  unfold linked next_of previous_of at hl ⊢
  rw [hr x (List.mem_of_mem_dropLast hx), hr y (List.mem_of_mem_tail hy)]
  exact hl

theorem cells_push_back (l : linked_list T) (nodes : List Nat) (n : Nat) (m : Int)
    (q : Option Nat)
    (hq : q ∈ cells (linked_list.mk m l.head l.tail : linked_list T) (nodes ++ [n])) :
    q ∈ cells l nodes ∨ q = some n := by
  unfold cells at hq ⊢
  simp only [List.map_append, List.map_cons, List.map_nil, List.mem_cons, List.mem_append,
    List.mem_singleton, List.not_mem_nil, or_false] at hq ⊢
  tauto

theorem copy_loop_correct (n0 : Nat) (tl : Nat) : ∀ (xs : List Nat) (vs : List T)
    (fuel : Nat) (h : heap T) (self : linked_list T) (nodes : List Nat) (s : List T),
    well_formed h self nodes s → (∀ q, some q ∈ cells self nodes → n0 ≤ q) →
    n0 ≤ h.length →
    List.Chain' (linked h) (xs ++ [tl]) → tl ∉ xs → xs.map (data_of h) = vs.map some →
    (∀ x ∈ xs ++ [tl], x < n0) → xs.length < fuel →
    ∃ h' self' nodes', copy_loop (some tl) fuel h self (xs ++ [tl]).head?
        = some (h', self') ∧
      well_formed h' self' nodes' (s ++ vs) ∧
      (∀ q, some q ∈ cells self' nodes' → n0 ≤ q) ∧
      (∀ q, q < n0 → h'.read q = h.read q) ∧ h.length ≤ h'.length
  | [], vs, fuel, h, self, nodes, s, hwf, hc, _, _, _, hdat, _, hf => by
    obtain ⟨f, rfl⟩ : ∃ f, fuel = f + 1 := ⟨fuel - 1, by simp at hf; omega⟩
    have : vs = [] := by simpa using hdat.symm
    subst this
    refine ⟨h, self, nodes, ?_, by simpa using hwf, hc, fun _ _ => rfl, le_refl _⟩
    simp [copy_loop]
  | x :: xs, vs, fuel, h, self, nodes, s, hwf, hc, hn0, hch, hnot, hdat, hlow, hf => by
    obtain ⟨f, rfl⟩ : ∃ f, fuel = f + 1 := ⟨fuel - 1, by simp at hf; omega⟩
    obtain ⟨v, vs', rfl, hv, hrest⟩ := map_some_eq_cons hdat
    obtain ⟨n, hn, hnd⟩ := data_of_some h x v hv
    have hxt : x ≠ tl := fun e => hnot (by simp [e])
    obtain ⟨y, ys, hy⟩ : ∃ y ys, xs ++ [tl] = y :: ys := by
      cases xs with
      | nil => exact ⟨tl, [], rfl⟩
      | cons y ys => exact ⟨y, ys ++ [tl], rfl⟩
    have hch' : List.Chain' (linked h) (x :: y :: ys) := by rw [← hy]; exact hch
    rw [List.chain'_cons] at hch'
    obtain ⟨n', hn', hnn⟩ := next_of_some h x y hch'.1.1
    have en : n' = n := by rw [hn] at hn'; injection hn' with e; exact e.symm
    rw [en] at hnn
    obtain ⟨h1, hpush, hwf1, hlen1, hfr1⟩ := push_back_frame h self nodes s v hwf
    have hold : ∀ q, q < n0 → h1.read q = h.read q := fun q hq =>
      hfr1 q (fun hm => by have := hc q hm; omega) (by omega)
    have hxs : ∀ z ∈ xs ++ [tl], z < n0 := fun z hz =>
      hlow z (by rw [List.cons_append]; exact List.mem_cons_of_mem _ hz)
    have hx0 : x < n0 := hlow x (by simp)
    have hc1 : ∀ q, some q ∈ cells (linked_list.mk (self.my_size + 1) self.head self.tail
        : linked_list T) (nodes ++ [h.length]) → n0 ≤ q := by
      intro q hq
      rcases cells_push_back self nodes h.length _ _ hq with hq1 | hq2
      · exact hc q hq1
      · rw [Option.some.inj hq2]; exact hn0
    obtain ⟨h', self', nodes', hloop, hwf', hc', hfr', hlen'⟩ :=
      copy_loop_correct n0 tl xs vs' f h1 _ _ _ hwf1 hc1 (by omega)
        (chain_of_read_eq h h1 _ (fun z hz => hold z (hxs z hz)) (by rw [hy]; exact hch'.2))
        (fun hm => hnot (List.mem_cons_of_mem _ hm))
        (by
          rw [← hrest]
          apply List.map_congr_left
          intro z hz
          unfold data_of
          rw [hold z (hxs z (by simp [hz]))])
        hxs (by simp at hf; omega)
    refine ⟨h', self', nodes', ?_, by simpa using hwf', hc',
      fun q hq => (hfr' q hq).trans (hold q hq), by omega⟩
    rw [hy, List.head?_cons] at hloop
    have hn1 : h1.read x = some n := by rw [hold x hx0]; exact hn
    simp only [copy_loop, List.cons_append, List.head?_cons, Option.some.injEq, if_neg hxt,
      heap.deref, Option.bind_eq_bind, Option.some_bind, hn, hnd, hpush, hn1, hnn]
    exact hloop

theorem copy_construct_correct [Inhabited T] (h : heap T) (rhs : linked_list T)
    (nodes : List Nat) (s : List T) (hwf : well_formed h rhs nodes s) (fuel : Nat)
    (hf : s.length < fuel) :
    ∃ h' self nodes', copy_construct fuel h rhs = some (h', self) ∧
      well_formed h' self nodes' s ∧ well_formed h' rhs nodes s ∧
      (∀ q, some q ∈ cells self nodes' → h.length ≤ q) ∧
      (∀ q, q < h.length → h'.read q = h.read q) := by
  have hlen := well_formed_length h rhs nodes s hwf
  have hlive := well_formed_live h rhs nodes s hwf
  obtain ⟨h1, l1, hinit, hwf1, hlen1, hold1, hc1⟩ := init_frame h
  have hwfr1 : well_formed h1 rhs nodes s :=
    well_formed_frame h h1 rhs nodes s hwf (fun q hq => hold1 q (hlive q hq))
  obtain ⟨hd, tl, hhd, htl, hnd, hch, hdat, -⟩ := hwfr1
  have hb := begin_well_formed h1 rhs nodes hd tl hhd hch
  have hnot : tl ∉ nodes := by
    have := (List.nodup_cons.1 hnd).2
    rw [List.nodup_append] at this
    exact fun hm => this.2.2 hm (by simp)
  obtain ⟨h', self, nodes', hloop, hwf', hc', hfr', -⟩ :=
    copy_loop_correct h.length tl nodes s fuel h1 l1 [] [] hwf1 hc1 (by omega)
      (List.chain'_cons'.1 hch).2 hnot hdat
      (fun x hx => hlive x ((mem_cells rhs nodes hd tl hhd htl x).2
        (List.mem_cons_of_mem _ hx))) (by omega)
  refine ⟨h', self, nodes', ?_, by simpa using hwf', ?_, hc',
    fun q hq => (hfr' q hq).trans (hold1 q hq)⟩
  · unfold copy_construct
    rw [hinit]
    simp only [Option.bind_eq_bind, Option.some_bind, hb, end_, htl]
    exact hloop
  · exact well_formed_frame h h' rhs nodes s hwf
      (fun q hq => (hfr' q (hlive q hq)).trans (hold1 q (hlive q hq)))

end linked_list

end nwacc

namespace nwacc

namespace linked_list

variable {T : Type}

theorem cells_tail (l : linked_list T) (nodes : List Nat) (m : Int) (q : Option Nat)
    (hq : q ∈ cells (linked_list.mk m l.head l.tail : linked_list T) nodes.tail) :
    q ∈ cells l nodes := by
  unfold cells at hq ⊢
  cases nodes with
  | nil => exact hq
  | cons x xs =>
    simp only [List.tail_cons, List.map_cons, List.mem_cons, List.mem_append,
      List.mem_singleton, List.cons_append] at hq ⊢
    tauto

theorem clear_correct : ∀ (s : List T) (h : heap T) (l : linked_list T) (nodes : List Nat)
    (fuel : Nat), well_formed h l nodes s → s.length < fuel →
    ∃ h' l', clear fuel h l = some (h', l') ∧ well_formed h' l' [] [] ∧
      l'.head = l.head ∧ l'.tail = l.tail ∧
      (∀ q, some q ∉ cells l nodes → h'.read q = h.read q)
  | [], h, l, nodes, fuel, hwf, hf => by
    obtain ⟨f, rfl⟩ : ∃ f, fuel = f + 1 := ⟨fuel - 1, by simp at hf; omega⟩
    have hsz := well_formed_size h l nodes [] hwf
    have hlen := well_formed_length h l nodes [] hwf
    have hn : nodes = [] := by simpa using hlen
    subst hn
    refine ⟨h, l, ?_, hwf, rfl, rfl, fun _ _ => rfl⟩
    have he : l.empty = true := by unfold empty; simpa using hsz
    rw [clear, if_pos he]
  | v :: s, h, l, nodes, fuel, hwf, hf => by
    obtain ⟨f, rfl⟩ : ∃ f, fuel = f + 1 := ⟨fuel - 1, by simp at hf; omega⟩
    have hsz := well_formed_size h l nodes (v :: s) hwf
    have he : ¬ l.empty = true := by
      unfold empty
      simp only [decide_eq_true_eq]
      rw [hsz, List.length_cons]
      push_cast
      omega
    obtain ⟨h1, hpop, hwf1, -, hfr1⟩ := pop_front_frame h l nodes v s hwf
    obtain ⟨h', l', hclr, hwf', hhd, htl, hfr'⟩ :=
      clear_correct s h1 _ nodes.tail f hwf1 (by simp at hf; omega)
    refine ⟨h', l', ?_, hwf', hhd, htl, fun q hq => ?_⟩
    · rw [clear, if_neg he]
      simp only [Option.bind_eq_bind, hpop, Option.some_bind]
      exact hclr
    · rw [hfr' q (fun hm => hq (cells_tail l nodes _ _ hm)), hfr1 q hq]

theorem destroy_correct (s : List T) (h : heap T) (l : linked_list T) (nodes : List Nat)
    (fuel : Nat) (hwf : well_formed h l nodes s) (hf : s.length < fuel) :
    ∃ h', destroy fuel h l = some h' ∧
      (∀ q, some q ∉ cells l nodes → h'.read q = h.read q) := by
  obtain ⟨h1, l1, hclr, hwf1, hhd1, htl1, hfr1⟩ := clear_correct s h l nodes fuel hwf hf
  obtain ⟨hd, tl, hhd, htl, hnd, hch, -, -⟩ := hwf1
  rw [List.nil_append, List.chain'_cons] at hch
  obtain ⟨nh, hnh, -⟩ := next_of_some h1 hd tl hch.1.1
  obtain ⟨nt, hnt, -⟩ := previous_of_some h1 hd tl hch.1.2
  have hne : hd ≠ tl := by
    intro e
    rw [e] at hnd
    simp at hnd
  have hnt' : (h1.free hd).read tl = some nt := by
    rw [heap.read_free_ne _ _ _ hne]; exact hnt
  refine ⟨(h1.free hd).free tl, ?_, fun q hq => ?_⟩
  · unfold destroy
    simp only [Option.bind_eq_bind, hclr, Option.some_bind, hhd, htl, heap.delete, hnh,
      Option.pure_def, hnt']
  · have hqh : q ≠ hd := by
      intro e
      apply hq
      unfold cells
      rw [← hhd1, hhd, e]
      simp
    have hqt : q ≠ tl := by
      intro e
      apply hq
      unfold cells
      rw [← htl1, htl, e]
      simp
    rw [heap.read_free_ne _ _ _ (Ne.symm hqt), heap.read_free_ne _ _ _ (Ne.symm hqh),
      hfr1 q hq]

theorem list_swap_eq (fuel : Nat) (h : heap T) (a b : linked_list T) :
    swap (fuel + 1) h a b = some (h, b, a) := by
  cases a; cases b; rfl

theorem copy_assign_correct [Inhabited T] (h : heap T) (self rhs : linked_list T)
    (nt ns : List Nat) (t s : List T) (ht : well_formed h self nt t)
    (hs : well_formed h rhs ns s)
    (fuel : Nat) (hfs : s.length < fuel) (hft : t.length < fuel) :
    ∃ h' self' nodes', copy_assign fuel h self rhs = some (h', self', rhs) ∧
      well_formed h' self' nodes' s ∧
      ((∀ q, q ∈ cells self nt → q ∉ cells rhs ns) → well_formed h' rhs ns s) := by
  obtain ⟨f, rfl⟩ : ∃ f, fuel = f + 1 := ⟨fuel - 1, by omega⟩
  have hlive := well_formed_live h self nt t ht
  obtain ⟨h1, copy, nc, hcopy, hwfc, hwfr, hfresh, hold⟩ :=
    copy_construct_correct h rhs ns s hs (f + 1) hfs
  have ht1 : well_formed h1 self nt t :=
    well_formed_frame h h1 self nt t ht (fun q hq => hold q (hlive q hq))
  obtain ⟨h2, hdes, hfr2⟩ := destroy_correct t h1 self nt (f + 1) ht1 hft
  refine ⟨h2, copy, nc, ?_, ?_, fun hdisj => ?_⟩
  · unfold copy_assign
    simp only [Option.bind_eq_bind, hcopy, Option.some_bind, list_swap_eq, hdes,
      Option.pure_def]
  · apply well_formed_frame h1 h2 copy nc s hwfc
    intro q hq
    apply hfr2
    intro hm
    have h1' := hfresh q hq
    have h2' := hlive q hm
    omega
  · apply well_formed_frame h1 h2 rhs ns s hwfr
    intro q hq
    exact hfr2 q (fun hm => hdisj _ hm hq)

end linked_list

/-- C18. Copy law, for both containers: copy construction and copy assignment (copy
construction followed by `std::swap`, which is one move construction and two move
assignments) give a destination whose `size()` and element sequence equal the source's at
the time of the copy, and leave the source's size and elements unchanged; assigning a list
to itself also leaves it with the same size and elements. -/
theorem copy_equals_source {T : Type} [Inhabited T] (a_src a_dst : array_list T)
    (ha : a_src.valid) (h : heap T) (src dst : linked_list T) (ns nt : List Nat)
    (s t : List T) (hs : linked_list.well_formed h src ns s)
    (ht : linked_list.well_formed h dst nt t)
    (hdisj : ∀ q, q ∈ linked_list.cells dst nt → q ∉ linked_list.cells src ns)
    (fuel : Nat) (hfs : s.length < fuel) (hft : t.length < fuel) :
    ((array_list.copy_construct a_src).size = a_src.size ∧
      (array_list.copy_construct a_src).to_list = a_src.to_list ∧
      (array_list.copy_assign a_dst a_src).1.size = a_src.size ∧
      (array_list.copy_assign a_dst a_src).1.to_list = a_src.to_list ∧
      (array_list.copy_assign a_dst a_src).2 = a_src) ∧
    (∃ h' c, linked_list.copy_construct fuel h src = some (h', c) ∧
      linked_list.has_traversal h' c s ∧ c.size = src.size ∧
      linked_list.has_traversal h' src s) ∧
    (∃ h' d, linked_list.copy_assign fuel h dst src = some (h', d, src) ∧
      linked_list.has_traversal h' d s ∧ d.size = src.size ∧
      linked_list.has_traversal h' src s) ∧
    (∃ h' d, linked_list.copy_assign fuel h src src = some (h', d, src) ∧
      linked_list.has_traversal h' d s ∧ d.size = src.size) := by
  obtain ⟨-, c2, -, c4⟩ := array_list.copy_construct_eq a_src ha
  refine ⟨⟨c2, c4, ?_, ?_, ?_⟩, ?_, ?_, ?_⟩
  · rw [array_list.copy_assign_eq]; exact c2
  · rw [array_list.copy_assign_eq]; exact c4
  · rw [array_list.copy_assign_eq]
  · obtain ⟨h', c, nc, hrun, hwfc, hwfr, -, -⟩ :=
      linked_list.copy_construct_correct h src ns s hs fuel hfs
    refine ⟨h', c, hrun, linked_list.has_traversal_of_well_formed _ _ _ _ hwfc, ?_,
      linked_list.has_traversal_of_well_formed _ _ _ _ hwfr⟩
    rw [linked_list.well_formed_size _ _ _ _ hwfc, linked_list.well_formed_size _ _ _ _ hs]
  · obtain ⟨h', d, nd, hrun, hwfd, hwfr⟩ :=
      linked_list.copy_assign_correct h dst src nt ns t s ht hs fuel hfs hft
    refine ⟨h', d, hrun, linked_list.has_traversal_of_well_formed _ _ _ _ hwfd, ?_,
      linked_list.has_traversal_of_well_formed _ _ _ _ (hwfr hdisj)⟩
    rw [linked_list.well_formed_size _ _ _ _ hwfd, linked_list.well_formed_size _ _ _ _ hs]
  · obtain ⟨h', d, nd, hrun, hwfd, -⟩ :=
      linked_list.copy_assign_correct h src src ns ns s s hs hs fuel hfs hfs
    refine ⟨h', d, hrun, linked_list.has_traversal_of_well_formed _ _ _ _ hwfd, ?_⟩
    rw [linked_list.well_formed_size _ _ _ _ hwfd, linked_list.well_formed_size _ _ _ _ hs]

end nwacc

namespace nwacc

/-- Witness for C18: the array 7, 8 copied, and in one heap the list holding 7 (cells 0, 1,
2) copied and assigned over an empty list (cells 3, 4). -/
theorem copy_equals_source_witness :
    (array_list.copy_assign (T := Nat) ⟨0, 0, []⟩ ⟨2, 2, [7, 8]⟩).1.to_list = [7, 8] ∧
    (∃ h' c, linked_list.copy_construct (T := Nat) 2
        [some ⟨0, none, some 2⟩, some ⟨0, some 2, none⟩, some ⟨7, some 0, some 1⟩,
          some ⟨0, none, some 4⟩, some ⟨0, some 3, none⟩]
        ⟨1, some 0, some 1⟩ = some (h', c) ∧
      linked_list.has_traversal h' c [7] ∧
      c.size = (linked_list.mk (T := Nat) 1 (some 0) (some 1)).size ∧
      linked_list.has_traversal h' ⟨1, some 0, some 1⟩ [7]) ∧
    (∃ h' d, linked_list.copy_assign (T := Nat) 2
        [some ⟨0, none, some 2⟩, some ⟨0, some 2, none⟩, some ⟨7, some 0, some 1⟩,
          some ⟨0, none, some 4⟩, some ⟨0, some 3, none⟩]
        ⟨0, some 3, some 4⟩ ⟨1, some 0, some 1⟩ = some (h', d, ⟨1, some 0, some 1⟩) ∧
      linked_list.has_traversal h' d [7] ∧
      d.size = (linked_list.mk (T := Nat) 1 (some 0) (some 1)).size ∧
      linked_list.has_traversal h' ⟨1, some 0, some 1⟩ [7]) := by
  have h := copy_equals_source (T := Nat) ⟨2, 2, [7, 8]⟩ ⟨0, 0, []⟩ (by decide)
    [some ⟨0, none, some 2⟩, some ⟨0, some 2, none⟩, some ⟨7, some 0, some 1⟩,
      some ⟨0, none, some 4⟩, some ⟨0, some 3, none⟩]
    ⟨1, some 0, some 1⟩ ⟨0, some 3, some 4⟩ [2] [] [7] []
    ⟨0, 1, rfl, rfl, by decide,
      by simp [linked_list.linked, linked_list.next_of, linked_list.previous_of, heap.read],
      by decide, rfl⟩
    ⟨3, 4, rfl, rfl, by decide,
      by simp [linked_list.linked, linked_list.next_of, linked_list.previous_of, heap.read],
      by decide, rfl⟩
    (by decide) 2 (by decide) (by decide)
  exact ⟨h.1.2.2.2.1, h.2.1, h.2.2.1⟩

end nwacc

namespace nwacc

variable {T : Type}

theorem move_to_front_spec_length [DecidableEq T] (key : T) (s : List T) :
    (move_to_front_spec key s).2.length = s.length := by
  unfold move_to_front_spec
  split_ifs with hk
  · have hpos : 0 < s.length := List.length_pos_of_mem hk
    simp only [List.length_cons]
    rw [List.length_erase_of_mem hk]
    omega
  · rfl

theorem move_to_front_spec_idempotent [DecidableEq T] (key : T) (s : List T) :
    move_to_front_spec key (move_to_front_spec key s).2 = move_to_front_spec key s := by
  unfold move_to_front_spec
  by_cases hk : key ∈ s
  · rw [if_pos hk]
    simp
  · rw [if_neg hk]
    simp only [if_neg hk]

theorem array_list.find_fixed_point [Inhabited T] [DecidableEq T] (a : array_list T)
    (key : T) (hv : a.valid) : (a.find key).2.find key = a.find key := by
  have hv' := hv
  obtain ⟨hv0, hv1, hv2⟩ := hv
  have hlen : a.to_list.length = a.my_size.toNat := by
    unfold array_list.to_list
    rw [List.length_take]; omega
  by_cases hk : key ∈ a.to_list
  · obtain ⟨i, hi, hmin⟩ := first_index_of_mem key a.to_list hk
    obtain ⟨hilt, -⟩ := List.getElem?_eq_some.1 hi
    have hi' : (i : Int) < a.my_size := by omega
    have hkey : a.data.getD i default = key := by
      rw [array_list.to_list_getElem? a hv' i hi'] at hi
      exact Option.some.inj hi
    have hfind := array_list.find_eq_of_first a key i hi' hkey (fun j hj e =>
      hmin j hj (by rw [array_list.to_list_getElem? a hv' j (by omega), e]))
    rw [array_list.find_shift_front i key a.data (by omega)] at hfind
    rw [hfind]
    have hsecond := array_list.find_eq_of_first
      (array_list.mk a.my_size a.my_capacity (key :: a.data.eraseIdx i)) key 0
      (by simp only []; omega) rfl (fun j hj => absurd hj (Nat.not_lt_zero j))
    rw [array_list.find_shift_front 0 key _ (by simp)] at hsecond
    exact hsecond
  · have habs : a.find key = (false, a) := by
      unfold array_list.find
      apply array_list.find_loop_absent
      intro j _ hj e
      apply hk
      have := array_list.to_list_getElem? a hv' j (by omega)
      rw [e] at this
      exact List.getElem?_mem this
    rw [habs]
    exact habs

/-- C21. `find` is idempotent: on every array satisfying the data model and on every
well-formed list, calling `find(key)` twice in succession returns the same result both
times and leaves the container with the same element sequence and size (and, for the
array, the same capacity: the second call returns the very same array state) as calling it
once. -/
theorem find_twice_same_as_once [Inhabited T] [DecidableEq T] (a : array_list T) (key : T)
    (hv : a.valid) (h : heap T) (l : linked_list T) (nodes : List Nat) (s : List T)
    (hwf : linked_list.well_formed h l nodes s) (fuel : Nat) (hf : s.length < fuel) :
    ((a.find key).2.find key = a.find key ∧
      ((a.find key).2.find key).1 = (a.find key).1 ∧
      ((a.find key).2.find key).2.to_list = (a.find key).2.to_list ∧
      ((a.find key).2.find key).2.size = (a.find key).2.size ∧
      ((a.find key).2.find key).2.capacity = (a.find key).2.capacity) ∧
    (∃ h1 l1 r1 h2 l2 r2 t, linked_list.find fuel h l key = some (h1, l1, r1) ∧
      linked_list.find fuel h1 l1 key = some (h2, l2, r2) ∧ r2 = r1 ∧
      linked_list.has_traversal h1 l1 t ∧ linked_list.has_traversal h2 l2 t ∧
      l2.size = l1.size ∧ (r1, t) = move_to_front_spec key s) := by
  constructor
  · obtain ⟨a1, a2, -, -, a5⟩ := array_list.find_refines_spec a key hv
    obtain ⟨b1, b2, b3, b4, -⟩ := array_list.find_refines_spec (a.find key).2 key a5
    refine ⟨array_list.find_fixed_point a key hv, ?_, ?_, b3, b4⟩
    · rw [b1, a2, move_to_front_spec_idempotent, a1]
    · rw [b2, a2, move_to_front_spec_idempotent]
  · obtain ⟨h1, l1, n1, hrun1, hwf1, -⟩ :=
      linked_list.list_find_refines_spec h l nodes s key hwf fuel hf
    obtain ⟨h2, l2, n2, hrun2, hwf2, hsz2⟩ :=
      linked_list.list_find_refines_spec h1 l1 n1 _ key hwf1 fuel
        (by rw [move_to_front_spec_length]; exact hf)
    rw [move_to_front_spec_idempotent] at hrun2 hwf2
    exact ⟨h1, l1, _, h2, l2, _, _, hrun1, hrun2, rfl,
      linked_list.has_traversal_of_well_formed _ _ _ _ hwf1,
      linked_list.has_traversal_of_well_formed _ _ _ _ hwf2, hsz2, rfl⟩

/-- Witness for C21: `find("Daniel")` twice on the array Lela, Daniel and on the driver's
list. -/
theorem find_twice_same_as_once_witness :
    (((array_list.find (T := String) ⟨2, 3, ["Lela", "Daniel", ""]⟩ "Daniel").2.find
        "Daniel").2.to_list
      = (array_list.find (T := String) ⟨2, 3, ["Lela", "Daniel", ""]⟩ "Daniel").2.to_list) ∧
    (∃ h1 l1 r1 h2 l2 r2 t,
      linked_list.find 5 linked_list.driver_heap linked_list.driver_names "Daniel"
        = some (h1, l1, r1) ∧
      linked_list.find 5 h1 l1 "Daniel" = some (h2, l2, r2) ∧ r2 = r1 ∧
      linked_list.has_traversal h1 l1 t ∧ linked_list.has_traversal h2 l2 t ∧
      l2.size = l1.size ∧
      (r1, t) = move_to_front_spec "Daniel" ["Tamara", "Lela", "Daniel", "Shane"]) := by
  have h := find_twice_same_as_once (T := String) ⟨2, 3, ["Lela", "Daniel", ""]⟩ "Daniel"
    (by decide) linked_list.driver_heap linked_list.driver_names [5, 4, 3, 2]
    ["Tamara", "Lela", "Daniel", "Shane"] linked_list.driver_names_well_formed 5
    (by decide)
  exact ⟨h.1.2.2.1, h.2⟩

end nwacc
